import Mathlib

/-!
# performonkey/common: a verification development

A shallow embedding of the packages `cli` (`src/cli/cli.go`), `e` (`src/e/error.go`) and
`fetch` (`src/fetch/fetch.go`), and of the parts of the Go standard library that `fetch`
calls (`net/textproto` header keys, `net/url`, `io.ReadAll`, `http.MaxBytesReader`),
followed by theorems about the embedded functions.

Conventions.
* A Go `string` is a byte sequence. It is represented by a Lean `String` whose
  characters stand for the bytes (code point = byte value); every function below
  works on the character list `s.data`.
* A Go `int` / `int64` is an `Int`; no operation used here can overflow.
* A function that returns `(value, error)` returns an explicit result type; a
  run-time panic is a result of its own.
-/

/-! # Package `cli`: command dispatch -/

namespace cli

/-- Go `cli.Command`. A handler is a Go function `func([]string) error`: it acts on the
state `σ` of the program and returns an error of type `ε` or nil; the nil function is
`none`. -/
structure Command (σ ε : Type) where
  Description : String
  Handle : Option (List String → σ → Option ε × σ)

/-- Go `cli.Commands`, a `map[string]Command`, as an association list; `range` visits the
entries in an order Go leaves open, here the order of the list. -/
abbrev Commands (σ ε : Type) := List (String × Command σ ε)

/-- How a call ends: it returns an error or nil, or it panics. -/
inductive Outcome (ε : Type)
  | returned (err : Option ε)
  | panicked (msg : String)
  deriving DecidableEq, Repr

/-- What a call of `Parse` or `Usage` leaves behind: how it ended, what it wrote to the
standard output itself, and the state of the program. -/
structure Run (σ ε : Type) where
  outcome : Outcome ε
  stdout : List String
  state : σ
  deriving DecidableEq, Repr

/-- The text Go `Commands.Usage` prints: the line "Commands:" and one line per command with
its name and description. -/
def usageText {σ ε : Type} (c : Commands σ ε) : List String :=
  "Commands:\n" :: c.map fun entry => "\t" ++ entry.1 ++ "\t\t\t" ++ entry.2.Description ++ "\n"

/-- Go `Commands.Usage`: prints the usage text and returns nil. -/
def Commands.Usage {σ ε : Type} (c : Commands σ ε) (w : σ) : Run σ ε :=
  { outcome := .returned none, stdout := usageText c, state := w }

/-- Go `Commands.Parse`: the usage for an empty argument list or an unknown command, else
the call `command.Handle(args[1:])`, whose result is returned; calling a nil `Handle`
panics. -/
def Commands.Parse {σ ε : Type} (c : Commands σ ε) (args : List String) (w : σ) : Run σ ε :=
  match args with
  | [] => Commands.Usage c w
  | name :: rest =>
    match c.lookup name with
    | none => Commands.Usage c w
    | some command =>
      match command.Handle with
      | none =>
        { outcome := .panicked "runtime error: invalid memory address or nil pointer dereference",
          stdout := [], state := w }
      | some handle =>
        { outcome := .returned (handle rest w).1, stdout := [], state := (handle rest w).2 }

/-- A handler that counts the arguments it gets into the state and fails on none. -/
def countHandler : List String → Nat → Option String × Nat :=
  fun args w => (if args.isEmpty then some "no arguments" else none, w + args.length)

/-- A table with the commands "count" and "noop". -/
def sampleCommands : Commands Nat String :=
  [("count", { Description := "count the arguments", Handle := some countHandler }),
   ("noop", { Description := "do nothing", Handle := some fun _ w => (none, w) })]

/-- A table whose command "broken" is registered with the zero value of `Handle`, the nil
function: `Commands{"broken": {Description: "no handler"}}`. -/
def brokenCommands : Commands Nat String :=
  [("broken", { Description := "no handler", Handle := none })]

end cli

/-! # Package `e`: annotated errors -/

namespace e

/-- Go `e.Error`, the struct, with the type of its field `Cause` left open: the field
holds a Go `error`, which can itself be an `*Error`. -/
structure ErrorOf (γ : Type) where
  IsPublic : Bool
  Code : String
  Message : String
  Cause : γ
  File : String
  Line : Int
  deriving DecidableEq, Repr

/-- A Go `error` value as package `e` meets it: the nil interface, an `*Error`, or an error
of another type, of which only the text its `Error()` returns matters. -/
inductive GoError
  | nil
  | foreign (text : String)
  | ptr (err : ErrorOf GoError)
  deriving Repr

/-- Go `e.Error`. -/
abbrev Error := ErrorOf GoError

/-- The method `Error()` of an `error` value. For an `*Error` this is Go `(*Error).Error`
(error.go, lines 22-32): a private error renders as `Message [Code]`, a public one as
`text [File:Line]` where the text is `Cause.Error()` when there is a cause and the message
otherwise. Go does not call a method on the nil interface, nor does this package. -/
def GoError.Error : GoError → String
  | .nil => ""
  | .foreign text => text
  | .ptr ⟨isPublic, code, message, cause, file, line⟩ =>
    if !isPublic then message ++ " [" ++ code ++ "]"
    else
      match cause with
      | .nil => message ++ " [" ++ file ++ ":" ++ toString line ++ "]"
      | c => GoError.Error c ++ " [" ++ file ++ ":" ++ toString line ++ "]"

set_option linter.dupNamespace false in
/-- Go `(*Error).Error`. -/
def Error.Error (err : e.Error) : String := GoError.Error (.ptr err)

/-- Go `(*Error).MarshalText`. -/
def Error.MarshalText (err : e.Error) : List Char := (Error.Error err).data

/-- Go `filepath.Base` for slash-separated paths: the last element of the path, "." for
the empty path and "/" for a path of slashes only. -/
def Base (path : List Char) : List Char :=
  if path.isEmpty then ['.']
  else
    let stripped := (path.reverse.dropWhile (· = '/')).reverse
    let last := (stripped.reverse.takeWhile (· != '/')).reverse
    if last.isEmpty then ['/'] else last

/-- The eight bits of a byte, the highest first. -/
def bitsOfByte (b : Nat) : List Bool :=
  [128, 64, 32, 16, 8, 4, 2, 1].map fun p => (b / p) % 2 = 1

/-- The number five bits stand for, the highest first. -/
def fiveBits (b0 b1 b2 b3 b4 : Bool) : Nat :=
  b0.toNat * 16 + b1.toNat * 8 + b2.toNat * 4 + b3.toNat * 2 + b4.toNat

/-- The bits cut in groups of five, the last group filled up with zero bits. -/
def groupsOfFive : List Bool → List Nat
  | [] => []
  | [b0] => [fiveBits b0 false false false false]
  | [b0, b1] => [fiveBits b0 b1 false false false]
  | [b0, b1, b2] => [fiveBits b0 b1 b2 false false]
  | [b0, b1, b2, b3] => [fiveBits b0 b1 b2 b3 false]
  | b0 :: b1 :: b2 :: b3 :: b4 :: rest => fiveBits b0 b1 b2 b3 b4 :: groupsOfFive rest

/-- The alphabet of Go `base32.HexEncoding`, "0123456789ABCDEFGHIJKLMNOPQRSTUV", at `n`. -/
def base32HexDigit (n : Nat) : Char :=
  if n < 10 then Char.ofNat ('0'.toNat + n) else Char.ofNat ('A'.toNat + (n - 10))

/-- Go `base32.HexEncoding.EncodeToString`: five bits per character, padded with `=` to a
multiple of eight characters. -/
def base32HexEncode (src : List Char) : List Char :=
  let digits := (groupsOfFive (src.flatMap fun c => bitsOfByte c.toNat)).map base32HexDigit
  digits ++ List.replicate ((8 - digits.length % 8) % 8) '='

/-- The digest `sha1.New().Sum(nil)` of a hash that nothing was written to: the SHA-1 of
the empty input, da39a3ee5e6b4b0d3255bfef95601890afd80709. -/
def sha1OfNothing : List Nat :=
  [0xda, 0x39, 0xa3, 0xee, 0x5e, 0x6b, 0x4b, 0x0d, 0x32, 0x55,
   0xbf, 0xef, 0x95, 0x60, 0x18, 0x90, 0xaf, 0xd8, 0x07, 0x09]

/-- Go `sha1.New().Sum(b)`: `Sum` appends the digest of what was written to the hash, here
nothing, to `b`; it does not hash `b`. -/
def sha1NewSum (b : List Nat) : List Nat := b ++ sha1OfNothing

/-- A hexadecimal digit in upper case. -/
def upperHexDigit (n : Nat) : Char :=
  if n < 10 then Char.ofNat ('0'.toNat + n) else Char.ofNat ('A'.toNat + (n - 10))

/-- Go `strings.ToUpper(hex.EncodeToString(b))`: two digits per byte. -/
def upperHexEncode (b : List Nat) : List Char :=
  b.flatMap fun x => [upperHexDigit (x / 16 % 16), upperHexDigit (x % 16)]

/-- The code `newError` derives from a source location (error.go, lines 54-56):
the first six hexadecimal digits of `sha1.New().Sum([]byte(file))`, the base-32 text of the
base name of the file with `=` replaced by `W`, a dash and the line. -/
def codeOf (file : String) (line : Int) : String :=
  let filename := (base32HexEncode (Base file.data)).map fun c => if c = '=' then 'W' else c
  let hashPrefix := (upperHexEncode (sha1NewSum (file.data.map Char.toNat))).take 6
  String.mk (hashPrefix ++ filename) ++ "-" ++ toString line

/-- A frame of the call stack as `runtime.Caller` reports it: a file and a line. -/
structure Frame where
  file : String
  line : Int
  deriving DecidableEq, Repr

/-- Go `runtime.Caller(skip)` on a call stack given from the innermost frame outwards:
`stack[0]` is the function that calls `runtime.Caller`, at the line of that call, and
`stack[skip]` is the frame `skip` levels up; when there is none, the file is "" and the
line 0. -/
def runtimeCaller (skip : Nat) (stack : List Frame) : Frame :=
  stack.getD skip { file := "", line := 0 }

/-- Go `e.newError` (error.go, lines 38-60); `stack` is the call stack at its call of
`runtime.Caller(1)`, with `newError` itself as `stack[0]`. A cause that is an `*Error`
hands on its code, cause, file and line; otherwise the file and the line are those of
`runtime.Caller(1)` and the code is derived from them. -/
def newError (stack : List Frame) (message : String) (isPublic : Bool) (cause : GoError) :
    Error :=
  let err : Error :=
    { Message := message, Cause := cause, IsPublic := isPublic, Code := "", File := "", Line := 0 }
  match cause with
  | .ptr c => { err with Code := c.Code, Cause := c.Cause, File := c.File, Line := c.Line }
  | _ =>
    let caller := runtimeCaller 1 stack
    { err with File := caller.file, Line := caller.line, Code := codeOf caller.file caller.line }

/-- The call stack inside `newError` when one of the exported constructors has called it
from its line `line`: `newError` at its line 51, the constructor at `line`, and then the
stack `callers` of the constructor, with the call site of the constructor as `callers[0]`.
`src` is the path of error.go as the compiler recorded it. -/
def stackFrom (src : String) (line : Int) (callers : List Frame) : List Frame :=
  { file := src, line := 51 } :: { file := src, line := line } :: callers

/-- Go `e.New`, called with the stack `callers`; it calls `newError` on its line 63. -/
def New (src : String) (callers : List Frame) (message : String) : Error :=
  newError (stackFrom src 63 callers) message false .nil

/-- Go `e.NewPublic`; it calls `newError` on its line 67. -/
def NewPublic (src : String) (callers : List Frame) (message : String) : Error :=
  newError (stackFrom src 67 callers) message true .nil

/-- Go `e.NewError`; it calls `newError` on its line 71. -/
def NewError (src : String) (callers : List Frame) (message : String) (cause : GoError) : Error :=
  newError (stackFrom src 71 callers) message false cause

/-- Go `e.NewPublicError`; it calls `newError` on its line 75. -/
def NewPublicError (src : String) (callers : List Frame) (message : String) (cause : GoError) :
    Error :=
  newError (stackFrom src 75 callers) message true cause

/-- One call that wraps an error: its message, whether it is `NewPublicError` rather than
`NewError`, and the stack it is called from. -/
structure Wrap where
  message : String
  isPublic : Bool
  callers : List Frame

/-- An annotated error wrapped again and again, by one call of `NewError` or
`NewPublicError` per element of `wraps`, each on the error built so far. -/
def wrapAll (src : String) (wraps : List Wrap) (c : Error) : Error :=
  wraps.foldl (fun acc w =>
    if w.isPublic then NewPublicError src w.callers w.message (.ptr acc)
    else NewError src w.callers w.message (.ptr acc)) c

/-- The path of error.go in the samples. -/
def sampleSrc : String := "/src/e/error.go"

/-- A private annotated error with a foreign cause. -/
def samplePrivate : Error :=
  { IsPublic := false, Code := "2F7372CLP74RRI5PJMUWWW-71", Message := "lookup failed",
    Cause := .foreign "dial tcp: timeout", File := "/src/e/error.go", Line := 71 }

/-- The same error with another cause, file and line. -/
def samplePrivateElsewhere : Error :=
  { samplePrivate with Cause := .nil, File := "/tmp/x.go", Line := 7 }

/-- A public annotated error with a foreign cause. -/
def samplePublic : Error := { samplePrivate with IsPublic := true }

/-- A public annotated error without a cause. -/
def samplePublicBare : Error := { samplePrivate with IsPublic := true, Cause := .nil }

/-- A call site in the code of a user of the package. -/
def handlerSite : List Frame := [{ file := "/app/handler.go", line := 120 }]

/-- Another call site in the code of a user of the package. -/
def mainSite : List Frame :=
  [{ file := "/app/main.go", line := 7 }, { file := "/go/proc.go", line := 250 }]

end e

/-! # Package `fetch` and the standard library it calls -/

namespace fetch

/-! ## `net/textproto`: canonical header keys, `http.Header` -/

/-- Go `textproto.validHeaderFieldByte`: the token characters of RFC 7230. -/
def validHeaderFieldByte (c : Char) : Bool :=
  c.isAlphanum || "!#$%&*+-.^_|~".data.contains c || c.toNat = 39 || c.toNat = 96

/-- The second loop of Go `textproto.canonicalMIMEHeaderKey`: the first letter and every
letter after a dash in upper case, the other letters in lower case. -/
def canonicalLoop : Bool → List Char → List Char
  | _, [] => []
  | upper, c :: cs =>
    let c1 := if upper && c.isLower then c.toUpper
              else if !upper && c.isUpper then c.toLower else c
    c1 :: canonicalLoop (c1 = '-') cs

/-- Go `textproto.CanonicalMIMEHeaderKey`: a key holding a byte that is not a header field
byte is returned unchanged, every other key is put in canonical form. -/
def CanonicalMIMEHeaderKey (s : String) : String :=
  if s.data.all validHeaderFieldByte then String.mk (canonicalLoop true s.data) else s

/-- Go `http.Header`, a `map[string][]string`, as an association list: the entry of a key
is the first pair carrying it. -/
abbrev Header := List (String × List String)

/-- Go `Header.Get`: the first value stored under the canonical form of `key`, or `""`. -/
def Header.Get (h : Header) (key : String) : String :=
  match h.lookup (CanonicalMIMEHeaderKey key) with
  | some (v :: _) => v
  | _ => ""

/-- Go `Header.Set`: the entry of the canonical form of `key` becomes the single `value`. -/
def Header.Set (h : Header) (key value : String) : Header :=
  (CanonicalMIMEHeaderKey key, [value]) ::
    h.filter (fun kv => kv.1 != CanonicalMIMEHeaderKey key)

/-! ## `strings`: the helpers used below, on byte lists -/

/-- Go `strings.Cut(s, sep)` for a one-byte separator: the text before the first `sep`, the
text after it, and whether `sep` was found. -/
def cut (sep : Char) : List Char → List Char × List Char × Bool
  | [] => ([], [], false)
  | c :: cs =>
    if c = sep then ([], cs, true)
    else
      let r := cut sep cs
      (c :: r.1, r.2.1, r.2.2)

/-- The split of `s` at the last `sep`, as Go code obtains it from `strings.LastIndex`:
`some (s[:i], s[i+1:])`, or `none` when `sep` does not occur. -/
def cutLast (sep : Char) : List Char → Option (List Char × List Char)
  | [] => none
  | c :: cs =>
    match cutLast sep cs with
    | some (a, b) => some (c :: a, b)
    | none => if c = sep then some ([], cs) else none

/-- The split of `s` at the first occurrence of the pattern `pat`, as Go code obtains it from
`strings.Index`: `some (s[:i], s[i:])`, or `none`. -/
def splitAtSub (pat : List Char) : List Char → Option (List Char × List Char)
  | [] => if pat.isEmpty then some ([], []) else none
  | c :: cs =>
    if pat.isPrefixOf (c :: cs) then some ([], c :: cs)
    else
      match splitAtSub pat cs with
      | some (a, b) => some (c :: a, b)
      | none => none

/-- Go `strings.Trim(s, " ")`: `s` without its leading and trailing space bytes. -/
def trimSpaces (s : List Char) : List Char :=
  ((s.dropWhile (· = ' ')).reverse.dropWhile (· = ' ')).reverse

/-- The byte order of Go strings (`<` on `string`): lexicographic on the byte values. -/
def strLt : List Char → List Char → Bool
  | _, [] => false
  | [], _ :: _ => true
  | a :: as, b :: bs => a.toNat < b.toNat || (a.toNat = b.toNat && strLt as bs)

/-! ## `net/url`: escaping -/

/-- Go `url.encoding`: the part of a URL a string is escaped for. -/
inductive encoding
  | encodePath | encodePathSegment | encodeHost | encodeZone
  | encodeUserPassword | encodeQueryComponent | encodeFragment
  deriving DecidableEq, Repr

/-- The errors `net/url` reports while parsing. -/
inductive URLErr
  /-- "net/url: invalid control character in URL" -/
  | invalidControl
  /-- "missing protocol scheme" -/
  | missingScheme
  /-- "first path segment in URL cannot contain colon" -/
  | firstSegmentColon
  /-- `EscapeError(s)`: "invalid URL escape ..." -/
  | EscapeError (s : String)
  /-- `InvalidHostError(s)`: "invalid character ... in host name" -/
  | InvalidHostError (s : String)
  /-- "missing ']' in host" -/
  | missingBracket
  /-- "invalid port ... after host" -/
  | invalidPort (colonPort : String)
  /-- "net/url: invalid userinfo" -/
  | invalidUserinfo
  /-- "invalid semicolon separator in query" -/
  | invalidSemicolon
  deriving DecidableEq, Repr

/-- Go `url.shouldEscape`: whether the byte `c` must be percent-escaped in the part `mode`. -/
def shouldEscape (c : Char) (mode : encoding) : Bool :=
  if c.isAlphanum then false
  else if (mode = .encodeHost || mode = .encodeZone) &&
      ("!$&()*+,;=:[]<>".data.contains c || c.toNat = 39 || c.toNat = 34) then false
  else if "-_.~".data.contains c then false
  else if "$&+,/:;=?@".data.contains c &&
      (mode = .encodePath || mode = .encodePathSegment || mode = .encodeUserPassword ||
        mode = .encodeQueryComponent || mode = .encodeFragment) then
    match mode with
    | .encodePath => c = '?'
    | .encodePathSegment => "/;,?".data.contains c
    | .encodeUserPassword => "@/?:".data.contains c
    | .encodeQueryComponent => true
    | _ => false
  else if mode = .encodeFragment && "!()*".data.contains c then false
  else true

/-- Go `url.ishex`. -/
def ishex (c : Char) : Bool :=
  ('0'.toNat ≤ c.toNat && c.toNat ≤ '9'.toNat) || ('a'.toNat ≤ c.toNat && c.toNat ≤ 'f'.toNat) ||
    ('A'.toNat ≤ c.toNat && c.toNat ≤ 'F'.toNat)

/-- Go `url.unhex`. -/
def unhex (c : Char) : Nat :=
  if '0'.toNat ≤ c.toNat && c.toNat ≤ '9'.toNat then c.toNat - '0'.toNat
  else if 'a'.toNat ≤ c.toNat && c.toNat ≤ 'f'.toNat then c.toNat - 'a'.toNat + 10
  else if 'A'.toNat ≤ c.toNat && c.toNat ≤ 'F'.toNat then c.toNat - 'A'.toNat + 10
  else 0

/-- The table `upperhex` of Go `net/url`, "0123456789ABCDEF", at index `n`. -/
def upperhex (n : Nat) : Char :=
  if n < 10 then Char.ofNat ('0'.toNat + n) else Char.ofNat ('A'.toNat + (n - 10))

/-- Go `url.escape`: a space becomes `+` in a query component, every other byte that
`shouldEscape` names becomes `%XX` in upper-case hexadecimal. -/
def escape (mode : encoding) : List Char → List Char
  | [] => []
  | c :: cs =>
    if c = ' ' && mode = .encodeQueryComponent then '+' :: escape mode cs
    else if shouldEscape c mode then
      '%' :: upperhex (c.toNat / 16) :: upperhex (c.toNat % 16) :: escape mode cs
    else c :: escape mode cs

/-- Go `url.unescape`. The Go function validates the whole string in a first loop and decodes
it in a second one; here both happen in one pass, which reports the same (leftmost) error. -/
def unescape (mode : encoding) : List Char → Except URLErr (List Char)
  | [] => .ok []
  | '%' :: a :: b :: rest =>
    if !(ishex a && ishex b) then .error (.EscapeError (String.mk ['%', a, b]))
    else if mode = .encodeHost && unhex a < 8 && !(a = '2' && b = '5') then
      .error (.EscapeError (String.mk ['%', a, b]))
    else if mode = .encodeZone && !(a = '2' && b = '5') &&
        Char.ofNat (unhex a * 16 + unhex b) != ' ' &&
        shouldEscape (Char.ofNat (unhex a * 16 + unhex b)) .encodeHost then
      .error (.EscapeError (String.mk ['%', a, b]))
    else
      match unescape mode rest with
      | .ok t => .ok (Char.ofNat (unhex a * 16 + unhex b) :: t)
      | .error e => .error e
  | '%' :: rest => .error (.EscapeError (String.mk ('%' :: rest)))
  | '+' :: rest =>
    match unescape mode rest with
    | .ok t => .ok ((if mode = .encodeQueryComponent then ' ' else '+') :: t)
    | .error e => .error e
  | c :: rest =>
    if (mode = .encodeHost || mode = .encodeZone) && c.toNat < 128 &&
        shouldEscape c .encodeHost then
      .error (.InvalidHostError (String.mk [c]))
    else
      match unescape mode rest with
      | .ok t => .ok (c :: t)
      | .error e => .error e

/-- Go `url.QueryEscape`. -/
def QueryEscape (s : String) : String := String.mk (escape .encodeQueryComponent s.data)

/-- Go `url.QueryUnescape`. -/
def QueryUnescape (s : String) : Except URLErr String :=
  match unescape .encodeQueryComponent s.data with
  | .ok t => .ok (String.mk t)
  | .error e => .error e

/-- Go `url.validEncoded`. -/
def validEncoded (mode : encoding) (s : List Char) : Bool :=
  s.all fun c =>
    "!$&()*+,;=:@[]%".data.contains c || c.toNat = 39 || !shouldEscape c mode

/-! ## `net/url`: `URL`, `Parse`, `String` -/

/-- Go `url.Userinfo`. -/
structure Userinfo where
  username : String
  password : String
  passwordSet : Bool
  deriving DecidableEq, Repr

/-- Go `url.URL`. -/
structure URL where
  Scheme : String := ""
  Opaque : String := ""
  User : Option Userinfo := none
  Host : String := ""
  Path : String := ""
  RawPath : String := ""
  OmitHost : Bool := false
  ForceQuery : Bool := false
  RawQuery : String := ""
  Fragment : String := ""
  RawFragment : String := ""
  deriving DecidableEq, Repr

/-- Go `url.Error`: the error `url.Parse` returns, with the operation, the text being
parsed and the cause. -/
structure URLError where
  Op : String
  URL : String
  Err : URLErr
  deriving DecidableEq, Repr

deriving instance DecidableEq for Except

/-- Go `url.stringContainsCTLByte`. -/
def stringContainsCTLByte (s : List Char) : Bool :=
  s.any fun c => c.toNat < 32 || c.toNat = 127

/-- The loop of Go `url.getScheme`, with the bytes already read in `acc` (reversed). -/
def getSchemeLoop (rawURL : List Char) : List Char → List Char →
    Except URLErr (List Char × List Char)
  | _, [] => .ok ([], rawURL)
  | acc, c :: cs =>
    if c.isAlpha then getSchemeLoop rawURL (c :: acc) cs
    else if c.isDigit || c = '+' || c = '-' || c = '.' then
      if acc.isEmpty then .ok ([], rawURL) else getSchemeLoop rawURL (c :: acc) cs
    else if c = ':' then
      if acc.isEmpty then .error .missingScheme else .ok (acc.reverse, cs)
    else .ok ([], rawURL)

/-- Go `url.getScheme`: the scheme before the first colon and the rest, or no scheme. -/
def getScheme (rawURL : List Char) : Except URLErr (List Char × List Char) :=
  getSchemeLoop rawURL [] rawURL

/-- Go `url.validOptionalPort`. -/
def validOptionalPort : List Char → Bool
  | [] => true
  | c :: cs => c = ':' && cs.all Char.isDigit

/-- Go `url.validUserinfo`. -/
def validUserinfo (s : List Char) : Bool :=
  s.all fun c => c.isAlphanum || "-._:~!$&()*+,;=%@".data.contains c || c.toNat = 39

/-- Go `url.parseHost`. -/
def parseHost (host : List Char) : Except URLErr (List Char) :=
  if host.head? = some '[' then
    match cutLast ']' host with
    | none => .error .missingBracket
    | some (before, colonPort) =>
      if !validOptionalPort colonPort then .error (.invalidPort (String.mk colonPort))
      else
        match splitAtSub "%25".data before with
        | some (h1, zone) =>
          match unescape .encodeHost h1, unescape .encodeZone zone,
              unescape .encodeHost (']' :: colonPort) with
          | .error e, _, _ => .error e
          | .ok _, .error e, _ => .error e
          | .ok _, .ok _, .error e => .error e
          | .ok host1, .ok host2, .ok host3 => .ok (host1 ++ host2 ++ host3)
        | none => unescape .encodeHost host
  else
    match cutLast ':' host with
    | some (_, port) =>
      if !validOptionalPort (':' :: port) then .error (.invalidPort (String.mk (':' :: port)))
      else unescape .encodeHost host
    | none => unescape .encodeHost host

/-- Go `url.parseAuthority`. -/
def parseAuthority (authority : List Char) : Except URLErr (Option Userinfo × List Char) :=
  match cutLast '@' authority with
  | none =>
    match parseHost authority with
    | .error e => .error e
    | .ok host => .ok (none, host)
  | some (userinfo, hostPart) =>
    match parseHost hostPart with
    | .error e => .error e
    | .ok host =>
      if !validUserinfo userinfo then .error .invalidUserinfo
      else if !userinfo.contains ':' then
        match unescape .encodeUserPassword userinfo with
        | .error e => .error e
        | .ok u => .ok (some ⟨String.mk u, "", false⟩, host)
      else
        match unescape .encodeUserPassword (cut ':' userinfo).1 with
        | .error e => .error e
        | .ok username =>
          match unescape .encodeUserPassword (cut ':' userinfo).2.1 with
          | .error e => .error e
          | .ok password => .ok (some ⟨String.mk username, String.mk password, true⟩, host)

/-- Go `URL.setPath`. -/
def URL.setPath (u : URL) (p : List Char) : Except URLErr URL :=
  match unescape .encodePath p with
  | .error e => .error e
  | .ok path =>
    .ok { u with Path := String.mk path,
                 RawPath := if p = escape .encodePath path then "" else String.mk p }

/-- Go `URL.setFragment`. -/
def URL.setFragment (u : URL) (f : List Char) : Except URLErr URL :=
  match unescape .encodeFragment f with
  | .error e => .error e
  | .ok frag =>
    .ok { u with Fragment := String.mk frag,
                 RawFragment := if f = escape .encodeFragment frag then "" else String.mk f }

/-- Go `url.parse(rawURL, false)`: everything of `url.Parse` but the fragment. -/
def parse (rawURL : List Char) : Except URLErr URL :=
  if stringContainsCTLByte rawURL then .error .invalidControl
  else if rawURL = ['*'] then .ok { Path := "*" }
  else
    match getScheme rawURL with
    | .error e => .error e
    | .ok (scheme0, rest0) =>
      let scheme := scheme0.map Char.toLower
      let force := rest0.getLast? = some '?' && rest0.count '?' = 1
      let rest := if force then rest0.dropLast else (cut '?' rest0).1
      let rawQuery := if force then [] else (cut '?' rest0).2.1
      let url : URL :=
        { Scheme := String.mk scheme, ForceQuery := force, RawQuery := String.mk rawQuery }
      if rest.head? != some '/' && !scheme.isEmpty then
        .ok { url with Opaque := String.mk rest }
      else if rest.head? != some '/' && (cut '/' rest).1.contains ':' then
        .error .firstSegmentColon
      else if (!scheme.isEmpty || !"///".data.isPrefixOf rest) && "//".data.isPrefixOf rest then
        let authority := (rest.drop 2).takeWhile (· != '/')
        let rest1 := (rest.drop 2).dropWhile (· != '/')
        match parseAuthority authority with
        | .error e => .error e
        | .ok (user, host) => URL.setPath { url with User := user, Host := String.mk host } rest1
      else if !scheme.isEmpty && rest.head? = some '/' then
        URL.setPath { url with OmitHost := true } rest
      else URL.setPath url rest

/-- Go `url.Parse`: `Except.error` stands for the Go result `(nil, err)`. -/
def url.Parse (rawURL : String) : Except URLError URL :=
  let u := (cut '#' rawURL.data).1
  let frag := (cut '#' rawURL.data).2.1
  match parse u with
  | .error e => .error ⟨"parse", String.mk u, e⟩
  | .ok url =>
    if frag.isEmpty then .ok url
    else
      match url.setFragment frag with
      | .error e => .error ⟨"parse", rawURL, e⟩
      | .ok url1 => .ok url1

/-- Whether `unescape` succeeds on `raw` with the result `s` (`err == nil && p == s` in Go). -/
def unescapesTo (mode : encoding) (raw s : List Char) : Bool :=
  match unescape mode raw with
  | .ok t => t = s
  | .error _ => false

/-- Go `URL.EscapedPath`. -/
def URL.EscapedPath (u : URL) : List Char :=
  if u.RawPath != "" && validEncoded .encodePath u.RawPath.data &&
      unescapesTo .encodePath u.RawPath.data u.Path.data then u.RawPath.data
  else if u.Path = "*" then ['*']
  else escape .encodePath u.Path.data

/-- Go `URL.EscapedFragment`. -/
def URL.EscapedFragment (u : URL) : List Char :=
  if u.RawFragment != "" && validEncoded .encodeFragment u.RawFragment.data &&
      unescapesTo .encodeFragment u.RawFragment.data u.Fragment.data then u.RawFragment.data
  else escape .encodeFragment u.Fragment.data

/-- Go `Userinfo.String`. -/
def Userinfo.String (ui : Userinfo) : List Char :=
  escape .encodeUserPassword ui.username.data ++
    (if ui.passwordSet then ':' :: escape .encodeUserPassword ui.password.data else [])

/-- Go `URL.String`: the URL reassembled from its parts. -/
def URL.String (u : URL) : String :=
  let scheme := if u.Scheme != "" then u.Scheme.data ++ [':'] else []
  let main :=
    if u.Opaque != "" then scheme ++ u.Opaque.data
    else
      let auth :=
        if (u.Scheme != "" || u.Host != "" || u.User.isSome) &&
            !(u.OmitHost && u.Host = "" && u.User.isNone) then
          (if u.Host != "" || u.Path != "" || u.User.isSome then ['/', '/'] else []) ++
          (match u.User with
            | some ui => ui.String ++ ['@']
            | none => []) ++
          (if u.Host != "" then escape .encodeHost u.Host.data else [])
        else []
      let path := u.EscapedPath
      let slash := if !path.isEmpty && path.head? != some '/' && u.Host != "" then ['/'] else []
      let buf := scheme ++ auth ++ slash
      let dot := if buf.isEmpty && (cut '/' path).1.contains ':' then ['.', '/'] else []
      buf ++ dot ++ path
  let query := if u.ForceQuery || u.RawQuery != "" then '?' :: u.RawQuery.data else []
  let frag := if u.Fragment != "" then '#' :: u.EscapedFragment else []
  String.mk (main ++ query ++ frag)

/-! ## `net/url`: `Values` -/

/-- Go `url.Values`, a `map[string][]string`, as an association list. A Go map holds a key
once: the lists built by `URL.Query` and `Values.Add` hold every key once as well. -/
abbrev Values := List (String × List String)

/-- The Go map read `v[key]`: the values stored under `key`, none when the key is absent. -/
def Values.at (v : Values) (key : String) : List String :=
  (v.lookup key).getD []

/-- Go `Values.Add`, `v[key] = append(v[key], value)`: the value is appended to the values
of the key, and a key that was absent is added. -/
def Values.Add : Values → String → String → Values
  | [], key, value => [(key, [value])]
  | (k, vs) :: rest, key, value =>
    if k = key then (k, vs ++ [value]) :: rest
    else (k, vs) :: Values.Add rest key value

/-- The pieces of `s` between the occurrences of `sep`, in order. -/
def splitBy (sep : Char) : List Char → List (List Char)
  | [] => [[]]
  | c :: cs =>
    if c = sep then [] :: splitBy sep cs
    else
      match splitBy sep cs with
      | [] => [[c]]
      | seg :: segs => (c :: seg) :: segs

/-- One round of the loop of Go `url.parseQuery`, on the piece `key` of the query that
`strings.Cut(query, "&")` has split off: a piece with a semicolon or a bad escape is
skipped and its error is kept (a bad escape only when no error was met before); an empty
piece is skipped. -/
def parseQueryStep (st : Values × Option URLErr) (key : List Char) : Values × Option URLErr :=
  if key.contains ';' then (st.1, some .invalidSemicolon)
  else if key.isEmpty then st
  else
    match unescape .encodeQueryComponent (cut '=' key).1 with
    | .error e => (st.1, st.2.orElse fun _ => some e)
    | .ok k =>
      match unescape .encodeQueryComponent (cut '=' key).2.1 with
      | .error e => (st.1, st.2.orElse fun _ => some e)
      | .ok value => (Values.Add st.1 (String.mk k) (String.mk value), st.2)

/-- Go `url.ParseQuery`: the values of the well-formed `key=value` pieces of the query, and
the first error met. -/
def ParseQuery (query : String) : Values × Option URLErr :=
  (splitBy '&' query.data).foldl parseQueryStep ([], none)

/-- Go `URL.Query`: `ParseQuery(u.RawQuery)` with the error dropped. -/
def URL.Query (u : URL) : Values := (ParseQuery u.RawQuery).1

/-- The order `slices.Sort` puts the keys in: the byte order of strings. -/
def strLe (a b : String) : Prop := strLt b.data a.data = false

instance : DecidableRel strLe := fun a b => inferInstanceAs (Decidable (strLt b.data a.data = false))

/-- The text Go `Values.Encode` writes for one key: `key=value` for each of its values, with
key and value escaped. -/
def encodeKey (v : Values) (k : String) : List (List Char) :=
  (Values.at v k).map fun x => (QueryEscape k).data ++ '=' :: (QueryEscape x).data

/-- Go `Values.Encode`: the keys in sorted order, each with its values in stored order,
written `key=value` and joined by `&`. -/
def Values.Encode (v : Values) : String :=
  String.mk (List.intercalate ['&']
    (((v.map Prod.fst).insertionSort strLe).flatMap (encodeKey v)))

/-! ## `io`: readers, `io.ReadAll`, `http.MaxBytesReader` -/

/-- The errors a `Read` call can return. -/
inductive IOErr
  /-- Go `io.EOF`. -/
  | EOF
  /-- Go `*http.MaxBytesError`, with its field `Limit`. -/
  | MaxBytesError (Limit : Int)
  /-- Any other error of the transport, with its message. -/
  | other (msg : String)
  deriving DecidableEq, Repr

/-- The body stream of a response (an `io.ReadCloser`). `chunks` are the pieces of data that
the coming `Read` calls deliver in order (a `Read` with a short buffer takes the front of a
piece, an empty piece is a `Read` that returns `0, nil`); once the pieces are used up every
`Read` returns `0, final`, where `final` is `io.EOF` for a body that ends normally and the
read error otherwise; when `eager` is set, `final` comes already with the last piece. -/
structure Body where
  chunks : List (List Char)
  final : IOErr
  eager : Bool
  deriving DecidableEq, Repr

/-- All the bytes the body still holds. -/
def Body.bytes (b : Body) : List Char := b.chunks.flatten

/-- The body once all of it has been read. -/
def Body.drained (b : Body) : Body := { b with chunks := [] }

/-- One `Read(p)` on the body with `len(p) = k`: the bytes read, the error, the body after. -/
def Body.Read (b : Body) (k : Nat) : (List Char × Option IOErr) × Body :=
  match b.chunks with
  | [] => (([], some b.final), b)
  | c :: rest =>
    if c.length ≤ k then
      ((c, if rest.isEmpty && b.eager then some b.final else none), { b with chunks := rest })
    else ((c.take k, none), { b with chunks := c.drop k :: rest })

/-- Go `http.maxBytesReader`: the reader `http.MaxBytesReader` returns. `i` is the limit,
`n` the number of bytes that may still be read, `err` the sticky error. -/
structure maxBytesReader where
  r : Body
  i : Int
  n : Int
  err : Option IOErr
  deriving DecidableEq, Repr

/-- Go `http.MaxBytesReader(nil, r, n)`. -/
def MaxBytesReader (r : Body) (n : Int) : maxBytesReader :=
  let n1 := if n < 0 then 0 else n
  { r := r, i := n1, n := n1, err := none }

/-- Go `maxBytesReader.Read(p)` with `len(p) = k`. At most `l.n + 1` bytes are asked of the
body; when more than `l.n` arrive, the first `l.n` are returned with a `MaxBytesError`. -/
def maxBytesReader.Read (l : maxBytesReader) (k : Nat) :
    (List Char × Option IOErr) × maxBytesReader :=
  match l.err with
  | some e => (([], some e), l)
  | none =>
    if k = 0 then (([], none), l)
    else
      let k1 := if (k : Int) - 1 > l.n then (l.n + 1).toNat else k
      let res := l.r.Read k1
      if (res.1.1.length : Int) ≤ l.n then
        ((res.1.1, res.1.2),
          { l with r := res.2, n := l.n - res.1.1.length, err := res.1.2 })
      else
        ((res.1.1.take l.n.toNat, some (.MaxBytesError l.i)),
          { l with r := res.2, n := 0, err := some (.MaxBytesError l.i) })

/-- The capacity `append(b, 0)` gives a full byte slice of capacity `c ≥ 256`: the growth
formula of the Go runtime, before it is rounded up to an allocation size class. `ReadAll`
only needs it to be larger than `c`. -/
def growCap (c : Nat) : Nat := c + (c + 768) / 4

/-- What `io.ReadAll` makes of the error that ends its loop: `io.EOF` is no error. -/
def eofToNil (e : IOErr) : Option IOErr := if e = .EOF then none else some e

/-- The loop of Go `io.ReadAll` over a reader with state `σ` and `Read` function `read`:
`b` is the data read so far and `cap` the capacity of the buffer, so that each `Read` gets
the `cap - len(b)` free bytes. The loop has no bound in Go; here it runs at most `fuel`
rounds and `none` says that the rounds did not suffice. An `io.EOF` ends the loop
without error. -/
def readAllLoop {σ : Type} (read : σ → Nat → (List Char × Option IOErr) × σ)
    (grow : Nat → Nat) : Nat → σ → List Char → Nat → Option ((List Char × Option IOErr) × σ)
  | 0, _, _, _ => none
  | fuel + 1, r, b, cap =>
    let res := read r (cap - b.length)
    let b1 := b ++ res.1.1
    match res.1.2 with
    | some e => some ((b1, eofToNil e), res.2)
    | none => readAllLoop read grow fuel res.2 b1 (if b1.length = cap then grow cap else cap)

/-- The number of rounds the pieces of a body can take: a byte or a piece per round. -/
def chunkWeight (chunks : List (List Char)) : Nat := (chunks.map fun c => c.length + 1).sum

/-- A number of rounds in which `io.ReadAll` is sure to finish on the body: every round
takes a byte or a piece, or ends the loop. -/
def Body.fuel (b : Body) : Nat := chunkWeight b.chunks + 2

/-- Go `io.ReadAll(r.Body)`. -/
def ReadAll (b : Body) : Option ((List Char × Option IOErr) × Body) :=
  readAllLoop Body.Read growCap b.fuel b [] 512

/-- Go `io.ReadAll(limitedReader)` for the reader of `http.MaxBytesReader`. -/
def ReadAllLimited (l : maxBytesReader) : Option ((List Char × Option IOErr) × maxBytesReader) :=
  readAllLoop maxBytesReader.Read growCap l.r.fuel l [] 512

/-! ## `net/http`: requests -/

/-- Go `context.Context`; a nil context is `none : Option Context`. -/
structure Context where
  name : String
  deriving DecidableEq, Repr

/-- Go `http.Request`, the fields that `http.NewRequestWithContext` sets from its arguments. -/
structure HttpRequest where
  Method : String
  URL : URL
  Header : Header
  Body : Option Body
  Host : String
  deriving DecidableEq, Repr

/-- Go `http.Client`: the settings the `With...` methods of `Request` write. -/
structure Client where
  Transport : Option String := none
  WithoutRedirects : Bool := false
  Timeout : Int := 0
  deriving DecidableEq, Repr

/-- Go `http.validMethod`: a method is a non-empty token. -/
def validMethod (method : String) : Bool :=
  !method.data.isEmpty && method.data.all validHeaderFieldByte

/-- Go `strings.LastIndex(s, sep)` for a one-byte separator, `-1` when it does not occur;
`i` is the index of the head of the list and `acc` the last index found before it. -/
def lastIndexFrom (sep : Char) : List Char → Nat → Int → Int
  | [], _, acc => acc
  | c :: cs, i, acc => lastIndexFrom sep cs (i + 1) (if c = sep then (i : Int) else acc)

/-- Go `http.hasPort`: whether a colon follows the last closing bracket. -/
def hasPort (s : List Char) : Bool :=
  lastIndexFrom ':' s 0 (-1) > lastIndexFrom ']' s 0 (-1)

/-- Go `http.removeEmptyPort`: `strings.TrimSuffix(host, ":")` for a host with a port. -/
def removeEmptyPort (host : List Char) : List Char :=
  if hasPort host then (if host.getLast? = some ':' then host.dropLast else host) else host

/-- The errors of package `fetch` and of the calls it passes on. -/
inductive Error
  /-- The `*url.Error` of `url.Parse`. -/
  | urlParse (e : URLError)
  /-- `errors.New("URL Params must be [[\"key1\", \"value1\"], [\"key2\", \"value2\"]]")`. -/
  | invalidParams
  /-- "net/http: invalid method ..." -/
  | invalidMethod (method : String)
  /-- "net/http: nil Context" -/
  | nilContext
  /-- "fetcher: response body too large: %d bytes", with the limit. -/
  | bodyTooLarge (limit : Int)
  /-- "fetcher: unable to read response body: %w", with the wrapped cause. -/
  | bodyRead (cause : IOErr)
  /-- "fetcher: empty response body" -/
  | emptyBody
  deriving DecidableEq, Repr

/-- The outcome of a Go call that returns `(value, error)`: a value with a nil error, a nil
value with an error, or a run-time panic. -/
inductive Result (α : Type)
  | ok (value : α)
  | error (err : Error)
  | panic (msg : String)
  deriving DecidableEq, Repr

/-- Go `http.NewRequestWithContext(ctx, method, url, body)`. -/
def NewRequestWithContext (ctx : Option Context) (method rawURL : String)
    (body : Option Body) :
    Result HttpRequest :=
  let method1 := if method = "" then "GET" else method
  if !validMethod method1 then .error (.invalidMethod method1)
  else if ctx.isNone then .error .nilContext
  else
    match url.Parse rawURL with
    | .error e => .error (.urlParse e)
    | .ok u =>
      let host := String.mk (removeEmptyPort u.Host.data)
      .ok { Method := method1, URL := { u with Host := host }, Header := [],
            Body := body, Host := host }

/-! ## Package `fetch` -/

set_option linter.dupNamespace false in
/-- Go `fetch.Request`: the embedded `*http.Request` and the client. -/
structure Request where
  Request : HttpRequest
  Client : Client
  deriving DecidableEq, Repr

/-- Go `fetch.RequestOptions`; a nil `Headers` map, a nil `Params` pointer and a nil `Body`
are `none`. -/
structure RequestOptions where
  Method : String := ""
  Headers : Option Header := none
  Params : Option (List (List String)) := none
  Body : Option Body := none
  deriving DecidableEq, Repr

/-- Go `fetch.Response`: of the embedded `*http.Response`, the status code, the headers and
the body (a response that `Client.Do` returns always has a body). -/
structure Response where
  StatusCode : Int
  Header : Header
  Body : Body
  deriving DecidableEq, Repr

/-- The loop over `*options.Params` in `NewRequest` (fetch.go, lines 53-61): a pair that
has not exactly two elements ends it with the error, a pair with a blank value is skipped,
every other pair is added to the query. -/
def paramsLoop (query : Values) : List (List String) → Except Error Values
  | [] => .ok query
  | p :: ps =>
    match p with
    | [k, v] =>
      if trimSpaces v.data = [] then paramsLoop query ps
      else paramsLoop (Values.Add query k v) ps
    | _ => .error .invalidParams

/-- The block `if options.Params != nil` of `NewRequest` (fetch.go, lines 47-64): the
request URL with the params merged into its query. `url.Parse` returns a nil `*URL` with its
error, and `u.Query()` is called before the error is looked at: on a nil `u` it reads
`u.RawQuery` and panics. -/
def requestUrlWithParams (requestUrl : String) (params : List (List String)) : Result String :=
  let parsed := url.Parse requestUrl
  let u : Option URL := parsed.toOption
  let err : Option URLError := match parsed with
    | .error e => some e
    | .ok _ => none
  match u with
  | none => .panic "runtime error: invalid memory address or nil pointer dereference"
  | some u =>
    let query := u.Query
    match err with
    | some e => .error (.urlParse e)
    | none =>
      match paramsLoop query params with
      | .error e => .error e
      | .ok query1 => .ok (URL.String { u with RawQuery := query1.Encode })

/-- The end of `NewRequest` (fetch.go, lines 66-75): the `http.Request` for the final
URL, with the headers of the options when they are given, and a fresh client. -/
def requestForUrl (ctx : Option Context) (options : RequestOptions) (requestUrl : String) :
    Result Request :=
  match NewRequestWithContext ctx options.Method requestUrl options.Body with
  | .panic m => .panic m
  | .error e => .error e
  | .ok req =>
    let req1 := match options.Headers with
      | some h => { req with Header := h }
      | none => req
    .ok { Request := req1, Client := {} }

/-- The default method of `NewRequest` (fetch.go, lines 43-45): "GET" when the options
name no method. -/
def withDefaultMethod (options : RequestOptions) : RequestOptions :=
  if options.Method = "" then { options with Method := "GET" } else options

/-- Go `fetch.NewRequest(ctx, requestUrl, requestOptions...)`. The options are a list of
pointers of which the first, if any, is read; a nil pointer there panics. -/
def NewRequest (ctx : Option Context) (requestUrl : String)
    (requestOptions : List (Option RequestOptions)) : Result Request :=
  match (match requestOptions with
      | [] => some ({} : RequestOptions)
      | o :: _ => o) with
  | none => .panic "runtime error: invalid memory address or nil pointer dereference"
  | some options0 =>
    let options := withDefaultMethod options0
    match (match options.Params with
        | some params => requestUrlWithParams requestUrl params
        | none => .ok requestUrl) with
    | .panic m => .panic m
    | .error e => .error e
    | .ok requestUrl1 => requestForUrl ctx options requestUrl1

/-- The URL of the request a call has built, when it has built one. -/
def builtURL : Result Request → Option String
  | .ok req => some req.Request.URL.String
  | _ => none

/-- The key `p[0]` of a params pair. -/
def pairKey : List String → String
  | k :: _ => k
  | [] => ""

/-- The value `p[1]` of a params pair. -/
def pairValue : List String → String
  | _ :: v :: _ => v
  | _ => ""

/-- Whether a value is blank: empty once its leading and trailing spaces are removed. -/
def isBlank (v : String) : Bool := trimSpaces v.data = []

/-- What the claim about `NewRequest` says the query is: the base query with, for each
pair `[k, v]` of the params in order, the value `v` added under `k` unless `v` is blank. -/
def mergedQuery (base : Values) (params : List (List String)) : Values :=
  (params.filter fun p => !isBlank (pairValue p)).foldl
    (fun q p => Values.Add q (pairKey p) (pairValue p)) base

/-- The values the params add under the key `k`: the non-blank values of the pairs with
key `k`, in the order of the list. -/
def addedValues (params : List (List String)) (k : String) : List String :=
  ((params.filter fun p => !isBlank (pairValue p)).filter fun p => pairKey p = k).map pairValue

/-! ### Queries as Go holds them -/

/-- Whether every character of the string stands for a byte. -/
def byteString (s : List Char) : Prop := ∀ c ∈ s, c.toNat < 256

instance (s : List Char) : Decidable (byteString s) :=
  inferInstanceAs (Decidable (∀ c ∈ s, c.toNat < 256))

/-- Whether the keys and the values of a query are byte strings. -/
def Values.bytes (q : Values) : Prop :=
  ∀ kv ∈ q, byteString kv.1.data ∧ ∀ v ∈ kv.2, byteString v.data

/-- The text `Values.Encode` writes for a key and a value. -/
def encodePair (p : String × String) : List Char :=
  (QueryEscape p.1).data ++ '=' :: (QueryEscape p.2).data

/-- The pairs `Values.Encode` writes: for each key in sorted order, its values. -/
def encodedPairs (q : Values) : List (String × String) :=
  ((q.map Prod.fst).insertionSort strLe).flatMap fun k => (Values.at q k).map fun x => (k, x)

/-- A query as a Go map holds it: every key once, keys and values byte strings. -/
def Values.wf (q : Values) : Prop := (q.map Prod.fst).Nodup ∧ Values.bytes q

/-! ### Responses -/

/-- Go `Response.LastModified`. -/
def Response.LastModified (r : Response) : String :=
  if r.Header.Get "Expires" = "0" then "" else r.Header.Get "Last-Modified"

/-- Go `Response.ETag`. -/
def Response.ETag (r : Response) : String :=
  if r.Header.Get "Expires" = "0" then "" else r.Header.Get "ETag"

/-- Go `http.StatusNotModified`. -/
def StatusNotModified : Int := 304

/-- Go `Response.IsModified`. -/
def Response.IsModified (r : Response) (lastEtagValue lastModifiedValue : String) : Bool :=
  if r.StatusCode = StatusNotModified then false
  else if r.ETag != "" && r.ETag = lastEtagValue then false
  else if r.LastModified != "" && r.LastModified = lastModifiedValue then false
  else true

/-- Go `Response.OK`; `/` on Go integers truncates toward zero. -/
def Response.OK (r : Response) : Bool :=
  decide (Int.tdiv r.StatusCode 100 ≥ 2) && decide (Int.tdiv r.StatusCode 100 < 4)

/-- The last test of `Response.ReadBody` (fetch.go, lines 186-190): an empty buffer is
an error, any other buffer is returned. -/
def bufferResult (buffer : List Char) : Except Error (List Char) :=
  if buffer.length = 0 then .error .emptyBody else .ok buffer

/-- The end of `Response.ReadBody` (fetch.go, lines 179-190) for the buffer and the error
that `io.ReadAll` returned: an error other than `io.EOF` is reported, as body-too-large
when it is a `*http.MaxBytesError` and as a read failure otherwise. -/
def readBodyResult (buffer : List Char) (err : Option IOErr) : Except Error (List Char) :=
  match err with
  | some e =>
    if e ≠ .EOF then
      match e with
      | .MaxBytesError limit => .error (.bodyTooLarge limit)
      | _ => .error (.bodyRead e)
    else bufferResult buffer
  | none => bufferResult buffer

/-- Go `Response.ReadBody`: the result, and the response with what is left of its body.
`none` says that the model of `io.ReadAll` ran out of rounds (it never does, see
`ReadBody_isSome`). -/
def Response.ReadBody (r : Response) (maxBodySize : Int) :
    Option (Except Error (List Char) × Response) :=
  if maxBodySize > 0 then
    (ReadAllLimited (MaxBytesReader r.Body maxBodySize)).map fun res =>
      (readBodyResult res.1.1 res.1.2, { r with Body := res.2.r })
  else
    (ReadAll r.Body).map fun res =>
      (readBodyResult res.1.1 res.1.2, { r with Body := res.2 })

/-- Go `Response.Text`: the string and the error it returns, and the response after the
read. -/
def Response.Text (r : Response) : Option ((String × Option Error) × Response) :=
  (r.ReadBody 0).map fun res =>
    match res.1 with
    | .error err => (("", some err), res.2)
    | .ok buffer => ((String.mk buffer, none), res.2)

/-- Go `io.NopCloser(bytes.NewReader(data))`: a body that delivers `data` and then
`io.EOF`. -/
def bytesReader (data : List Char) : Body :=
  { chunks := if data.isEmpty then [] else [data], final := .EOF, eager := false }

/-- The value `Request.JSON` sets the Content-Type header to. -/
def jsonContentType : String := "application/json; charset=UTF-8"

/-- Go `Request.JSON` (fetch.go, lines 100-110), with `json.Marshal` as the parameter
`Marshal`: the header is set first, then the payload is serialized; the error of a failed
serialization is returned, else the serialized bytes become the body. The header map of the
model is never nil (on a nil map `Header.Set` panics in Go). -/
def Request.JSON {α ε : Type} (Marshal : α → Except ε (List Char)) (r : fetch.Request)
    (payload : α) : Option ε × fetch.Request :=
  let r1 : fetch.Request :=
    { r with Request := { r.Request with
        Header := Header.Set r.Request.Header "Content-Type" jsonContentType } }
  match Marshal payload with
  | .error err => (some err, r1)
  | .ok body => (none, { r1 with Request := { r1.Request with Body := some (bytesReader body) } })

/-! ## Sample values -/

/-- A context that is not nil. -/
def background : Option Context := some { name := "background" }

/-- The options of the end-to-end example: params `[["q"," "],["id","42"]]`. -/
def exampleOptions : RequestOptions := { Params := some [["q", " "], ["id", "42"]] }

/-- What `url.Parse` returns for "https://example.test/api". -/
def exampleURL : URL := { Scheme := "https", Host := "example.test", Path := "/api" }

/-- A body that holds no data and ends normally. -/
def noData : Body := { chunks := [], final := .EOF, eager := false }

/-- A response with status 200 and the header `ETag: abc`, as `Header.Set` stores it. -/
def etagResponse : Response :=
  { StatusCode := 200, Header := Header.Set [] "ETag" "abc", Body := noData }

/-- A response with status 304 and no header at all. -/
def bareNotModified : Response := { StatusCode := 304, Header := [], Body := noData }

/-- A response with status 200 and no header at all. -/
def bareOK : Response := { StatusCode := 200, Header := [], Body := noData }

/-- A response with `Expires: 0` next to an `ETag` and a `Last-Modified` header. -/
def expiredResponse : Response :=
  { StatusCode := 200,
    Header := Header.Set (Header.Set (Header.Set [] "ETag" "abc") "Last-Modified" "Mon") "Expires" "0",
    Body := noData }

/-- A response with `Expires` set to a date next to an `ETag` and a `Last-Modified` header. -/
def datedResponse : Response :=
  { StatusCode := 200,
    Header := Header.Set (Header.Set (Header.Set [] "ETag" "abc") "Last-Modified" "Mon") "Expires" "Tue",
    Body := noData }

/-- A body of five bytes that arrive in pieces, and ends normally. -/
def helloBody : Body := { chunks := ["he".data, [], "llo".data], final := .EOF, eager := false }

/-- A response with the five-byte body. -/
def helloResponse : Response := { StatusCode := 200, Header := [], Body := helloBody }

/-- A response whose body holds no byte. -/
def emptyResponse : Response :=
  { StatusCode := 200, Header := [], Body := { chunks := [[]], final := .EOF, eager := true } }

/-- A payload for `Request.JSON` in the samples: a flag, or a channel, which
`json.Marshal` cannot serialize. -/
inductive SamplePayload
  | flag (b : Bool)
  | channel
  deriving DecidableEq, Repr

/-- What `json.Marshal` returns for the sample payloads. -/
def sampleMarshal : SamplePayload → Except String (List Char)
  | .flag true => .ok "true".data
  | .flag false => .ok "false".data
  | .channel => .error "json: unsupported type: chan int"

/-- A request with an empty header map and a body attached. -/
def sampleRequest : Request :=
  { Request := { Method := "POST", URL := exampleURL, Header := [],
                 Body := some (bytesReader "old".data), Host := "example.test" },
    Client := {} }

/-- The params of the example on the order of the query. -/
def orderParams : List (List String) := [["b", "2"], ["a b", "x&y"], ["b", "1"]]

/-- The options of the example on the order of the query. -/
def orderOptions : RequestOptions := { Params := some orderParams }

/-- What `url.Parse` returns for "https://example.test/api?z=1&b=0". -/
def orderURL : URL :=
  { Scheme := "https", Host := "example.test", Path := "/api", RawQuery := "z=1&b=0" }

/-! ## Theorems: freshness and status -/

/-- C1: `Response.IsModified` returns false exactly when the status code is 304, or the
response's `ETag()` is non-empty and equals the caller's last ETag, or its `LastModified()`
is non-empty and equals the caller's last Last-Modified value, and true in every other
case; it is false at status 304 whatever the headers and validators are, and false for
status 200 with header `ETag: abc` compared by `IsModified("abc", "")`. -/
theorem IsModified_eq_false_iff (r : Response) (lastETag lastModified : String) :
    (r.IsModified lastETag lastModified = false ↔
      (r.StatusCode = 304 ∨ (r.ETag ≠ "" ∧ r.ETag = lastETag) ∨
        (r.LastModified ≠ "" ∧ r.LastModified = lastModified))) ∧
    (r.IsModified lastETag lastModified = true ↔
      ¬ (r.StatusCode = 304 ∨ (r.ETag ≠ "" ∧ r.ETag = lastETag) ∨
        (r.LastModified ≠ "" ∧ r.LastModified = lastModified))) ∧
    (∀ (h : Header) (b : Body),
      Response.IsModified { StatusCode := 304, Header := h, Body := b }
        lastETag lastModified = false) ∧
    etagResponse.IsModified "abc" "" = false := by
  have key : r.IsModified lastETag lastModified = false ↔
      (r.StatusCode = 304 ∨ (r.ETag ≠ "" ∧ r.ETag = lastETag) ∨
        (r.LastModified ≠ "" ∧ r.LastModified = lastModified)) := by
    unfold Response.IsModified StatusNotModified
    generalize r.ETag = e
    generalize r.LastModified = l
    by_cases h1 : r.StatusCode = 304 <;> by_cases h2 : e = "" <;>
      by_cases h3 : e = lastETag <;> by_cases h4 : l = "" <;>
      by_cases h5 : l = lastModified <;> simp_all
  refine ⟨key, ?_, ?_, by decide⟩
  · rw [← key]; simp
  · intro h b
    simp [Response.IsModified, StatusNotModified]

/-- C2, as amended: for every response whose status code is not 304 and that supplies no
ETag and no Last-Modified header, `Response.IsModified` returns true for every pair of
prior values. -/
theorem IsModified_of_no_validators (r : Response) (lastETag lastModified : String)
    (hs : r.StatusCode ≠ 304) (he : r.Header.Get "ETag" = "")
    (hl : r.Header.Get "Last-Modified" = "") :
    r.IsModified lastETag lastModified = true := by
  have e1 : r.ETag = "" := by unfold Response.ETag; split <;> simp [he]
  have e2 : r.LastModified = "" := by unfold Response.LastModified; split <;> simp [hl]
  simp [Response.IsModified, StatusNotModified, hs, e1, e2]

/-- C2, witness of the amended claim: status 200 without headers, prior values "abc", "Mon". -/
theorem IsModified_of_no_validators_witness :
    bareOK.StatusCode ≠ 304 ∧ bareOK.Header.Get "ETag" = "" ∧
      bareOK.Header.Get "Last-Modified" = "" ∧ bareOK.IsModified "abc" "Mon" = true :=
  ⟨by decide, by decide, by decide,
    IsModified_of_no_validators bareOK "abc" "Mon" (by decide) (by decide) (by decide)⟩

/-- C2, counterexample to the claim as stated: a response with status 304 supplies no ETag
and no Last-Modified header, and `IsModified` returns false on it. -/
theorem IsModified_no_validators_304 :
    bareNotModified.Header.Get "ETag" = "" ∧ bareNotModified.Header.Get "Last-Modified" = "" ∧
      bareNotModified.IsModified "abc" "Mon" = false := by
  decide

/-- C3: when `Header.Get("Expires")` is exactly "0", `ETag()` and `LastModified()` both
return the empty string whatever the ETag and Last-Modified headers hold; when the Expires
header is absent or has another value, they return the ETag and Last-Modified header
values unchanged. -/
theorem ETag_LastModified_expires (r : Response) :
    (r.Header.Get "Expires" = "0" → r.ETag = "" ∧ r.LastModified = "") ∧
    (r.Header.Get "Expires" ≠ "0" →
      r.ETag = r.Header.Get "ETag" ∧ r.LastModified = r.Header.Get "Last-Modified") := by
  constructor
  · intro h
    simp [Response.ETag, Response.LastModified, h]
  · intro h
    simp [Response.ETag, Response.LastModified, h]

/-- C3, witness: a response with `Expires: 0` hides its markers, one with `Expires: Tue`
returns them. -/
theorem ETag_LastModified_expires_witness :
    (expiredResponse.Header.Get "Expires" = "0" ∧ expiredResponse.Header.Get "ETag" = "abc" ∧
      expiredResponse.ETag = "" ∧ expiredResponse.LastModified = "") ∧
    (datedResponse.Header.Get "Expires" ≠ "0" ∧
      datedResponse.ETag = "abc" ∧ datedResponse.LastModified = "Mon") :=
  ⟨⟨by decide, by decide, (ETag_LastModified_expires expiredResponse).1 (by decide)⟩,
   ⟨by decide, by
      have h := (ETag_LastModified_expires datedResponse).2 (by decide)
      exact ⟨h.1.trans (by decide), h.2.trans (by decide)⟩⟩⟩

/-- C10: for every integer status code `s`, negative values and values below 100 included,
`Response.OK` is true if and only if `200 ≤ s < 400`; it is true for 200, 301 and 399 and
false for 404, 500 and 100. -/
theorem OK_iff (r : Response) :
    (r.OK = true ↔ 200 ≤ r.StatusCode ∧ r.StatusCode < 400) ∧
    (∀ (h : Header) (b : Body),
      Response.OK ⟨200, h, b⟩ = true ∧ Response.OK ⟨301, h, b⟩ = true ∧
      Response.OK ⟨399, h, b⟩ = true ∧ Response.OK ⟨404, h, b⟩ = false ∧
      Response.OK ⟨500, h, b⟩ = false ∧ Response.OK ⟨100, h, b⟩ = false) := by
  constructor
  · unfold Response.OK
    rcases Int.lt_or_le r.StatusCode 0 with hneg | hpos
    · have h2 : Int.tdiv (-r.StatusCode) 100 = (-r.StatusCode) / 100 :=
        Int.tdiv_eq_ediv (by omega) (by decide)
      have h3 : Int.tdiv r.StatusCode 100 = - Int.tdiv (-r.StatusCode) 100 := by
        rw [Int.neg_tdiv]; simp
      have h1 : Int.tdiv r.StatusCode 100 ≤ 0 := by
        rw [h3, h2]; omega
      simp only [Bool.and_eq_true, decide_eq_true_eq]
      constructor
      · intro h; omega
      · intro h; omega
    · have h1 : Int.tdiv r.StatusCode 100 = r.StatusCode / 100 :=
        Int.tdiv_eq_ediv hpos (by decide)
      simp only [Bool.and_eq_true, decide_eq_true_eq, h1]
      constructor
      · intro h; omega
      · intro h; omega
  · intro h b
    refine ⟨?_, ?_, ?_, ?_, ?_, ?_⟩ <;> rfl

/-! ## Theorems: `NewRequest` -/

/-- Adding a value under `key` appends it to the values of `key`. -/
theorem Values.at_Add_same (v : Values) (key value : String) :
    Values.at (Values.Add v key value) key = Values.at v key ++ [value] := by
  induction v with
  | nil => simp [Values.Add, Values.at, List.lookup]
  | cons kv rest ih =>
    obtain ⟨k, vs⟩ := kv
    by_cases h : k = key
    · subst h
      simp [Values.Add, Values.at, List.lookup]
    · have h2 : (key == k) = false := by
        simp only [beq_eq_false_iff_ne, ne_eq]
        exact fun e => h e.symm
      simp only [Values.at] at ih
      simp [Values.Add, Values.at, List.lookup, h, h2, ih]

/-- Adding a value under `key` leaves the values of every other key as they were. -/
theorem Values.at_Add_other (v : Values) (key value k : String) (hk : k ≠ key) :
    Values.at (Values.Add v key value) k = Values.at v k := by
  induction v with
  | nil =>
    have h2 : (k == key) = false := by simpa using hk
    simp [Values.Add, Values.at, List.lookup, h2]
  | cons kv rest ih =>
    obtain ⟨k1, vs⟩ := kv
    simp only [Values.at] at ih
    by_cases h : k1 = key
    · subst h
      have h2 : (k == k1) = false := by simpa using hk
      simp [Values.Add, Values.at, List.lookup, h2]
    · by_cases h3 : k = k1
      · subst h3
        simp [Values.Add, Values.at, List.lookup, h]
      · have h4 : (k == k1) = false := by simpa using h3
        simp [Values.Add, Values.at, List.lookup, h, h4, ih]

/-- A pair with a blank value adds nothing to the merged query. -/
theorem mergedQuery_cons_blank (base : Values) (p : List String) (ps : List (List String))
    (h : isBlank (pairValue p) = true) : mergedQuery base (p :: ps) = mergedQuery base ps := by
  simp [mergedQuery, List.filter_cons, h]

/-- A pair with a value that is not blank is added first. -/
theorem mergedQuery_cons_add (base : Values) (p : List String) (ps : List (List String))
    (h : isBlank (pairValue p) = false) :
    mergedQuery base (p :: ps) = mergedQuery (Values.Add base (pairKey p) (pairValue p)) ps := by
  simp [mergedQuery, List.filter_cons, h]

/-- On pairs of two elements the loop of `NewRequest` ends without error, with the merged
query. -/
theorem paramsLoop_eq_mergedQuery (params : List (List String)) :
    ∀ (query : Values), (∀ p ∈ params, p.length = 2) →
      paramsLoop query params = .ok (mergedQuery query params) := by
  induction params with
  | nil => intro query _; simp [paramsLoop, mergedQuery]
  | cons p ps ih =>
    intro query h
    have hp : p.length = 2 := h p (List.mem_cons_self _ _)
    have hps : ∀ p ∈ ps, p.length = 2 := fun q hq => h q (List.mem_cons_of_mem _ hq)
    match p, hp with
    | [k, v], _ =>
      by_cases hb : trimSpaces v.data = []
      · simp only [paramsLoop, hb, if_true]
        rw [ih query hps, mergedQuery_cons_blank]
        simp [isBlank, pairValue, hb]
      · simp only [paramsLoop, hb, if_false]
        rw [ih _ hps, mergedQuery_cons_add]
        · simp [pairKey, pairValue]
        · simp [isBlank, pairValue, hb]

/-- The values of the merged query under a key: those of the base query, then the values
the params add. -/
theorem mergedQuery_at (params : List (List String)) :
    ∀ (base : Values) (k : String),
      Values.at (mergedQuery base params) k = Values.at base k ++ addedValues params k := by
  induction params with
  | nil => intro base k; simp [mergedQuery, addedValues]
  | cons p ps ih =>
    intro base k
    by_cases hb : isBlank (pairValue p) = true
    · rw [mergedQuery_cons_blank _ _ _ hb, ih]
      simp [addedValues, List.filter_cons, hb]
    · have hb2 : isBlank (pairValue p) = false := by simpa using hb
      rw [mergedQuery_cons_add _ _ _ hb2, ih]
      by_cases hk : pairKey p = k
      · subst hk
        rw [Values.at_Add_same]
        simp [addedValues, List.filter_cons, hb2]
      · rw [Values.at_Add_other _ _ _ _ (fun e => hk e.symm)]
        simp [addedValues, List.filter_cons, hb2, hk]

/-- A pair that has not two elements ends the loop of `NewRequest` with the error, wherever
it stands in the list. -/
theorem paramsLoop_invalid (params : List (List String)) :
    ∀ (query : Values), (∃ p ∈ params, p.length ≠ 2) →
      paramsLoop query params = .error .invalidParams := by
  induction params with
  | nil => intro _ h; obtain ⟨p, hp, _⟩ := h; simp at hp
  | cons p ps ih =>
    intro query h
    match p with
    | [] => simp [paramsLoop]
    | [_] => simp [paramsLoop]
    | _ :: _ :: _ :: _ => simp [paramsLoop]
    | [k, v] =>
      have hps : ∃ p ∈ ps, p.length ≠ 2 := by
        obtain ⟨q, hq, hlen⟩ := h
        rcases List.mem_cons.mp hq with e | hq
        · subst e; simp at hlen
        · exact ⟨q, hq, hlen⟩
      by_cases hb : trimSpaces v.data = []
      · simp only [paramsLoop, hb, if_true]; exact ih query hps
      · simp only [paramsLoop, hb, if_false]; exact ih _ hps

/-! ### `Values.Encode` loses nothing -/

/-- The hexadecimal digit written for `n < 16` is a digit, reads back as `n`, and is none of the separators of a query. -/
theorem upperhex_spec : ∀ n, n < 16 →
    ishex (upperhex n) = true ∧ unhex (upperhex n) = n ∧ upperhex n ≠ '&' ∧
      upperhex n ≠ '=' ∧ upperhex n ≠ ';' := by
  decide

/-- The bytes with a meaning of their own in a query are escaped in a query component. -/
theorem shouldEscape_special :
    shouldEscape '%' .encodeQueryComponent = true ∧ shouldEscape '+' .encodeQueryComponent = true ∧
    shouldEscape '&' .encodeQueryComponent = true ∧ shouldEscape '=' .encodeQueryComponent = true ∧
    shouldEscape ';' .encodeQueryComponent = true := by
  decide

/-- A byte that needs no escape in a query component decodes to itself. -/
theorem unescape_plain (c : Char) (rest : List Char) (h1 : c ≠ '%') (h2 : c ≠ '+') :
    unescape .encodeQueryComponent (c :: rest) =
      match unescape .encodeQueryComponent rest with
      | .ok t => .ok (c :: t)
      | .error e => .error e := by
  rw [unescape]
  · simp
  all_goals (intros; simp_all)

/-- Decoding the escaped form of a byte string gives the string back. -/
theorem unescape_escape (s : List Char) (hs : byteString s) :
    unescape .encodeQueryComponent (escape .encodeQueryComponent s) = .ok s := by
  induction s with
  | nil => rfl
  | cons c cs ih =>
    have hc : c.toNat < 256 := hs c (List.mem_cons_self _ _)
    have ih := ih (fun x hx => hs x (List.mem_cons_of_mem _ hx))
    rw [escape]
    by_cases h1 : c = ' '
    · subst h1
      simp [unescape, ih]
    · by_cases h2 : shouldEscape c .encodeQueryComponent = true
      · have hd : c.toNat / 16 < 16 := by omega
        have hm : c.toNat % 16 < 16 := by omega
        obtain ⟨a1, a2, _⟩ := upperhex_spec _ hd
        obtain ⟨b1, b2, _⟩ := upperhex_spec _ hm
        have hval : c.toNat / 16 * 16 + c.toNat % 16 = c.toNat := by omega
        simp [h1, h2, unescape, a1, a2, b1, b2, ih, hval]
      · have h3 : c ≠ '%' := fun e => h2 (e ▸ shouldEscape_special.1)
        have h4 : c ≠ '+' := fun e => h2 (e ▸ shouldEscape_special.2.1)
        simp only [h1, h2, false_and, if_false, Bool.false_eq_true, decide_False, Bool.false_and]
        rw [unescape_plain c _ h3 h4, ih]

/-- The escaped form of a byte string holds none of the separators of a query. -/
theorem escape_no_sep (s : List Char) (hs : byteString s) :
    ∀ x ∈ escape .encodeQueryComponent s, x ≠ '&' ∧ x ≠ '=' ∧ x ≠ ';' := by
  induction s with
  | nil => intro x hx; simp [escape] at hx
  | cons c cs ih =>
    have hc : c.toNat < 256 := hs c (List.mem_cons_self _ _)
    have ih := ih (fun x hx => hs x (List.mem_cons_of_mem _ hx))
    intro x hx
    rw [escape] at hx
    split at hx
    · rcases List.mem_cons.mp hx with e | hx
      · subst e; decide
      · exact ih x hx
    · split at hx
      · have hu : ∀ n, n < 16 → upperhex n ≠ '&' ∧ upperhex n ≠ '=' ∧ upperhex n ≠ ';' :=
          fun n hn => (upperhex_spec n hn).2.2
        rcases List.mem_cons.mp hx with e | hx
        · subst e; decide
        · rcases List.mem_cons.mp hx with e | hx
          · subst e; exact hu _ (by omega)
          · rcases List.mem_cons.mp hx with e | hx
            · subst e; exact hu _ (Nat.mod_lt _ (by decide))
            · exact ih x hx
      · rename_i h2
        rcases List.mem_cons.mp hx with e | hx
        · subst e
          refine ⟨fun e => h2 (e ▸ shouldEscape_special.2.2.1), fun e => h2 (e ▸ shouldEscape_special.2.2.2.1), fun e => h2 (e ▸ shouldEscape_special.2.2.2.2)⟩
        · exact ih x hx

/-- A piece without the separator is split off whole. -/
theorem splitBy_append (sep : Char) (a t : List Char) (ha : ∀ x ∈ a, x ≠ sep) :
    splitBy sep (a ++ sep :: t) = a :: splitBy sep t := by
  induction a with
  | nil => simp [splitBy]
  | cons c cs ih =>
    have hc : c ≠ sep := ha c (List.mem_cons_self _ _)
    have ih := ih (fun x hx => ha x (List.mem_cons_of_mem _ hx))
    simp [splitBy, hc, ih]

/-- A text without the separator is one piece. -/
theorem splitBy_single (sep : Char) (a : List Char) (ha : ∀ x ∈ a, x ≠ sep) :
    splitBy sep a = [a] := by
  induction a with
  | nil => simp [splitBy]
  | cons c cs ih =>
    have hc : c ≠ sep := ha c (List.mem_cons_self _ _)
    have ih := ih (fun x hx => ha x (List.mem_cons_of_mem _ hx))
    simp [splitBy, hc, ih]

/-- Joining at least two pieces: the first, the separator, the rest joined. -/
theorem intercalate_cons_cons (sep a b : List Char) (rest : List (List Char)) :
    List.intercalate sep (a :: b :: rest) = a ++ sep ++ List.intercalate sep (b :: rest) := by
  simp [List.intercalate, List.intersperse]

/-- Splitting the joined pieces gives the pieces back when none holds the separator. -/
theorem splitBy_intercalate (sep : Char) (pieces : List (List Char))
    (hp : ∀ p ∈ pieces, ∀ x ∈ p, x ≠ sep) (hne : pieces ≠ []) :
    splitBy sep (List.intercalate [sep] pieces) = pieces := by
  induction pieces with
  | nil => exact absurd rfl hne
  | cons a rest ih =>
    cases rest with
    | nil =>
      simp only [List.intercalate, List.intersperse, List.flatten, List.append_nil]
      exact splitBy_single sep a (hp a (List.mem_cons_self _ _))
    | cons b rest =>
      rw [intercalate_cons_cons]
      simp only [List.append_assoc, List.singleton_append]
      rw [splitBy_append sep a _ (hp a (List.mem_cons_self _ _)),
        ih (fun p h => hp p (List.mem_cons_of_mem _ h)) (by simp)]

/-- `cut` splits at the separator that follows a text without it. -/
theorem cut_append (sep : Char) (a t : List Char) (ha : ∀ x ∈ a, x ≠ sep) :
    cut sep (a ++ sep :: t) = (a, t, true) := by
  induction a with
  | nil => simp [cut]
  | cons c cs ih =>
    have hc : c ≠ sep := ha c (List.mem_cons_self _ _)
    have ih := ih (fun x hx => ha x (List.mem_cons_of_mem _ hx))
    simp [cut, hc, ih]

/-- `Values.Encode` joins the encoded pairs by `&`. -/
theorem Encode_eq (q : Values) :
    Values.Encode q = String.mk (List.intercalate ['&'] ((encodedPairs q).map encodePair)) := by
  simp only [Values.Encode, encodedPairs, encodeKey, encodePair, List.map_flatMap, List.map_map]
  rfl

/-- One round of `parseQuery` on an encoded pair adds the pair. -/
theorem parseQueryStep_encodePair (st : Values × Option URLErr) (p : String × String)
    (hk : byteString p.1.data) (hv : byteString p.2.data) :
    parseQueryStep st (encodePair p) = (Values.Add st.1 p.1 p.2, st.2) := by
  have h1 := escape_no_sep p.1.data hk
  have h2 := escape_no_sep p.2.data hv
  have hsemi : (encodePair p).contains ';' = false := by
    rw [Bool.eq_false_iff]
    intro h
    simp only [List.contains_iff_exists_mem_beq, beq_iff_eq] at h
    obtain ⟨x, hx, e⟩ := h
    subst e
    simp only [encodePair, QueryEscape, List.mem_append, List.mem_cons] at hx
    rcases hx with hx | hx | hx
    · exact (h1 _ hx).2.2 rfl
    · exact absurd hx (by decide)
    · exact (h2 _ hx).2.2 rfl
  have hne : (encodePair p).isEmpty = false := by
    simp [encodePair]
  have hcut : cut '=' (encodePair p) =
      (escape .encodeQueryComponent p.1.data, escape .encodeQueryComponent p.2.data, true) :=
    cut_append '=' _ _ (fun x hx => (h1 x hx).2.1)
  simp only [parseQueryStep, hsemi, hne, hcut, unescape_escape _ hk, unescape_escape _ hv,
    Bool.false_eq_true, if_false]

/-- The rounds of `parseQuery` on encoded pairs add the pairs in order. -/
theorem foldl_parseQueryStep (pairs : List (String × String)) :
    ∀ (st : Values × Option URLErr),
      (∀ p ∈ pairs, byteString p.1.data ∧ byteString p.2.data) →
      (pairs.map encodePair).foldl parseQueryStep st =
        (pairs.foldl (fun m p => Values.Add m p.1 p.2) st.1, st.2) := by
  induction pairs with
  | nil => intro st _; rfl
  | cons p ps ih =>
    intro st h
    have hp := h p (List.mem_cons_self _ _)
    simp only [List.map_cons, List.foldl_cons]
    rw [parseQueryStep_encodePair st p hp.1 hp.2, ih _ (fun x hx => h x (List.mem_cons_of_mem _ hx))]

/-- The values under a key after adding pairs: the old values, then the values of the pairs with that key. -/
theorem foldl_Add_at (pairs : List (String × String)) :
    ∀ (m : Values) (k : String),
      Values.at (pairs.foldl (fun m p => Values.Add m p.1 p.2) m) k =
        Values.at m k ++ ((pairs.filter fun p => p.1 = k).map Prod.snd) := by
  induction pairs with
  | nil => intro m k; simp
  | cons p ps ih =>
    intro m k
    simp only [List.foldl_cons]
    rw [ih]
    by_cases hk : p.1 = k
    · subst hk
      rw [Values.at_Add_same]
      simp [List.filter_cons]
    · rw [Values.at_Add_other _ _ _ _ (fun e => hk e.symm)]
      simp [List.filter_cons, hk]

/-- Parsing an encoded query adds its pairs, in the order `Values.Encode` wrote them, to the empty query. -/
theorem ParseQuery_Encode_pairs (q : Values)
    (hb : ∀ p ∈ encodedPairs q, byteString p.1.data ∧ byteString p.2.data) :
    (ParseQuery (Values.Encode q)).1 =
      (encodedPairs q).foldl (fun m p => Values.Add m p.1 p.2) [] := by
  rw [Encode_eq]
  simp only [ParseQuery]
  by_cases hne : encodedPairs q = []
  · simp [hne, List.intercalate, splitBy, parseQueryStep]
  · have hsplit : splitBy '&' (List.intercalate ['&'] ((encodedPairs q).map encodePair)) =
        (encodedPairs q).map encodePair := by
      apply splitBy_intercalate
      · intro piece hpiece x hx
        simp only [List.mem_map] at hpiece
        obtain ⟨p, hp, e⟩ := hpiece
        subst e
        simp only [encodePair, QueryEscape, List.mem_append, List.mem_cons] at hx
        rcases hx with hx | hx | hx
        · exact (escape_no_sep _ (hb p hp).1 x hx).1
        · rw [hx]; decide
        · exact (escape_no_sep _ (hb p hp).2 x hx).1
      · simpa using hne
    rw [hsplit, foldl_parseQueryStep _ _ hb]

/-- The character of a byte value has that value. -/
theorem toNat_ofNat_byte (n : Nat) (h : n < 256) : (Char.ofNat n).toNat = n := by
  have hv : n.isValidChar := Or.inl (by omega)
  simp [Char.ofNat, hv, Char.ofNatAux, Char.toNat, UInt32.toNat]

/-- A hexadecimal digit stands for less than 16. -/
theorem unhex_lt (c : Char) : unhex c < 16 := by
  have h0 : '0'.toNat = 48 := rfl
  have h1 : '9'.toNat = 57 := rfl
  have h2 : 'a'.toNat = 97 := rfl
  have h3 : 'f'.toNat = 102 := rfl
  have h4 : 'A'.toNat = 65 := rfl
  have h5 : 'F'.toNat = 70 := rfl
  unfold unhex
  split
  · rename_i h
    simp only [Bool.and_eq_true, decide_eq_true_eq] at h
    omega
  · split
    · rename_i h
      simp only [Bool.and_eq_true, decide_eq_true_eq] at h
      omega
    · split
      · rename_i h
        simp only [Bool.and_eq_true, decide_eq_true_eq] at h
        omega
      · omega

/-- Decoding a query component that is a byte string gives a byte string. -/
theorem unescape_bytes (n : Nat) :
    ∀ (s t : List Char), s.length ≤ n → byteString s →
      unescape .encodeQueryComponent s = .ok t → byteString t := by
  induction n with
  | zero =>
    intro s t hlen _ h
    have : s = [] := List.length_eq_zero.mp (by omega)
    subst this
    simp [unescape] at h
    subst h
    intro c hc; simp at hc
  | succ n ih =>
    intro s t hlen hs h
    cases s with
    | nil =>
      simp [unescape] at h
      subst h
      intro c hc; simp at hc
    | cons c rest =>
      have hrest : byteString rest := fun x hx => hs x (List.mem_cons_of_mem _ hx)
      by_cases hp : c = '%'
      · subst hp
        match rest, hrest, hlen with
        | [], _, _ => simp [unescape] at h
        | [a], _, _ => simp [unescape] at h
        | a :: b :: rest2, hrest, hlen =>
          simp only [unescape] at h
          split at h
          · simp at h
          · simp only [reduceCtorEq, decide_False, Bool.false_and, Bool.false_eq_true,
              if_false] at h
            cases hr : unescape .encodeQueryComponent rest2 with
            | error e => rw [hr] at h; simp at h
            | ok t2 =>
              rw [hr] at h
              simp only [Except.ok.injEq] at h
              subst h
              have hb2 : byteString t2 := ih rest2 t2 (by simp at hlen; omega)
                (fun x hx => hrest x (List.mem_cons_of_mem _ (List.mem_cons_of_mem _ hx))) hr
              intro x hx
              rcases List.mem_cons.mp hx with e | hx
              · subst e
                have := unhex_lt a
                have := unhex_lt b
                rw [toNat_ofNat_byte _ (by omega)]
                omega
              · exact hb2 x hx
      · by_cases hq : c = '+'
        · subst hq
          simp only [unescape] at h
          cases hr : unescape .encodeQueryComponent rest with
          | error e => rw [hr] at h; simp at h
          | ok t2 =>
            rw [hr] at h
            simp only [Except.ok.injEq, if_true] at h
            subst h
            have hb2 : byteString t2 := ih rest t2 (by simp at hlen; omega) hrest hr
            intro x hx
            rcases List.mem_cons.mp hx with e | hx
            · subst e; decide
            · exact hb2 x hx
        · rw [unescape_plain c rest hp hq] at h
          cases hr : unescape .encodeQueryComponent rest with
          | error e => rw [hr] at h; simp at h
          | ok t2 =>
            rw [hr] at h
            simp only [Except.ok.injEq] at h
            subst h
            have hb2 : byteString t2 := ih rest t2 (by simp at hlen; omega) hrest hr
            intro x hx
            rcases List.mem_cons.mp hx with e | hx
            · subst e; exact hs _ (List.mem_cons_self _ _)
            · exact hb2 x hx

/-- The keys after `Values.Add`: the key is appended when it is new. -/
theorem Values.keys_Add (q : Values) (k v : String) :
    (Values.Add q k v).map Prod.fst =
      if k ∈ q.map Prod.fst then q.map Prod.fst else q.map Prod.fst ++ [k] := by
  induction q with
  | nil => simp [Values.Add]
  | cons kv rest ih =>
    obtain ⟨k1, vs⟩ := kv
    by_cases h : k1 = k
    · subst h; simp [Values.Add]
    · have h2 : ¬ k = k1 := fun e => h e.symm
      simp only [Values.Add, h, if_false, List.map_cons, ih, List.mem_cons, h2, false_or]
      split <;> simp

/-- `Values.Add` of byte strings keeps a query well formed. -/
theorem Values.wf_Add (q : Values) (k v : String) (hq : Values.wf q)
    (hk : byteString k.data) (hv : byteString v.data) : Values.wf (Values.Add q k v) := by
  constructor
  · rw [Values.keys_Add]
    split
    · exact hq.1
    · rename_i h
      exact List.Nodup.append hq.1 (List.nodup_singleton k) (by
        intro x hx hx2
        simp only [List.mem_singleton] at hx2
        subst hx2
        exact h hx)
  · have hb := hq.2
    clear hq
    induction q with
    | nil =>
      intro kv hkv
      simp only [Values.Add, List.mem_singleton] at hkv
      subst hkv
      exact ⟨hk, fun x hx => by simp only [List.mem_singleton] at hx; subst hx; exact hv⟩
    | cons kv rest ih =>
      obtain ⟨k1, vs⟩ := kv
      have h1 := hb (k1, vs) (List.mem_cons_self _ _)
      have hrest : Values.bytes rest := fun x hx => hb x (List.mem_cons_of_mem _ hx)
      by_cases h : k1 = k
      · subst h
        intro kv hkv
        simp only [Values.Add, if_true, List.mem_cons] at hkv
        rcases hkv with e | hkv
        · subst e
          refine ⟨h1.1, fun x hx => ?_⟩
          simp only [List.mem_append, List.mem_singleton] at hx
          rcases hx with hx | hx
          · exact h1.2 x hx
          · subst hx; exact hv
        · exact hrest kv hkv
      · intro kv hkv
        simp only [Values.Add, h, if_false, List.mem_cons] at hkv
        rcases hkv with e | hkv
        · subst e; exact h1
        · exact ih hrest kv hkv

/-- Both parts `cut` returns are made of characters of the text. -/
theorem cut_mem (sep : Char) (s : List Char) :
    (∀ x ∈ (cut sep s).1, x ∈ s) ∧ (∀ x ∈ (cut sep s).2.1, x ∈ s) := by
  induction s with
  | nil => simp [cut]
  | cons c cs ih =>
    by_cases h : c = sep
    · simp only [cut, h, if_true]
      exact ⟨fun x hx => by simp at hx, fun x hx => List.mem_cons_of_mem _ hx⟩
    · simp only [cut, h, if_false]
      constructor
      · intro x hx
        rcases List.mem_cons.mp hx with e | hx
        · subst e; exact List.mem_cons_self _ _
        · exact List.mem_cons_of_mem _ (ih.1 x hx)
      · intro x hx
        exact List.mem_cons_of_mem _ (ih.2 x hx)

/-- The pieces `splitBy` returns are made of characters of the text. -/
theorem splitBy_mem (sep : Char) (s : List Char) :
    ∀ seg ∈ splitBy sep s, ∀ x ∈ seg, x ∈ s := by
  induction s with
  | nil => intro seg hseg x hx; simp [splitBy] at hseg; subst hseg; simp at hx
  | cons c cs ih =>
    intro seg hseg x hx
    by_cases h : c = sep
    · simp only [splitBy, h, if_true, List.mem_cons] at hseg
      rcases hseg with e | hseg
      · subst e; simp at hx
      · exact List.mem_cons_of_mem _ (ih seg hseg x hx)
    · simp only [splitBy, h, if_false] at hseg
      cases hsp : splitBy sep cs with
      | nil =>
        rw [hsp] at hseg
        simp only [List.mem_singleton] at hseg
        subst hseg
        simp only [List.mem_singleton] at hx
        subst hx; exact List.mem_cons_self _ _
      | cons s1 segs =>
        rw [hsp] at hseg ih
        simp only [List.mem_cons] at hseg
        rcases hseg with e | hseg
        · subst e
          rcases List.mem_cons.mp hx with e | hx
          · subst e; exact List.mem_cons_self _ _
          · exact List.mem_cons_of_mem _ (ih s1 (List.mem_cons_self _ _) x hx)
        · exact List.mem_cons_of_mem _ (ih seg (List.mem_cons_of_mem _ hseg) x hx)

/-- One round of `parseQuery` on a byte string keeps the query well formed. -/
theorem wf_parseQueryStep (st : Values × Option URLErr) (piece : List Char)
    (hst : Values.wf st.1) (hp : byteString piece) : Values.wf (parseQueryStep st piece).1 := by
  unfold parseQueryStep
  split
  · exact hst
  · split
    · exact hst
    · cases hk : unescape .encodeQueryComponent (cut '=' piece).1 with
      | error e => exact hst
      | ok k =>
        cases hv : unescape .encodeQueryComponent (cut '=' piece).2.1 with
        | error e => exact hst
        | ok v =>
          simp only []
          apply Values.wf_Add _ _ _ hst
          · exact unescape_bytes _ _ _ (Nat.le_refl _)
              (fun x hx => hp x ((cut_mem '=' piece).1 x hx)) hk
          · exact unescape_bytes _ _ _ (Nat.le_refl _)
              (fun x hx => hp x ((cut_mem '=' piece).2 x hx)) hv

/-- `ParseQuery` of a byte string is a well-formed query. -/
theorem wf_ParseQuery (s : String) (hs : byteString s.data) : Values.wf (ParseQuery s).1 := by
  unfold ParseQuery
  have key : ∀ (pieces : List (List Char)) (st : Values × Option URLErr),
      (∀ p ∈ pieces, byteString p) → Values.wf st.1 →
        Values.wf (pieces.foldl parseQueryStep st).1 := by
    intro pieces
    induction pieces with
    | nil => intro st _ h; exact h
    | cons p ps ih =>
      intro st hp hst
      exact ih _ (fun x hx => hp x (List.mem_cons_of_mem _ hx))
        (wf_parseQueryStep st p hst (hp p (List.mem_cons_self _ _)))
  apply key
  · intro p hp x hx
    exact hs x (splitBy_mem '&' s.data p hp x hx)
  · exact ⟨by simp, fun kv hkv => by simp at hkv⟩

/-- Merging params that are byte strings keeps the query well formed. -/
theorem wf_mergedQuery (params : List (List String)) :
    ∀ (base : Values), Values.wf base →
      (∀ p ∈ params, byteString (pairKey p).data ∧ byteString (pairValue p).data) →
      Values.wf (mergedQuery base params) := by
  induction params with
  | nil => intro base h _; simpa [mergedQuery] using h
  | cons p ps ih =>
    intro base hbase hp
    have h1 := hp p (List.mem_cons_self _ _)
    have hps := fun x hx => hp x (List.mem_cons_of_mem _ hx)
    by_cases hb : isBlank (pairValue p) = true
    · rw [mergedQuery_cons_blank _ _ _ hb]; exact ih base hbase hps
    · have hb2 : isBlank (pairValue p) = false := by simpa using hb
      rw [mergedQuery_cons_add _ _ _ hb2]
      exact ih _ (Values.wf_Add _ _ _ hbase h1.1 h1.2) hps

/-- An entry found by `lookup` is an entry of the list. -/
theorem lookup_mem (q : Values) (k : String) (vs : List String) (h : q.lookup k = some vs) :
    (k, vs) ∈ q := by
  induction q with
  | nil => simp at h
  | cons kv rest ih =>
    obtain ⟨k1, vs1⟩ := kv
    by_cases hk : k = k1
    · subst hk
      simp only [List.lookup, beq_self_eq_true, Option.some.injEq] at h
      subst h
      exact List.mem_cons_self _ _
    · have hk2 : (k == k1) = false := by simpa using hk
      simp only [List.lookup, hk2] at h
      exact List.mem_cons_of_mem _ (ih h)

/-- A key that is absent has no values. -/
theorem at_of_not_mem (q : Values) (k : String) (h : k ∉ q.map Prod.fst) :
    Values.at q k = [] := by
  have : q.lookup k = none := by
    rw [List.lookup_eq_none_iff]
    intro p hp
    simp only [bne_iff_ne, ne_eq]
    intro e
    exact h (e ▸ List.mem_map_of_mem Prod.fst hp)
  simp [Values.at, this]

/-- The pairs `Values.Encode` writes for a query of byte strings are byte strings. -/
theorem encodedPairs_bytes (q : Values) (hq : Values.bytes q) :
    ∀ p ∈ encodedPairs q, byteString p.1.data ∧ byteString p.2.data := by
  intro p hp
  simp only [encodedPairs, List.mem_flatMap, List.mem_map] at hp
  obtain ⟨k, hk, x, hx, e⟩ := hp
  subst e
  have hk2 : k ∈ q.map Prod.fst := (List.perm_insertionSort strLe _).mem_iff.mp hk
  simp only [List.mem_map] at hk2
  obtain ⟨kv, hkv, e⟩ := hk2
  subst e
  refine ⟨(hq kv hkv).1, ?_⟩
  simp only [Values.at] at hx
  cases hl : q.lookup kv.1 with
  | none => rw [hl] at hx; simp at hx
  | some vs =>
    rw [hl] at hx
    simp only [Option.getD_some] at hx
    exact (hq _ (lookup_mem q _ vs hl)).2 x hx

/-- Of the pairs listed key by key, those with the key `k` carry the values of `k` for each time `k` is listed. -/
theorem filter_flatMap_pairs (q : Values) (k : String) (keys : List String) :
    ((keys.flatMap fun k1 => (Values.at q k1).map fun x => (k1, x)).filter
        fun p => p.1 = k).map Prod.snd =
      (keys.filter fun k1 => k1 = k).flatMap (Values.at q) := by
  induction keys with
  | nil => simp
  | cons k1 ks ih =>
    simp only [List.flatMap_cons, List.filter_append, List.map_append, ih]
    by_cases h : k1 = k
    · subst h
      simp [List.filter_cons, List.filter_map, Function.comp_def]
    · simp [List.filter_cons, List.filter_map, Function.comp_def, h]

/-- A list without repetition holds a key once or not at all. -/
theorem filter_eq_of_nodup (keys : List String) (k : String) (h : keys.Nodup) :
    (keys.filter fun k1 => k1 = k) = if k ∈ keys then [k] else [] := by
  induction keys with
  | nil => simp
  | cons k1 ks ih =>
    have hn := List.nodup_cons.mp h
    by_cases hk : k1 = k
    · subst hk
      have : (ks.filter fun k2 => k2 = k1) = [] := by
        rw [ih hn.2]; simp [hn.1]
      simp [List.filter_cons, this]
    · have hk2 : ¬ k = k1 := fun e => hk e.symm
      simp [List.filter_cons, hk, ih hn.2, hk2]

/-- Parsing the text `Values.Encode` writes gives back, under every key, the values of
the encoded query: the encoding loses nothing. -/
theorem ParseQuery_Encode_at (q : Values) (hq : Values.wf q) (k : String) :
    Values.at (ParseQuery (Values.Encode q)).1 k = Values.at q k := by
  rw [ParseQuery_Encode_pairs q (encodedPairs_bytes q hq.2), foldl_Add_at]
  simp only [encodedPairs]
  rw [filter_flatMap_pairs, filter_eq_of_nodup _ _
    ((List.perm_insertionSort strLe _).nodup_iff.mpr hq.1)]
  by_cases hk : k ∈ q.map Prod.fst
  · have hk2 : k ∈ (q.map Prod.fst).insertionSort strLe :=
      (List.perm_insertionSort strLe _).mem_iff.mpr hk
    simp [hk2, Values.at]
  · have hk2 : k ∉ (q.map Prod.fst).insertionSort strLe :=
      fun h => hk ((List.perm_insertionSort strLe _).mem_iff.mp h)
    rw [at_of_not_mem q k hk]
    simp [hk2, Values.at]

/-! ### `url.Parse` reads back the query that `URL.String` wrote -/

/-- `strings.Cut` of a text without the separator. -/
theorem cut_none (sep : Char) (s : List Char) (hs : ∀ x ∈ s, x ≠ sep) :
    cut sep s = (s, [], false) := by
  induction s with
  | nil => rfl
  | cons c cs ih =>
    have hc : c ≠ sep := hs c (List.mem_cons_self _ _)
    have ih := ih (fun x hx => hs x (List.mem_cons_of_mem _ hx))
    simp [cut, hc, ih]

/-- `strings.Cut` skips a prefix that does not hold the separator. -/
theorem cut_prefix (sep : Char) (a s : List Char) (ha : ∀ x ∈ a, x ≠ sep) :
    cut sep (a ++ s) = (a ++ (cut sep s).1, (cut sep s).2.1, (cut sep s).2.2) := by
  induction a with
  | nil => simp
  | cons c cs ih =>
    have hc : c ≠ sep := ha c (List.mem_cons_self _ _)
    have ih := ih (fun x hx => ha x (List.mem_cons_of_mem _ hx))
    simp [cut, hc, ih]

/-- The text before the separator does not hold it, and is part of the whole. -/
theorem cut_fst (sep : Char) (s : List Char) :
    ∀ x ∈ (cut sep s).1, x ≠ sep ∧ x ∈ s := by
  induction s with
  | nil => simp [cut]
  | cons c cs ih =>
    by_cases h : c = sep
    · simp [cut, h]
    · intro x hx
      simp only [cut, h, if_false] at hx
      rcases List.mem_cons.mp hx with e | hx
      · subst e; exact ⟨h, List.mem_cons_self _ _⟩
      · exact ⟨(ih x hx).1, List.mem_cons_of_mem _ (ih x hx).2⟩

/-- A text that ends in its only `?` has nothing after the first `?`: the case
`ForceQuery` of `url.parse`. -/
theorem cut_force (s : List Char) (h1 : s.getLast? = some '?') (h2 : s.count '?' = 1) :
    (cut '?' s).1 = s.dropLast ∧ (cut '?' s).2.1 = [] := by
  induction s with
  | nil => simp at h1
  | cons c cs ih =>
    by_cases h : c = '?'
    · subst h
      have h0 : cs.count '?' = 0 := by simpa using h2
      cases cs with
      | nil => simp [cut]
      | cons d ds =>
        have hm : '?' ∈ d :: ds := by
          have : (d :: ds).getLast? = some '?' := by simpa [List.getLast?_cons_cons] using h1
          exact List.mem_of_getLast?_eq_some this
        exact absurd (List.count_pos_iff.mpr hm) (by omega)
    · cases cs with
      | nil =>
        simp at h1
        exact absurd h1 h
      | cons d ds =>
        have h1c : (d :: ds).getLast? = some '?' := by
          simpa [List.getLast?_cons_cons] using h1
        have h2c : (d :: ds).count '?' = 1 := by
          rw [List.count_cons_of_ne (Ne.symm h)] at h2
          exact h2
        have ih := ih h1c h2c
        have e : cut '?' (c :: d :: ds) =
            (c :: (cut '?' (d :: ds)).1, (cut '?' (d :: ds)).2.1, (cut '?' (d :: ds)).2.2) := by
          rw [cut]; simp [h]
        rw [e]
        simp only [ih.1, ih.2, List.dropLast_cons₂, and_self]

/-- The code point of `Char.ofNat n` is `n`, or 0 when `n` is no code point. -/
theorem toNat_ofNat_cases (n : Nat) : (Char.ofNat n).toNat = n ∨ (Char.ofNat n).toNat = 0 := by
  by_cases hv : n.isValidChar
  · left; simp [Char.ofNat, hv, Char.ofNatAux, Char.toNat, UInt32.toNat]
  · right; simp only [Char.ofNat, hv, dite_false]; rfl

/-- No hexadecimal digit that `escape` writes is a `?` or a `#`. -/
theorem upperhex_ne (n : Nat) : upperhex n ≠ '?' ∧ upperhex n ≠ '#' := by
  have hq : ('?' : Char).toNat = 63 := rfl
  have hh : ('#' : Char).toNat = 35 := rfl
  have h0 : ('0' : Char).toNat = 48 := rfl
  have hA : ('A' : Char).toNat = 65 := rfl
  unfold upperhex
  split
  · rcases toNat_ofNat_cases ('0'.toNat + n) with h | h <;>
      constructor <;> intro e <;> rw [e] at h <;> omega
  · rcases toNat_ofNat_cases ('A'.toNat + (n - 10)) with h | h <;>
      constructor <;> intro e <;> rw [e] at h <;> omega

/-- What `escape` writes holds no byte that the mode escapes, save `%`, `+` and the
hexadecimal digits. -/
theorem escape_no_mark (mode : encoding) (x : Char) (hx : shouldEscape x mode = true)
    (h1 : x ≠ '%') (h2 : x ≠ '+') (h3 : ∀ n, upperhex n ≠ x) (s : List Char) :
    ∀ y ∈ escape mode s, y ≠ x := by
  induction s with
  | nil => intro y hy; simp [escape] at hy
  | cons c cs ih =>
    intro y hy
    rw [escape] at hy
    split at hy
    · rcases List.mem_cons.mp hy with e | hy
      · subst e; exact Ne.symm h2
      · exact ih y hy
    · split at hy
      · simp only [List.mem_cons] at hy
        rcases hy with e | e | e | hy
        · subst e; exact Ne.symm h1
        · subst e; exact h3 _
        · subst e; exact h3 _
        · exact ih y hy
      · rename_i hne
        rcases List.mem_cons.mp hy with e | hy
        · subst e
          intro e2
          subst e2
          exact hne hx
        · exact ih y hy

/-- What `escape` writes for a path, a host or a user name holds no `?` and no `#`. -/
theorem escape_no_marks (mode : encoding)
    (hm : mode = .encodePath ∨ mode = .encodeHost ∨ mode = .encodeUserPassword ∨
      mode = .encodeQueryComponent)
    (s : List Char) : ∀ y ∈ escape mode s, y ≠ '?' ∧ y ≠ '#' := by
  intro y hy
  constructor
  · refine escape_no_mark mode '?' ?_ (by decide) (by decide) (fun n => (upperhex_ne n).1) s y hy
    rcases hm with h | h | h | h <;> subst h <;> decide
  · refine escape_no_mark mode '#' ?_ (by decide) (by decide) (fun n => (upperhex_ne n).2) s y hy
    rcases hm with h | h | h | h <;> subst h <;> decide

/-- A raw path that `validEncoded` accepts holds no `?` and no `#`. -/
theorem validEncoded_no_marks (s : List Char) (h : validEncoded .encodePath s = true) :
    ∀ y ∈ s, y ≠ '?' ∧ y ≠ '#' := by
  intro y hy
  have hy2 := List.all_eq_true.mp h y hy
  constructor
  · intro e; subst e; revert hy2; decide
  · intro e; subst e; revert hy2; decide

/-- What `URL.EscapedPath` returns holds no `?` and no `#`. -/
theorem EscapedPath_no_marks (u : URL) : ∀ y ∈ u.EscapedPath, y ≠ '?' ∧ y ≠ '#' := by
  intro y hy
  unfold URL.EscapedPath at hy
  split at hy
  · rename_i h
    simp only [Bool.and_eq_true] at h
    exact validEncoded_no_marks _ h.1.2 y hy
  · split at hy
    · simp only [List.mem_singleton] at hy
      subst hy
      decide
    · exact escape_no_marks .encodePath (Or.inl rfl) _ y hy

/-- `URL.setPath` touches the path only. -/
theorem setPath_ok (u u2 : URL) (p : List Char) (h : URL.setPath u p = .ok u2) :
    u2.Scheme = u.Scheme ∧ u2.Opaque = u.Opaque ∧ u2.RawQuery = u.RawQuery := by
  unfold URL.setPath at h
  split at h
  · cases h
  · cases h
    exact ⟨rfl, rfl, rfl⟩

/-- `URL.setFragment` touches the fragment only. -/
theorem setFragment_ok (u u2 : URL) (f : List Char) (h : URL.setFragment u f = .ok u2) :
    u2.Scheme = u.Scheme ∧ u2.Opaque = u.Opaque ∧ u2.RawQuery = u.RawQuery := by
  unfold URL.setFragment at h
  split at h
  · cases h
  · cases h
    exact ⟨rfl, rfl, rfl⟩

/-- A byte of a scheme is neither `?` nor `#`, also in lower case. -/
theorem schemeChar_ne (c : Char)
    (h : c.isAlpha = true ∨ (c.isDigit || c = '+' || c = '-' || c = '.') = true) :
    c ≠ '?' ∧ c ≠ '#' ∧ c.toLower ≠ '?' ∧ c.toLower ≠ '#' := by
  have a1 : c ≠ '?' := by intro e; subst e; revert h; decide
  have a2 : c ≠ '#' := by intro e; subst e; revert h; decide
  refine ⟨a1, a2, ?_, ?_⟩
  all_goals
    unfold Char.toLower
    simp only
    split
    · rename_i hr
      have ht := toNat_ofNat_byte (c.toNat + 32) (by omega)
      intro e
      rw [e] at ht
      have : ('?' : Char).toNat = 63 := rfl
      have : ('#' : Char).toNat = 35 := rfl
      omega
    · assumption

/-- The loop of `getScheme`: either there is no scheme and the rest is the whole text, or
the text read so far, made of scheme bytes, ends at a colon before the rest. -/
theorem getSchemeLoop_ok (rawURL : List Char) : ∀ (s acc sch rest0 : List Char),
    getSchemeLoop rawURL acc s = .ok (sch, rest0) →
    (sch = [] ∧ rest0 = rawURL) ∨
    (∃ pre, s = pre ++ ':' :: rest0 ∧ sch = acc.reverse ++ pre ∧
      ∀ c ∈ pre, c.isAlpha = true ∨ (c.isDigit || c = '+' || c = '-' || c = '.') = true) := by
  intro s
  induction s with
  | nil =>
    intro acc sch rest0 h
    simp only [getSchemeLoop] at h
    cases h
    exact Or.inl ⟨rfl, rfl⟩
  | cons c cs ih =>
    intro acc sch rest0 h
    rw [getSchemeLoop] at h
    split at h
    · rename_i hc
      rcases ih (c :: acc) sch rest0 h with r | ⟨pre, e1, e2, e3⟩
      · exact Or.inl r
      · refine Or.inr ⟨c :: pre, by simp [e1], by simp [e2], ?_⟩
        intro d hd
        rcases List.mem_cons.mp hd with e | hd
        · subst e; exact Or.inl hc
        · exact e3 d hd
    · split at h
      · rename_i hc
        split at h
        · cases h
          exact Or.inl ⟨rfl, rfl⟩
        · rcases ih (c :: acc) sch rest0 h with r | ⟨pre, e1, e2, e3⟩
          · exact Or.inl r
          · refine Or.inr ⟨c :: pre, by simp [e1], by simp [e2], ?_⟩
            intro d hd
            rcases List.mem_cons.mp hd with e | hd
            · subst e; exact Or.inr hc
            · exact e3 d hd
      · split at h
        · rename_i hc
          split at h
          · cases h
          · cases h
            exact Or.inr ⟨[], by simp [hc], by simp, by simp⟩
        · cases h
          exact Or.inl ⟨rfl, rfl⟩

/-- Go `getScheme`: the rest is the text after a prefix that holds no `?`, and the scheme
holds neither `?` nor `#`, also in lower case. -/
theorem getScheme_ok (rawURL sch rest0 : List Char) (h : getScheme rawURL = .ok (sch, rest0)) :
    (∃ pre, rawURL = pre ++ rest0 ∧ ∀ c ∈ pre, c ≠ '?') ∧
    (∀ c ∈ sch.map Char.toLower, c ≠ '?' ∧ c ≠ '#') := by
  rcases getSchemeLoop_ok rawURL rawURL [] sch rest0 h with ⟨e1, e2⟩ | ⟨pre, e1, e2, e3⟩
  · subst e1 e2
    exact ⟨⟨[], by simp, by simp⟩, by simp⟩
  · simp only [List.reverse_nil, List.nil_append] at e2
    subst e2
    constructor
    · refine ⟨sch ++ [':'], by simp [e1], ?_⟩
      intro c hc
      rcases List.mem_append.mp hc with hc | hc
      · exact (schemeChar_ne c (e3 c hc)).1
      · simp only [List.mem_singleton] at hc
        subst hc
        decide
    · intro c hc
      obtain ⟨d, hd, e⟩ := List.mem_map.mp hc
      subst e
      exact ⟨(schemeChar_ne d (e3 d hd)).2.2.1, (schemeChar_ne d (e3 d hd)).2.2.2⟩

/-- What `url.parse` returns: the scheme and the opaque part hold no `?` and no `#`, and
the raw query is what follows the first `?` of the text after the scheme. -/
theorem parse_ok (X : List Char) (url : URL) (h : parse X = .ok url)
    (hX : ∀ c ∈ X, c ≠ '#') :
    (∀ c ∈ url.Scheme.data, c ≠ '?' ∧ c ≠ '#') ∧
    (∀ c ∈ url.Opaque.data, c ≠ '?' ∧ c ≠ '#') ∧
    ((X = ['*'] ∧ url.RawQuery = "") ∨
      ∃ pre rest0, X = pre ++ rest0 ∧ (∀ c ∈ pre, c ≠ '?') ∧
        url.RawQuery = String.mk (cut '?' rest0).2.1) := by
  unfold parse at h
  split at h
  · cases h
  split at h
  · rename_i hs
    cases h
    exact ⟨by simp, by simp, Or.inl ⟨hs, rfl⟩⟩
  split at h
  · cases h
  rename_i scheme0 rest0 hg
  obtain ⟨⟨pre, hpre, hnq⟩, hsch⟩ := getScheme_ok X scheme0 rest0 hg
  have hk : (if (decide (rest0.getLast? = some '?') && decide (List.count '?' rest0 = 1)) = true
        then rest0.dropLast else (cut '?' rest0).1) = (cut '?' rest0).1 ∧
      (if (decide (rest0.getLast? = some '?') && decide (List.count '?' rest0 = 1)) = true
        then [] else (cut '?' rest0).2.1) = (cut '?' rest0).2.1 := by
    split
    · rename_i hf
      simp only [Bool.and_eq_true, decide_eq_true_eq] at hf
      have := cut_force rest0 hf.1 hf.2
      exact ⟨this.1.symm, this.2.symm⟩
    · exact ⟨rfl, rfl⟩
  have hfin : ∀ base : URL, base.Scheme = String.mk (scheme0.map Char.toLower) →
      (base.Opaque = "" ∨ base.Opaque = String.mk (cut '?' rest0).1) →
      base.RawQuery = String.mk (cut '?' rest0).2.1 →
      (∀ c ∈ base.Scheme.data, c ≠ '?' ∧ c ≠ '#') ∧
      (∀ c ∈ base.Opaque.data, c ≠ '?' ∧ c ≠ '#') ∧
      ((X = ['*'] ∧ base.RawQuery = "") ∨
        ∃ pre rest0, X = pre ++ rest0 ∧ (∀ c ∈ pre, c ≠ '?') ∧
          base.RawQuery = String.mk (cut '?' rest0).2.1) := by
    intro base h1 h2 h3
    refine ⟨?_, ?_, Or.inr ⟨pre, rest0, hpre, hnq, h3⟩⟩
    · rw [h1]; exact hsch
    · rcases h2 with h2 | h2
      · rw [h2]; simp
      · rw [h2]
        intro c hc
        have hc2 := cut_fst '?' rest0 c hc
        exact ⟨hc2.1, hX c (by rw [hpre]; exact List.mem_append_right _ hc2.2)⟩
  dsimp only at h
  rw [hk.1, hk.2] at h
  split at h
  · cases h
    exact hfin _ rfl (Or.inr rfl) rfl
  split at h
  · cases h
  split at h
  · split at h
    · cases h
    · obtain ⟨a, b, c⟩ := setPath_ok _ _ _ h
      exact hfin url a (Or.inl b) c
  split at h
  · obtain ⟨a, b, c⟩ := setPath_ok _ _ _ h
    exact hfin url a (Or.inl b) c
  · obtain ⟨a, b, c⟩ := setPath_ok _ _ _ h
    exact hfin url a (Or.inl b) c

/-- What `url.Parse` returns: the scheme and the opaque part hold no `?` and no `#`. -/
theorem Parse_no_marks (rawURL : String) (u : URL) (h : url.Parse rawURL = .ok u) :
    (∀ c ∈ u.Scheme.data, c ≠ '?' ∧ c ≠ '#') ∧ (∀ c ∈ u.Opaque.data, c ≠ '?' ∧ c ≠ '#') := by
  unfold url.Parse at h
  dsimp only at h
  have hX : ∀ c ∈ (cut '#' rawURL.data).1, c ≠ '#' := fun c hc => (cut_fst '#' _ c hc).1
  split at h
  · cases h
  · rename_i url0 hp
    have h0 := parse_ok _ url0 hp hX
    split at h
    · cases h
      exact ⟨h0.1, h0.2.1⟩
    · split at h
      · cases h
      · rename_i url1 hf
        cases h
        obtain ⟨a, b, _⟩ := setFragment_ok _ _ _ hf
        rw [a, b]
        exact ⟨h0.1, h0.2.1⟩

/-- What `Userinfo.String` writes holds no `?` and no `#`. -/
theorem Userinfo_no_marks (ui : Userinfo) : ∀ c ∈ ui.String, c ≠ '?' ∧ c ≠ '#' := by
  intro c hc
  unfold Userinfo.String at hc
  rcases List.mem_append.mp hc with hc | hc
  · exact escape_no_marks .encodeUserPassword (Or.inr (Or.inr (Or.inl rfl))) _ c hc
  · split at hc
    · rcases List.mem_cons.mp hc with e | hc
      · subst e; decide
      · exact escape_no_marks .encodeUserPassword (Or.inr (Or.inr (Or.inl rfl))) _ c hc
    · simp at hc

/-- Go `URL.String` of a URL whose scheme and opaque part hold no `?` and no `#`: a text
without `?` and `#`, then the query after a `?`, then the fragment after a `#`. -/
theorem String_parts (u : URL) (hs : ∀ c ∈ u.Scheme.data, c ≠ '?' ∧ c ≠ '#')
    (ho : ∀ c ∈ u.Opaque.data, c ≠ '?' ∧ c ≠ '#') :
    ∃ main : List Char, (∀ c ∈ main, c ≠ '?' ∧ c ≠ '#') ∧
      ∀ rq : String, (URL.String { u with RawQuery := rq }).data =
        main ++ (if u.ForceQuery || rq != "" then '?' :: rq.data else []) ++
          (if u.Fragment != "" then '#' :: u.EscapedFragment else []) := by
  have hscheme : ∀ c ∈ (if u.Scheme != "" then u.Scheme.data ++ [':'] else []),
      c ≠ '?' ∧ c ≠ '#' := by
    intro c hc
    split at hc
    · rcases List.mem_append.mp hc with hc | hc
      · exact hs c hc
      · simp only [List.mem_singleton] at hc
        subst hc; decide
    · simp at hc
  have hauth : ∀ c ∈ (if (u.Scheme != "" || u.Host != "" || u.User.isSome) &&
          !(u.OmitHost && u.Host = "" && u.User.isNone) then
        (if u.Host != "" || u.Path != "" || u.User.isSome then ['/', '/'] else []) ++
        (match u.User with
          | some ui => ui.String ++ ['@']
          | none => []) ++
        (if u.Host != "" then escape .encodeHost u.Host.data else [])
      else []), c ≠ '?' ∧ c ≠ '#' := by
    intro c hc
    split at hc
    · rcases List.mem_append.mp hc with hc | hc
      · rcases List.mem_append.mp hc with hc | hc
        · split at hc
          · simp only [List.mem_cons, List.mem_singleton, List.not_mem_nil, or_false,
              or_self] at hc
            subst hc; decide
          · simp at hc
        · split at hc
          · rcases List.mem_append.mp hc with hc | hc
            · exact Userinfo_no_marks _ c hc
            · simp only [List.mem_singleton] at hc
              subst hc; decide
          · simp at hc
      · split at hc
        · exact escape_no_marks .encodeHost (Or.inr (Or.inl rfl)) _ c hc
        · simp at hc
    · simp at hc
  refine ⟨if u.Opaque != "" then
      (if u.Scheme != "" then u.Scheme.data ++ [':'] else []) ++ u.Opaque.data
    else
      ((if u.Scheme != "" then u.Scheme.data ++ [':'] else []) ++
        (if (u.Scheme != "" || u.Host != "" || u.User.isSome) &&
            !(u.OmitHost && u.Host = "" && u.User.isNone) then
          (if u.Host != "" || u.Path != "" || u.User.isSome then ['/', '/'] else []) ++
          (match u.User with
            | some ui => ui.String ++ ['@']
            | none => []) ++
          (if u.Host != "" then escape .encodeHost u.Host.data else [])
        else []) ++
        (if !u.EscapedPath.isEmpty && u.EscapedPath.head? != some '/' && u.Host != "" then ['/']
          else [])) ++
      (if ((if u.Scheme != "" then u.Scheme.data ++ [':'] else []) ++
          (if (u.Scheme != "" || u.Host != "" || u.User.isSome) &&
              !(u.OmitHost && u.Host = "" && u.User.isNone) then
            (if u.Host != "" || u.Path != "" || u.User.isSome then ['/', '/'] else []) ++
            (match u.User with
              | some ui => ui.String ++ ['@']
              | none => []) ++
            (if u.Host != "" then escape .encodeHost u.Host.data else [])
          else []) ++
          (if !u.EscapedPath.isEmpty && u.EscapedPath.head? != some '/' && u.Host != "" then ['/']
            else [])).isEmpty && (cut '/' u.EscapedPath).1.contains ':' then ['.', '/'] else []) ++
      u.EscapedPath, ?_, fun rq => rfl⟩
  have hite : ∀ (b : Bool) (l1 l2 : List Char), (∀ c ∈ l1, c ≠ '?' ∧ c ≠ '#') →
      (∀ c ∈ l2, c ≠ '?' ∧ c ≠ '#') → ∀ c ∈ (if b then l1 else l2), c ≠ '?' ∧ c ≠ '#' := by
    intro b l1 l2 h1 h2
    cases b
    · exact h2
    · exact h1
  have happ : ∀ (l1 l2 : List Char), (∀ c ∈ l1, c ≠ '?' ∧ c ≠ '#') →
      (∀ c ∈ l2, c ≠ '?' ∧ c ≠ '#') → ∀ c ∈ l1 ++ l2, c ≠ '?' ∧ c ≠ '#' := by
    intro l1 l2 h1 h2 c hc
    rcases List.mem_append.mp hc with hc | hc
    · exact h1 c hc
    · exact h2 c hc
  have hnil : ∀ c ∈ ([] : List Char), c ≠ '?' ∧ c ≠ '#' := by simp
  exact hite _ _ _ (happ _ _ hscheme ho)
    (happ _ _ (happ _ _ (happ _ _ (happ _ _ hscheme hauth) (hite _ _ _ (by decide) hnil))
      (hite _ _ _ (by decide) hnil)) (EscapedPath_no_marks u))

/-- Parsing the text that `URL.String` writes gives back the raw query it was written
with: `url.Parse` cuts the text at the first `#` and then at the first `?`, and neither
occurs before the query. -/
theorem Parse_String_RawQuery (u : URL) (hs : ∀ c ∈ u.Scheme.data, c ≠ '?' ∧ c ≠ '#')
    (ho : ∀ c ∈ u.Opaque.data, c ≠ '?' ∧ c ≠ '#') (r : String) (hr : ∀ c ∈ r.data, c ≠ '#')
    (u2 : URL) (h : url.Parse (URL.String { u with RawQuery := r }) = .ok u2) :
    u2.RawQuery = r := by
  obtain ⟨main, hmain, hT⟩ := String_parts u hs ho
  have hT := hT r
  have hX : ∀ c ∈ main ++ (if u.ForceQuery || r != "" then '?' :: r.data else []), c ≠ '#' := by
    intro c hc
    rcases List.mem_append.mp hc with hc | hc
    · exact (hmain c hc).2
    · split at hc
      · rcases List.mem_cons.mp hc with e | hc
        · subst e; decide
        · exact hr c hc
      · simp at hc
  have hcut : ∃ f b, cut '#' (URL.String { u with RawQuery := r }).data =
      (main ++ (if u.ForceQuery || r != "" then '?' :: r.data else []), f, b) := by
    rw [hT]
    by_cases hf : (u.Fragment != "") = true
    · rw [if_pos hf]
      exact ⟨_, _, cut_append '#' _ _ hX⟩
    · rw [if_neg hf, List.append_nil]
      exact ⟨_, _, cut_none '#' _ hX⟩
  obtain ⟨f, b, hcut⟩ := hcut
  unfold url.Parse at h
  dsimp only at h
  rw [hcut] at h
  dsimp only at h
  split at h
  · cases h
  rename_i url0 hp
  have h0 : u2.RawQuery = url0.RawQuery := by
    split at h
    · cases h; rfl
    · split at h
      · cases h
      · rename_i url1 hfr
        cases h
        exact (setFragment_ok _ _ _ hfr).2.2
  rw [h0]
  rcases (parse_ok _ url0 hp hX).2.2 with ⟨hstar, hq⟩ | ⟨pre, rest0, hpre, hnq, hq⟩
  · rw [hq]
    by_cases hc : (u.ForceQuery || r != "") = true
    · rw [if_pos hc] at hstar
      have : '?' ∈ main ++ '?' :: r.data := by simp
      rw [hstar] at this
      simp at this
    · simp only [Bool.or_eq_true, bne_iff_ne, ne_eq, not_or, not_not] at hc
      exact hc.2.symm
  · rw [hq]
    have h1 := cut_prefix '?' pre rest0 hnq
    rw [← hpre] at h1
    by_cases hc : (u.ForceQuery || r != "") = true
    · rw [if_pos hc, cut_append '?' main r.data (fun x hx => (hmain x hx).1)] at h1
      have : r.data = (cut '?' rest0).2.1 := congrArg (fun t => t.2.1) h1
      rw [← this]
    · rw [if_neg hc, List.append_nil, cut_none '?' main (fun x hx => (hmain x hx).1)] at h1
      have : [] = (cut '?' rest0).2.1 := congrArg (fun t => t.2.1) h1
      rw [← this]
      simp only [Bool.or_eq_true, bne_iff_ne, ne_eq, not_or, not_not] at hc
      rw [hc.2]

/-! ### The claims on `NewRequest` -/

/-- With params supplied and a base URL that parses, `NewRequest` goes on to build the
request for the URL that the params block returns, and fails as that block fails. -/
theorem NewRequest_of_params (ctx : Option Context) (requestUrl : String)
    (options : RequestOptions) (rest : List (Option RequestOptions))
    (params : List (List String)) (hparams : options.Params = some params) :
    NewRequest ctx requestUrl (some options :: rest) =
      match requestUrlWithParams requestUrl params with
      | .panic m => .panic m
      | .error e => .error e
      | .ok requestUrl1 => requestForUrl ctx (withDefaultMethod options) requestUrl1 := by
  have h : (withDefaultMethod options).Params = some params := by
    unfold withDefaultMethod; split <;> simp [hparams]
  simp only [NewRequest, h]

/-- The params block on a base URL that parses: the loop decides. -/
theorem requestUrlWithParams_of_parse (requestUrl : String) (u : URL)
    (params : List (List String)) (hparse : url.Parse requestUrl = .ok u) :
    requestUrlWithParams requestUrl params =
      match paramsLoop u.Query params with
      | .error e => .error e
      | .ok query1 => .ok (URL.String { u with RawQuery := query1.Encode }) := by
  simp only [requestUrlWithParams, hparse, Except.toOption]

/-- The key and the value of a params pair are elements of the pair, or empty. -/
theorem pair_bytes (p : List String) (hp : ∀ s ∈ p, byteString s.data) :
    byteString (pairKey p).data ∧ byteString (pairValue p).data := by
  have hnil : byteString ("" : String).data := fun c hc => by simp at hc
  match p, hp with
  | [], _ => exact ⟨hnil, hnil⟩
  | [k], hp => exact ⟨hp k (List.mem_cons_self _ _), hnil⟩
  | k :: v :: _, hp =>
    exact ⟨hp k (List.mem_cons_self _ _), hp v (List.mem_cons_of_mem _ (List.mem_cons_self _ _))⟩

/-- The text `Values.Encode` writes holds no `#`. -/
theorem Encode_no_hash (q : Values) : ∀ c ∈ (Values.Encode q).data, c ≠ '#' := by
  have hp : ∀ p : String × String, ∀ c ∈ encodePair p, c ≠ '#' := by
    intro p c hc
    unfold encodePair QueryEscape at hc
    rcases List.mem_append.mp hc with hc | hc
    · exact (escape_no_marks .encodeQueryComponent (Or.inr (Or.inr (Or.inr rfl))) _ c hc).2
    · rcases List.mem_cons.mp hc with e | hc
      · subst e; decide
      · exact (escape_no_marks .encodeQueryComponent (Or.inr (Or.inr (Or.inr rfl))) _ c hc).2
  have hj : ∀ pieces : List (List Char), (∀ p ∈ pieces, ∀ c ∈ p, c ≠ '#') →
      ∀ c ∈ List.intercalate ['&'] pieces, c ≠ '#' := by
    intro pieces
    induction pieces with
    | nil => intro _ c hc; simp [List.intercalate] at hc
    | cons a rest ih =>
      intro hpc c hc
      cases rest with
      | nil =>
        simp [List.intercalate] at hc
        exact hpc a (List.mem_cons_self _ _) c hc
      | cons b rest2 =>
        rw [intercalate_cons_cons] at hc
        rcases List.mem_append.mp hc with hc | hc
        · rcases List.mem_append.mp hc with hc | hc
          · exact hpc a (List.mem_cons_self _ _) c hc
          · simp only [List.mem_singleton] at hc
            subst hc; decide
        · exact ih (fun p hp2 => hpc p (List.mem_cons_of_mem _ hp2)) c hc
  rw [Encode_eq]
  refine hj _ ?_
  intro p hp2
  obtain ⟨pr, _, e⟩ := List.mem_map.mp hp2
  subst e
  exact hp pr

/-- When `requestForUrl` returns a request for the URL text `text`, the method is valid, the
context is not nil, the text parses, and the URL of the request is the parsed URL with its
host cleaned of an empty port. -/
theorem requestForUrl_ok (ctx : Option Context) (options : RequestOptions) (text : String)
    (req : Request) (h : requestForUrl ctx options text = .ok req) :
    validMethod (if options.Method = "" then "GET" else options.Method) = true ∧
    ctx.isSome = true ∧
    ∃ u2, url.Parse text = .ok u2 ∧
      req.Request.URL = { u2 with Host := String.mk (removeEmptyPort u2.Host.data) } := by
  unfold requestForUrl at h
  split at h
  · cases h
  · cases h
  · rename_i hreq hn
    cases h
    unfold NewRequestWithContext at hn
    dsimp only at hn
    by_cases hv : (!validMethod (if options.Method = "" then "GET" else options.Method)) = true
    · rw [if_pos hv] at hn; cases hn
    rw [if_neg hv] at hn
    by_cases hc : ctx.isNone = true
    · rw [if_pos hc] at hn; cases hn
    rw [if_neg hc] at hn
    split at hn
    · cases hn
    · rename_i u2 hp
      cases hn
      refine ⟨by simpa using hv, ?_, u2, hp, ?_⟩
      · cases ctx
        · exact absurd rfl hc
        · rfl
      · cases options.Headers <;> rfl

/-- When the method is valid, the context is not nil and the URL text parses,
`requestForUrl` returns a request. -/
theorem requestForUrl_of_parse (ctx : Option Context) (options : RequestOptions)
    (text : String) (u2 : URL) (hm : validMethod (withDefaultMethod options).Method = true)
    (hctx : ctx.isSome = true) (hp : url.Parse text = .ok u2) :
    ∃ req, requestForUrl ctx (withDefaultMethod options) text = .ok req := by
  have hne : (withDefaultMethod options).Method ≠ "" := by
    unfold withDefaultMethod
    split
    · simp
    · assumption
  have hnone : ctx.isNone = false := by
    cases ctx
    · simp at hctx
    · rfl
  unfold requestForUrl NewRequestWithContext
  simp only [hne, if_false, hm, hnone, hp, Bool.not_true, Bool.false_eq_true]
  exact ⟨_, rfl⟩

/-- The method `NewRequest` passes on is never empty. -/
theorem withDefaultMethod_Method (options : RequestOptions) :
    (if (withDefaultMethod options).Method = "" then "GET"
      else (withDefaultMethod options).Method) = (withDefaultMethod options).Method := by
  unfold withDefaultMethod
  split
  · rfl
  · rename_i h
    simp [h]

/-- With params of two-element pairs on a base URL that parses, `NewRequest` returns a
request exactly when the method is valid, the context is not nil and the URL text with the
merged query parses. -/
theorem NewRequest_returns_iff (ctx : Option Context) (requestUrl : String) (u : URL)
    (options : RequestOptions) (rest : List (Option RequestOptions))
    (params : List (List String)) (hparse : url.Parse requestUrl = .ok u)
    (hparams : options.Params = some params) (hlen : ∀ p ∈ params, p.length = 2) :
    (∃ req, NewRequest ctx requestUrl (some options :: rest) = .ok req) ↔
      validMethod (withDefaultMethod options).Method = true ∧ ctx.isSome = true ∧
        ∃ u2, url.Parse
          (URL.String { u with RawQuery := (mergedQuery u.Query params).Encode }) = .ok u2 := by
  rw [NewRequest_of_params ctx requestUrl options rest params hparams,
    requestUrlWithParams_of_parse requestUrl u params hparse,
    paramsLoop_eq_mergedQuery params u.Query hlen]
  constructor
  · rintro ⟨req, h⟩
    obtain ⟨hm, hc, u2, hp, _⟩ := requestForUrl_ok _ _ _ _ h
    rw [withDefaultMethod_Method] at hm
    exact ⟨hm, hc, u2, hp⟩
  · rintro ⟨hm, hc, u2, hp⟩
    exact requestForUrl_of_parse ctx options _ u2 hm hc hp

/-- With params of two-element pairs on a base URL that parses, the URL of the request
`NewRequest` returns has the encoding of the merged query as its raw query. -/
theorem NewRequest_ok_RawQuery (ctx : Option Context) (requestUrl : String) (u : URL)
    (options : RequestOptions) (rest : List (Option RequestOptions))
    (params : List (List String)) (hparse : url.Parse requestUrl = .ok u)
    (hparams : options.Params = some params) (hlen : ∀ p ∈ params, p.length = 2)
    (req : Request) (h : NewRequest ctx requestUrl (some options :: rest) = .ok req) :
    req.Request.URL.RawQuery = (mergedQuery u.Query params).Encode := by
  rw [NewRequest_of_params ctx requestUrl options rest params hparams,
    requestUrlWithParams_of_parse requestUrl u params hparse,
    paramsLoop_eq_mergedQuery params u.Query hlen] at h
  obtain ⟨_, _, u2, hp, hu⟩ := requestForUrl_ok _ _ _ _ h
  rw [hu]
  exact Parse_String_RawQuery u (Parse_no_marks requestUrl u hparse).1
    (Parse_no_marks requestUrl u hparse).2 _ (Encode_no_hash _) u2 hp

/-- C4: for a base URL that parses to `u` and params made only of two-element pairs, the
URL text that `NewRequest` builds and passes on is `u` written out with the encoding of the
merged query as its query; the merged query holds under every key the values of the base
URL's own query followed by the non-blank values the params supply for that key, exactly
as supplied and in list order, so that a pair with a blank value adds nothing and no value
already present is lost; for byte strings, the query read back from the built URL's query
text holds these same values under every key; `NewRequest` returns a request exactly when
the method is valid, the context is not nil and the built URL text parses; and the URL of
every request it returns has the encoding of the merged query as its raw query, whose
`Query()` holds, for byte strings, under every key the values of the base URL's query
followed by the non-blank values of the params. -/
theorem NewRequest_merges_params (ctx : Option Context) (requestUrl : String) (u : URL)
    (options : RequestOptions) (rest : List (Option RequestOptions))
    (params : List (List String)) (hparse : url.Parse requestUrl = .ok u)
    (hparams : options.Params = some params) (hlen : ∀ p ∈ params, p.length = 2) :
    requestUrlWithParams requestUrl params =
      .ok (URL.String { u with RawQuery := (mergedQuery u.Query params).Encode }) ∧
    NewRequest ctx requestUrl (some options :: rest) =
      requestForUrl ctx (withDefaultMethod options)
        (URL.String { u with RawQuery := (mergedQuery u.Query params).Encode }) ∧
    (∀ k : String,
      Values.at (mergedQuery u.Query params) k = Values.at u.Query k ++ addedValues params k) ∧
    (byteString u.RawQuery.data → (∀ p ∈ params, ∀ s ∈ p, byteString s.data) →
      ∀ k : String,
        Values.at (URL.Query { u with RawQuery := (mergedQuery u.Query params).Encode }) k =
          Values.at u.Query k ++ addedValues params k) ∧
    ((∃ req, NewRequest ctx requestUrl (some options :: rest) = .ok req) ↔
      validMethod (withDefaultMethod options).Method = true ∧ ctx.isSome = true ∧
        ∃ u2, url.Parse
          (URL.String { u with RawQuery := (mergedQuery u.Query params).Encode }) = .ok u2) ∧
    (∀ req : Request, NewRequest ctx requestUrl (some options :: rest) = .ok req →
      req.Request.URL.RawQuery = (mergedQuery u.Query params).Encode ∧
      (byteString u.RawQuery.data → (∀ p ∈ params, ∀ s ∈ p, byteString s.data) →
        ∀ k : String,
          Values.at req.Request.URL.Query k = Values.at u.Query k ++ addedValues params k)) := by
  have h1 : requestUrlWithParams requestUrl params =
      .ok (URL.String { u with RawQuery := (mergedQuery u.Query params).Encode }) := by
    rw [requestUrlWithParams_of_parse requestUrl u params hparse,
      paramsLoop_eq_mergedQuery params u.Query hlen]
  have h4 : byteString u.RawQuery.data → (∀ p ∈ params, ∀ s ∈ p, byteString s.data) →
      ∀ k : String,
        Values.at (ParseQuery (mergedQuery u.Query params).Encode).1 k =
          Values.at u.Query k ++ addedValues params k := by
    intro hu hp k
    have hwf : Values.wf (mergedQuery u.Query params) :=
      wf_mergedQuery params u.Query (wf_ParseQuery u.RawQuery hu)
        (fun p hmem => pair_bytes p (hp p hmem))
    rw [ParseQuery_Encode_at _ hwf k]
    exact mergedQuery_at params u.Query k
  refine ⟨h1, ?_, fun k => mergedQuery_at params u.Query k, h4,
    NewRequest_returns_iff ctx requestUrl u options rest params hparse hparams hlen, ?_⟩
  · rw [NewRequest_of_params ctx requestUrl options rest params hparams, h1]
  · intro req hreq
    have hq := NewRequest_ok_RawQuery ctx requestUrl u options rest params hparse hparams hlen
      req hreq
    refine ⟨hq, fun hu hp k => ?_⟩
    have e : req.Request.URL.Query = (ParseQuery (mergedQuery u.Query params).Encode).1 := by
      simp only [URL.Query, hq]
    rw [e]
    exact h4 hu hp k

/-- C4, witness: url "https://example.test/api" with params `[["q"," "],["id","42"]]`
yields a request with the URL "https://example.test/api?id=42", whose raw query is
"id=42" and whose query holds "42" under "id" and nothing under "q". -/
theorem NewRequest_merges_params_witness :
    url.Parse "https://example.test/api" = .ok exampleURL ∧
    builtURL (NewRequest background "https://example.test/api" [some exampleOptions]) =
      some "https://example.test/api?id=42" ∧
    (∀ k : String,
      Values.at (URL.Query { exampleURL with
          RawQuery := (mergedQuery exampleURL.Query [["q", " "], ["id", "42"]]).Encode }) k =
        Values.at exampleURL.Query k ++ addedValues [["q", " "], ["id", "42"]] k) ∧
    addedValues [["q", " "], ["id", "42"]] "id" = ["42"] ∧
    addedValues [["q", " "], ["id", "42"]] "q" = [] ∧
    (∃ req, NewRequest background "https://example.test/api" [some exampleOptions] = .ok req ∧
      req.Request.URL.RawQuery = "id=42" ∧
      Values.at req.Request.URL.Query "id" = ["42"] ∧
      Values.at req.Request.URL.Query "q" = []) := by
  have h := NewRequest_merges_params background "https://example.test/api" exampleURL
    exampleOptions [] [["q", " "], ["id", "42"]] (by decide) rfl (by decide)
  refine ⟨by decide, ?_, h.2.2.2.1 (by decide) (by decide), by decide, by decide, ?_⟩
  · rw [h.2.1]
    decide
  · obtain ⟨req, hreq⟩ := h.2.2.2.2.1.mpr
      ⟨by decide, by decide, { exampleURL with RawQuery := "id=42" }, by decide⟩
    have h6 := h.2.2.2.2.2 req hreq
    exact ⟨req, hreq, h6.1.trans (by decide),
      (h6.2 (by decide) (by decide) "id").trans (by decide),
      (h6.2 (by decide) (by decide) "q").trans (by decide)⟩

/-- When `url.Parse` fails and params are supplied, `NewRequest` panics: `u.Query()` runs
on the nil `*URL` before the error is tested. -/
theorem NewRequest_parse_error_panics (ctx : Option Context) (requestUrl : String)
    (e : URLError) (options : RequestOptions) (rest : List (Option RequestOptions))
    (params : List (List String)) (hparse : url.Parse requestUrl = .error e)
    (hparams : options.Params = some params) :
    NewRequest ctx requestUrl (some options :: rest) =
      .panic "runtime error: invalid memory address or nil pointer dereference" := by
  rw [NewRequest_of_params ctx requestUrl options rest params hparams]
  simp only [requestUrlWithParams, hparse, Except.toOption]

/-- C5, the code at the failing input: `url.Parse` rejects "://x" (missing protocol
scheme), and `NewRequest` with params supplied then panics instead of returning the
error; without params the same URL gives the parse error. -/
theorem NewRequest_unparsable_url_panics :
    url.Parse "://x" = .error ⟨"parse", "://x", .missingScheme⟩ ∧
    NewRequest background "://x" [some exampleOptions] =
      .panic "runtime error: invalid memory address or nil pointer dereference" ∧
    NewRequest background "://x" [] =
      .error (.urlParse ⟨"parse", "://x", .missingScheme⟩) := by
  decide

/-- C6: for a base URL that parses and params that hold, in any position, a pair whose
length is not 2, `NewRequest` returns the invalid-params error and no request. -/
theorem NewRequest_invalid_params (ctx : Option Context) (requestUrl : String) (u : URL)
    (options : RequestOptions) (rest : List (Option RequestOptions))
    (params : List (List String)) (hparse : url.Parse requestUrl = .ok u)
    (hparams : options.Params = some params) (hbad : ∃ p ∈ params, p.length ≠ 2) :
    NewRequest ctx requestUrl (some options :: rest) = .error .invalidParams := by
  rw [NewRequest_of_params ctx requestUrl options rest params hparams,
    requestUrlWithParams_of_parse requestUrl u params hparse,
    paramsLoop_invalid params u.Query hbad]

/-- C6, witness: a one-element pair after a valid pair. -/
theorem NewRequest_invalid_params_witness :
    url.Parse "https://example.test/api" = .ok exampleURL ∧
    (∃ p ∈ [["id", "42"], ["q"]], p.length ≠ 2) ∧
    NewRequest background "https://example.test/api"
      [some { Params := some [["id", "42"], ["q"]] }] = .error .invalidParams :=
  ⟨by decide, by decide,
    NewRequest_invalid_params background "https://example.test/api" exampleURL
      { Params := some [["id", "42"], ["q"]] } [] [["id", "42"], ["q"]]
      (by decide) rfl (by decide)⟩

/-! ## Theorems: `io.ReadAll` and `Response.ReadBody` -/

/-- The weight of the pieces, piece by piece. -/
theorem chunkWeight_cons (c : List Char) (rest : List (List Char)) :
    chunkWeight (c :: rest) = c.length + 1 + chunkWeight rest := by
  simp [chunkWeight]

/-- The loop of `io.ReadAll` on a body returns all the bytes of the body after the bytes
it started with, and the final error of the body unless that is `io.EOF`; the body is used
up. Any growth of the buffer will do, and the rounds suffice. -/
theorem readAllLoop_body (grow : Nat → Nat) (hgrow : ∀ c, c < grow c) :
    ∀ (fuel : Nat) (chunks : List (List Char)) (final : IOErr) (eager : Bool)
      (buf : List Char) (cap : Nat), chunkWeight chunks < fuel → buf.length < cap →
      readAllLoop Body.Read grow fuel ⟨chunks, final, eager⟩ buf cap =
        some ((buf ++ chunks.flatten, eofToNil final), ⟨[], final, eager⟩) := by
  intro fuel
  induction fuel with
  | zero => intro _ _ _ _ _ h _; omega
  | succ fuel ih =>
    intro chunks final eager buf cap hw hcap
    cases chunks with
    | nil => simp [readAllLoop, Body.Read]
    | cons c rest =>
      rw [chunkWeight_cons] at hw
      by_cases hc : c.length ≤ cap - buf.length
      · by_cases he : (rest.isEmpty && eager) = true
        · simp only [Bool.and_eq_true, List.isEmpty_iff] at he
          obtain ⟨hr, hg⟩ := he
          subst hr hg
          simp [readAllLoop, Body.Read, hc]
        · simp only [readAllLoop, Body.Read, hc, he, if_true, if_false]
          have hlen : (buf ++ c).length <
              (if (buf ++ c).length = cap then grow cap else cap) := by
            have h1 := hgrow cap
            have h2 : (buf ++ c).length = buf.length + c.length := List.length_append _ _
            split <;> omega
          rw [ih rest final eager (buf ++ c) _ (by omega) hlen]
          simp
      · simp only [readAllLoop, Body.Read, hc, if_false]
        have hk : (buf ++ c.take (cap - buf.length)).length = cap := by
          simp only [List.length_append, List.length_take]; omega
        have hlen : (buf ++ c.take (cap - buf.length)).length <
            (if (buf ++ c.take (cap - buf.length)).length = cap then grow cap else cap) := by
          have h1 := hgrow cap
          rw [if_pos hk]; omega
        rw [ih (c.drop (cap - buf.length) :: rest) final eager _ _ _ hlen]
        · simp only [List.flatten_cons, List.append_assoc]
          rw [← List.append_assoc (c.take _), List.take_append_drop]
        · rw [chunkWeight_cons]; simp only [List.length_drop]; omega

/-- One `Read` of the limiting reader before any error: at most `n + 1` bytes are asked
of the body. -/
theorem maxBytesReader_Read_none (b : Body) (i : Int) (n k : Nat) (hk : 0 < k) :
    maxBytesReader.Read ⟨b, i, (n : Int), none⟩ k =
      if (b.Read (min k (n + 1))).1.1.length ≤ n then
        (((b.Read (min k (n + 1))).1.1, (b.Read (min k (n + 1))).1.2),
          ⟨(b.Read (min k (n + 1))).2, i, ((n - (b.Read (min k (n + 1))).1.1.length : Nat) : Int),
            (b.Read (min k (n + 1))).1.2⟩)
      else
        ((((b.Read (min k (n + 1))).1.1).take n, some (.MaxBytesError i)),
          ⟨(b.Read (min k (n + 1))).2, i, 0, some (.MaxBytesError i)⟩) := by
  have hk1 : (if (k : Int) - 1 > (n : Int) then ((n : Int) + 1).toNat else k) = min k (n + 1) := by
    split <;> omega
  have hk0 : ¬ k = 0 := by omega
  simp only [maxBytesReader.Read, hk0, if_false, hk1]
  by_cases h : (b.Read (min k (n + 1))).1.1.length ≤ n
  · have h2 : ((b.Read (min k (n + 1))).1.1.length : Int) ≤ (n : Int) := by omega
    simp only [h, h2, if_true]
    congr 2
    omega
  · have h2 : ¬ ((b.Read (min k (n + 1))).1.1.length : Int) ≤ (n : Int) := by omega
    simp only [h, h2, if_false, Int.toNat_ofNat]

/-- One `Read` on a body that still holds a piece. -/
theorem Body_Read_cons (c : List Char) (rest : List (List Char)) (final : IOErr) (eager : Bool)
    (k : Nat) :
    Body.Read ⟨c :: rest, final, eager⟩ k =
      if c.length ≤ k then
        ((c, if rest.isEmpty && eager then some final else none), ⟨rest, final, eager⟩)
      else ((c.take k, none), ⟨c.drop k :: rest, final, eager⟩) := rfl

/-- One round of the loop of `io.ReadAll`. -/
theorem readAllLoop_succ {σ : Type} (read : σ → Nat → (List Char × Option IOErr) × σ)
    (grow : Nat → Nat) (fuel : Nat) (r : σ) (b : List Char) (cap : Nat) :
    readAllLoop read grow (fuel + 1) r b cap =
      match (read r (cap - b.length)).1.2 with
      | some e => some ((b ++ (read r (cap - b.length)).1.1, eofToNil e), (read r (cap - b.length)).2)
      | none => readAllLoop read grow fuel (read r (cap - b.length)).2
          (b ++ (read r (cap - b.length)).1.1)
          (if (b ++ (read r (cap - b.length)).1.1).length = cap then grow cap else cap) := rfl

/-- A `MaxBytesError` is not `io.EOF`. -/
theorem eofToNil_MaxBytesError (i : Int) : eofToNil (.MaxBytesError i) = some (.MaxBytesError i) := rfl

/-- The loop of `io.ReadAll` on the limiting reader with `n` bytes left to read: a body of
at most `n` bytes is returned whole, with its final error unless that is `io.EOF`; of a
longer body the first `n` bytes are returned with a `MaxBytesError` carrying the limit. -/
theorem readAllLoop_limited (grow : Nat → Nat) (hgrow : ∀ c, c < grow c) :
    ∀ (fuel : Nat) (chunks : List (List Char)) (final : IOErr) (eager : Bool) (i : Int)
      (n : Nat) (buf : List Char) (cap : Nat), chunkWeight chunks < fuel → buf.length < cap →
      (chunks.flatten.length ≤ n →
        readAllLoop maxBytesReader.Read grow fuel ⟨⟨chunks, final, eager⟩, i, (n : Int), none⟩
            buf cap =
          some ((buf ++ chunks.flatten, eofToNil final),
            ⟨⟨[], final, eager⟩, i, ((n - chunks.flatten.length : Nat) : Int), some final⟩)) ∧
      (n < chunks.flatten.length →
        ∃ l, readAllLoop maxBytesReader.Read grow fuel
            ⟨⟨chunks, final, eager⟩, i, (n : Int), none⟩ buf cap =
          some ((buf ++ chunks.flatten.take n, some (.MaxBytesError i)), l)) := by
  intro fuel
  induction fuel with
  | zero => intro _ _ _ _ _ _ _ h _; omega
  | succ fuel ih =>
    intro chunks final eager i n buf cap hw hcap
    have hk : 0 < cap - buf.length := by omega
    rw [readAllLoop_succ, maxBytesReader_Read_none _ _ _ _ hk]
    cases chunks with
    | nil =>
      constructor
      · intro _
        simp [Body.Read]
      · intro h; simp at h
    | cons c rest =>
      rw [chunkWeight_cons] at hw
      rw [Body_Read_cons]
      have hflat : (c :: rest).flatten = c ++ rest.flatten := rfl
      rw [hflat, List.length_append]
      by_cases hc : c.length ≤ min (cap - buf.length) (n + 1)
      · simp only [hc, if_true]
        by_cases hn : c.length ≤ n
        · simp only [hn, if_true]
          by_cases he : (rest.isEmpty && eager) = true
          · simp only [Bool.and_eq_true, List.isEmpty_iff] at he
            obtain ⟨hr, hg⟩ := he
            subst hr hg
            constructor
            · intro _; simp
            · intro h; simp at h; omega
          · have he2 : (rest.isEmpty && eager) = false := by simpa using he
            simp only [he2, Bool.false_eq_true, if_false]
            have hlen : (buf ++ c).length <
                (if (buf ++ c).length = cap then grow cap else cap) := by
              have h1 := hgrow cap
              have h2 : (buf ++ c).length = buf.length + c.length := List.length_append _ _
              split <;> omega
            obtain ⟨ih1, ih2⟩ := ih rest final eager i (n - c.length) (buf ++ c) _
              (by omega) hlen
            constructor
            · intro h
              rw [ih1 (by omega)]
              simp only [List.append_assoc]
              congr 4
              omega
            · intro h
              obtain ⟨l, hl⟩ := ih2 (by omega)
              refine ⟨l, ?_⟩
              rw [hl, List.take_append_eq_append_take]
              have : List.take n c = c := List.take_of_length_le hn
              simp [this]
        · simp only [hn, if_false, eofToNil_MaxBytesError]
          constructor
          · intro h; omega
          · intro _
            have e : List.take n (c ++ rest.flatten) = List.take n c :=
              List.take_append_of_le_length (by omega)
            exact ⟨_, by rw [e]⟩
      · simp only [hc, if_false, List.length_take]
        have hlt : min (cap - buf.length) (n + 1) < c.length := by omega
        by_cases hn : min (cap - buf.length) (n + 1) ≤ n
        · have hmin : min (cap - buf.length) (n + 1) = cap - buf.length := by omega
          have hm2 : min (cap - buf.length) c.length = cap - buf.length := by omega
          rw [hmin] at hlt ⊢
          have hn2 : cap - buf.length ≤ n := by omega
          simp only [hm2, hn2, if_true]
          have hk2 : (buf ++ c.take (cap - buf.length)).length = cap := by
            simp only [List.length_append, List.length_take]; omega
          have hlen : (buf ++ c.take (cap - buf.length)).length <
              (if (buf ++ c.take (cap - buf.length)).length = cap then grow cap else cap) := by
            have h1 := hgrow cap
            rw [if_pos hk2]; omega
          obtain ⟨ih1, ih2⟩ := ih (c.drop (cap - buf.length) :: rest) final eager i
            (n - (cap - buf.length)) (buf ++ c.take (cap - buf.length)) _
            (by rw [chunkWeight_cons]; simp only [List.length_drop]; omega) hlen
          have hflat2 : (c.drop (cap - buf.length) :: rest).flatten =
              c.drop (cap - buf.length) ++ rest.flatten := rfl
          rw [hflat2, List.length_append, List.length_drop] at ih1 ih2
          constructor
          · intro h
            rw [ih1 (by omega)]
            simp only [List.append_assoc]
            rw [← List.append_assoc (c.take _), List.take_append_drop]
            congr 4
            omega
          · intro h
            obtain ⟨l, hl⟩ := ih2 (by omega)
            refine ⟨l, ?_⟩
            rw [hl]
            have e1 : n = (cap - buf.length) + (n - (cap - buf.length)) := by omega
            have e2 : List.take n (c ++ rest.flatten) =
                c.take (cap - buf.length) ++
                  List.take (n - (cap - buf.length)) (c.drop (cap - buf.length) ++ rest.flatten) := by
              conv_lhs => rw [e1, List.take_add]
              rw [List.take_append_of_le_length (by omega), List.drop_append_of_le_length (by omega)]
            rw [e2]
            simp only [List.append_assoc]
        · have hmin : min (cap - buf.length) (n + 1) = n + 1 := by omega
          rw [hmin] at hlt ⊢
          have hm2 : min (n + 1) c.length = n + 1 := by omega
          have hn2 : ¬ n + 1 ≤ n := by omega
          simp only [hm2, hn2, if_false, eofToNil_MaxBytesError]
          constructor
          · intro h; omega
          · intro _
            have e : List.take n (c ++ rest.flatten) = List.take n (List.take (n + 1) c) := by
              rw [List.take_append_of_le_length (by omega), List.take_take]
              have : min n (n + 1) = n := by omega
              rw [this]
            exact ⟨_, by rw [e]⟩

/-- The buffer grows. -/
theorem growCap_gt (c : Nat) : c < growCap c := by
  unfold growCap; omega

/-- `io.ReadAll` on a body finishes with all its bytes. -/
theorem ReadAll_eq (b : Body) :
    ReadAll b = some ((b.bytes, eofToNil b.final), b.drained) := by
  obtain ⟨chunks, final, eager⟩ := b
  have h := readAllLoop_body growCap growCap_gt (chunkWeight chunks + 2) chunks final eager
    [] 512 (by omega) (by simp)
  simpa [ReadAll, Body.fuel, Body.bytes, Body.drained] using h

/-- `io.ReadAll` on the limiting reader, for a body within the limit. -/
theorem ReadAllLimited_of_le (b : Body) (N : Int) (hN : 0 < N)
    (hlen : (b.bytes.length : Int) ≤ N) :
    ReadAllLimited (MaxBytesReader b N) =
      some ((b.bytes, eofToNil b.final),
        ⟨b.drained, N, ((N.toNat - b.bytes.length : Nat) : Int), some b.final⟩) := by
  obtain ⟨chunks, final, eager⟩ := b
  have hcast : ((N.toNat : Nat) : Int) = N := Int.toNat_of_nonneg (Int.le_of_lt hN)
  have h := (readAllLoop_limited growCap growCap_gt (chunkWeight chunks + 2) chunks final eager
    N N.toNat [] 512 (by omega) (by simp)).1 (by simp only [Body.bytes] at hlen; omega)
  have hneg : ¬ N < 0 := by omega
  simp only [ReadAllLimited, MaxBytesReader, Body.fuel, hneg, if_false]
  rw [hcast] at h
  simpa [Body.bytes, Body.drained] using h

/-- `io.ReadAll` on the limiting reader, for a body beyond the limit. -/
theorem ReadAllLimited_of_gt (b : Body) (N : Int) (hN : 0 < N)
    (hlen : N < (b.bytes.length : Int)) :
    ∃ l, ReadAllLimited (MaxBytesReader b N) =
      some ((b.bytes.take N.toNat, some (.MaxBytesError N)), l) := by
  obtain ⟨chunks, final, eager⟩ := b
  have hcast : ((N.toNat : Nat) : Int) = N := Int.toNat_of_nonneg (Int.le_of_lt hN)
  obtain ⟨l, h⟩ := (readAllLoop_limited growCap growCap_gt (chunkWeight chunks + 2) chunks
    final eager N N.toNat [] 512 (by omega) (by simp)).2
    (by simp only [Body.bytes] at hlen; omega)
  have hneg : ¬ N < 0 := by omega
  refine ⟨l, ?_⟩
  simp only [ReadAllLimited, MaxBytesReader, Body.fuel, hneg, if_false]
  rw [hcast] at h
  simpa [Body.bytes] using h

/-- `Response.ReadBody` always returns: the rounds given to `io.ReadAll` suffice. -/
theorem ReadBody_isSome (r : Response) (maxBodySize : Int) :
    (r.ReadBody maxBodySize).isSome = true := by
  unfold Response.ReadBody
  by_cases hN : maxBodySize > 0
  · rcases Int.lt_or_le maxBodySize (r.Body.bytes.length : Int) with h | h
    · obtain ⟨l, hl⟩ := ReadAllLimited_of_gt r.Body maxBodySize hN h
      simp [hN, hl]
    · simp [hN, ReadAllLimited_of_le r.Body maxBodySize hN h]
  · simp [hN, ReadAll_eq]

/-- `Response.ReadBody` with a positive limit on a body within the limit. -/
theorem ReadBody_of_le (r : Response) (N : Int) (hN : 0 < N)
    (hlen : (r.Body.bytes.length : Int) ≤ N) :
    r.ReadBody N = some (readBodyResult r.Body.bytes (eofToNil r.Body.final),
      { r with Body := r.Body.drained }) := by
  have hN2 : N > 0 := hN
  simp only [Response.ReadBody, hN2, if_true, ReadAllLimited_of_le r.Body N hN hlen,
    Option.map_some']

/-- `Response.ReadBody` without a limit. -/
theorem ReadBody_of_nonpos (r : Response) (N : Int) (hN : N ≤ 0) :
    r.ReadBody N = some (readBodyResult r.Body.bytes (eofToNil r.Body.final),
      { r with Body := r.Body.drained }) := by
  have hN2 : ¬ N > 0 := by omega
  simp only [Response.ReadBody, hN2, if_false, ReadAll_eq, Option.map_some']

/-- After a read that ended with `io.EOF` the result depends on the buffer alone. -/
theorem readBodyResult_EOF (buffer : List Char) :
    readBodyResult buffer (eofToNil .EOF) =
      if buffer.length = 0 then .error .emptyBody else .ok buffer := rfl

/-- The result of `ReadBody` is a success only with a buffer that is not empty. -/
theorem readBodyResult_ok (buffer : List Char) (err : Option IOErr) (out : List Char)
    (h : readBodyResult buffer err = .ok out) : out ≠ [] := by
  have hb : ∀ b : List Char, bufferResult b = .ok out → out ≠ [] := by
    intro b hb
    unfold bufferResult at hb
    split at hb
    · simp at hb
    · rename_i hlen
      simp only [Except.ok.injEq] at hb
      rw [← hb]
      exact fun h0 => hlen (by rw [h0]; rfl)
  unfold readBodyResult at h
  split at h
  · split at h
    · split at h <;> simp at h
    · exact hb _ h
  · exact hb _ h

/-- C7: for a limit `N > 0` and a body that reads without an I/O error, `ReadBody(N)`
fails with the body-too-large error carrying the limit `N` when the body has more than `N`
bytes, and does not fail with a body-too-large error when it has `N` bytes or fewer. -/
theorem ReadBody_too_large (r : Response) (N : Int) (hN : 0 < N)
    (hfin : r.Body.final = .EOF) :
    (N < (r.Body.bytes.length : Int) →
      ∃ r1, r.ReadBody N = some (.error (.bodyTooLarge N), r1)) ∧
    ((r.Body.bytes.length : Int) ≤ N →
      ∀ (limit : Int) (r1 : Response), r.ReadBody N ≠ some (.error (.bodyTooLarge limit), r1)) := by
  constructor
  · intro hlen
    obtain ⟨l, hl⟩ := ReadAllLimited_of_gt r.Body N hN hlen
    have hN2 : N > 0 := hN
    exact ⟨{ r with Body := l.r }, by
      simp only [Response.ReadBody, hN2, if_true, hl, Option.map_some']
      rfl⟩
  · intro hlen limit r1
    rw [ReadBody_of_le r N hN hlen, hfin, readBodyResult_EOF]
    split <;> simp

/-- C7, witness: the five-byte body is refused at limit 4 and accepted at limit 5. -/
theorem ReadBody_too_large_witness :
    ((0 : Int) < 4 ∧ helloResponse.Body.final = .EOF ∧
      (4 : Int) < (helloResponse.Body.bytes.length : Int) ∧
      ∃ r1, helloResponse.ReadBody 4 = some (.error (.bodyTooLarge 4), r1)) ∧
    ((0 : Int) < 5 ∧ (helloResponse.Body.bytes.length : Int) ≤ 5 ∧
      ∀ (limit : Int) (r1 : Response),
        helloResponse.ReadBody 5 ≠ some (.error (.bodyTooLarge limit), r1)) :=
  ⟨⟨by decide, by decide, by decide,
      (ReadBody_too_large helloResponse 4 (by decide) (by decide)).1 (by decide)⟩,
    ⟨by decide, by decide,
      (ReadBody_too_large helloResponse 5 (by decide) (by decide)).2 (by decide)⟩⟩

/-- C8: for a non-empty body that reads without an I/O error, `ReadBody(N)` with `N > 0`
and at most `N` bytes in the body returns exactly all the bytes of the body and no error,
and `ReadBody(N)` with `N` zero or negative returns exactly all the bytes of the body and
no error whatever the length of the body. -/
theorem ReadBody_returns_body (r : Response) (N : Int) (hfin : r.Body.final = .EOF)
    (hne : r.Body.bytes ≠ []) :
    (0 < N → (r.Body.bytes.length : Int) ≤ N →
      r.ReadBody N = some (.ok r.Body.bytes, { r with Body := r.Body.drained })) ∧
    (N ≤ 0 → r.ReadBody N = some (.ok r.Body.bytes, { r with Body := r.Body.drained })) := by
  have hlen : ¬ r.Body.bytes.length = 0 := fun h => hne (List.length_eq_zero.mp h)
  constructor
  · intro hN hle
    rw [ReadBody_of_le r N hN hle, hfin, readBodyResult_EOF, if_neg hlen]
  · intro hN
    rw [ReadBody_of_nonpos r N hN, hfin, readBodyResult_EOF, if_neg hlen]

/-- C8, witness: the five-byte body is returned whole at limit 5, at limit 0 and at a
negative limit. -/
theorem ReadBody_returns_body_witness :
    helloResponse.Body.final = .EOF ∧ helloResponse.Body.bytes ≠ [] ∧
    helloResponse.ReadBody 5 =
      some (.ok "hello".data, { helloResponse with Body := helloBody.drained }) ∧
    helloResponse.ReadBody 0 =
      some (.ok "hello".data, { helloResponse with Body := helloBody.drained }) ∧
    helloResponse.ReadBody (-1) =
      some (.ok "hello".data, { helloResponse with Body := helloBody.drained }) :=
  ⟨by decide, by decide,
    (ReadBody_returns_body helloResponse 5 (by decide) (by decide)).1 (by decide) (by decide),
    (ReadBody_returns_body helloResponse 0 (by decide) (by decide)).2 (by decide),
    (ReadBody_returns_body helloResponse (-1) (by decide) (by decide)).2 (by decide)⟩

/-- C9: for every `maxBodySize`, `ReadBody` on a body of zero length (that ends normally)
fails with the empty-body error and returns no bytes; and no call of `ReadBody`, on any
response, returns success together with an empty byte slice. -/
theorem ReadBody_empty_body (r : Response) (N : Int) (hfin : r.Body.final = .EOF)
    (hempty : r.Body.bytes = []) :
    r.ReadBody N = some (.error .emptyBody, { r with Body := r.Body.drained }) ∧
    (∀ (r2 : Response) (N2 : Int) (buffer : List Char) (r3 : Response),
      r2.ReadBody N2 = some (.ok buffer, r3) → buffer ≠ []) := by
  constructor
  · rcases Int.lt_or_le 0 N with hN | hN
    · rw [ReadBody_of_le r N hN (by rw [hempty]; simp; omega), hfin, hempty]
      rfl
    · rw [ReadBody_of_nonpos r N hN, hfin, hempty]
      rfl
  · intro r2 N2 buffer r3 h
    unfold Response.ReadBody at h
    split at h
    · simp only [Option.map_eq_some', Prod.mk.injEq] at h
      obtain ⟨res, _, hres, _⟩ := h
      exact readBodyResult_ok _ _ _ hres
    · simp only [Option.map_eq_some', Prod.mk.injEq] at h
      obtain ⟨res, _, hres, _⟩ := h
      exact readBodyResult_ok _ _ _ hres

/-- C9, witness: a body without bytes gives the empty-body error at a positive, a zero and
a negative limit. -/
theorem ReadBody_empty_body_witness :
    emptyResponse.Body.final = .EOF ∧ emptyResponse.Body.bytes = [] ∧
    emptyResponse.ReadBody 10 =
      some (.error .emptyBody, { emptyResponse with Body := emptyResponse.Body.drained }) ∧
    emptyResponse.ReadBody 0 =
      some (.error .emptyBody, { emptyResponse with Body := emptyResponse.Body.drained }) ∧
    emptyResponse.ReadBody (-3) =
      some (.error .emptyBody, { emptyResponse with Body := emptyResponse.Body.drained }) :=
  ⟨by decide, by decide,
    (ReadBody_empty_body emptyResponse 10 (by decide) (by decide)).1,
    (ReadBody_empty_body emptyResponse 0 (by decide) (by decide)).1,
    (ReadBody_empty_body emptyResponse (-3) (by decide) (by decide)).1⟩

/-! ## Theorems: `Response.Text`, repeated reads, `Expires: 0`, `Request.JSON` -/

/-- What a successful `ReadBody` tells: the body ended normally, its bytes were returned,
and it is used up afterwards. -/
theorem ReadBody_ok_inv (r : Response) (N : Int) (b : List Char) (r1 : Response)
    (h : r.ReadBody N = some (.ok b, r1)) :
    r.Body.final = .EOF ∧ b = r.Body.bytes ∧ r1 = { r with Body := r.Body.drained } := by
  have key : ∀ buffer : List Char, readBodyResult buffer (eofToNil r.Body.final) = .ok b →
      r.Body.final = .EOF ∧ b = buffer := by
    intro buffer hb
    by_cases hf : r.Body.final = .EOF
    · rw [hf, readBodyResult_EOF] at hb
      split at hb
      · simp at hb
      · simp only [Except.ok.injEq] at hb
        exact ⟨hf, hb.symm⟩
    · simp only [eofToNil, hf, if_false, readBodyResult, ne_eq, not_false_eq_true, if_true] at hb
      split at hb <;> simp at hb
  rcases Int.lt_or_le 0 N with hN | hN
  · rcases Int.lt_or_le N (r.Body.bytes.length : Int) with hlen | hlen
    · obtain ⟨l, hl⟩ := ReadAllLimited_of_gt r.Body N hN hlen
      have hN2 : N > 0 := hN
      simp only [Response.ReadBody, hN2, if_true, hl, Option.map_some', Option.some.injEq,
        Prod.mk.injEq] at h
      have h1 := h.1
      simp [readBodyResult] at h1
    · rw [ReadBody_of_le r N hN hlen] at h
      simp only [Option.some.injEq, Prod.mk.injEq] at h
      obtain ⟨h1, h2⟩ := key _ h.1
      exact ⟨h1, h2, h.2.symm⟩
  · rw [ReadBody_of_nonpos r N hN] at h
    simp only [Option.some.injEq, Prod.mk.injEq] at h
    obtain ⟨h1, h2⟩ := key _ h.1
    exact ⟨h1, h2, h.2.symm⟩

/-- On a body that is used up and ended normally every `ReadBody` gives the empty-body
error and leaves the response as it is. -/
theorem ReadBody_of_drained (r : Response) (M : Int) (hc : r.Body.chunks = [])
    (hf : r.Body.final = .EOF) : r.ReadBody M = some (.error .emptyBody, r) := by
  have hb : r.Body.bytes = [] := by simp [Body.bytes, hc]
  have hd : ({ r with Body := r.Body.drained } : Response) = r := by
    obtain ⟨s, h, ⟨chunks, final, eager⟩⟩ := r
    have hc2 : chunks = [] := hc
    subst hc2
    rfl
  rcases Int.lt_or_le 0 M with hM | hM
  · rw [ReadBody_of_le r M hM (by rw [hb]; simp; omega), hf, hb, hd]
    rfl
  · rw [ReadBody_of_nonpos r M hM, hf, hb, hd]
    rfl

/-- C14: after a successful `ReadBody` the body is used up, and every later `ReadBody` on
the response, with any `maxBodySize`, fails with the empty-body error, returns no bytes and
leaves the response in the same state, so that the reads after it fail likewise. -/
theorem ReadBody_after_full_read (r : Response) (N : Int) (b : List Char) (r1 : Response)
    (h : r.ReadBody N = some (.ok b, r1)) :
    r1.Body.bytes = [] ∧ ∀ M : Int, r1.ReadBody M = some (.error .emptyBody, r1) := by
  obtain ⟨hf, _, hr1⟩ := ReadBody_ok_inv r N b r1 h
  have hc : r1.Body.chunks = [] := by rw [hr1]; rfl
  have hf1 : r1.Body.final = .EOF := by rw [hr1]; exact hf
  exact ⟨by simp [Body.bytes, hc], fun M => ReadBody_of_drained r1 M hc hf1⟩

/-- C14, witness: the five-byte body read with limit 5, then read again with limits 5, 0
and -1. -/
theorem ReadBody_after_full_read_witness :
    helloResponse.ReadBody 5 =
      some (.ok "hello".data, { helloResponse with Body := helloBody.drained }) ∧
    ∀ M : Int, ({ helloResponse with Body := helloBody.drained } : Response).ReadBody M =
      some (.error .emptyBody, { helloResponse with Body := helloBody.drained }) :=
  ⟨by decide,
    (ReadBody_after_full_read helloResponse 5 "hello".data
      { helloResponse with Body := helloBody.drained } (by decide)).2⟩

/-- C11: `Response.Text()` agrees with `Response.ReadBody(0)`: when `ReadBody(0)` returns
bytes, `Text` returns the string made of those bytes and no error; when `ReadBody(0)`
fails, `Text` returns the empty string with that same error; `Text` always returns; and on
a zero-length body `Text` fails with the empty-body error instead of returning "". -/
theorem Text_agrees_with_ReadBody (r : Response) :
    (∀ (b : List Char) (r1 : Response), r.ReadBody 0 = some (.ok b, r1) →
      r.Text = some ((String.mk b, none), r1)) ∧
    (∀ (err : Error) (r1 : Response), r.ReadBody 0 = some (.error err, r1) →
      r.Text = some (("", some err), r1)) ∧
    (r.Text).isSome = true ∧
    (r.Body.bytes = [] → r.Body.final = .EOF →
      r.Text = some (("", some .emptyBody), { r with Body := r.Body.drained })) := by
  refine ⟨?_, ?_, ?_, ?_⟩
  · intro b r1 h
    simp [Response.Text, h]
  · intro err r1 h
    simp [Response.Text, h]
  · simp [Response.Text, ReadBody_of_nonpos r 0 (Int.le_refl 0)]
  · intro hb hf
    simp only [Response.Text, ReadBody_of_nonpos r 0 (Int.le_refl 0), hf, hb, Option.map_some']
    rfl

/-- C11, witness: `Text` on the five-byte body gives "hello", and on a body without bytes
the empty-body error. -/
theorem Text_agrees_with_ReadBody_witness :
    helloResponse.ReadBody 0 =
      some (.ok "hello".data, { helloResponse with Body := helloBody.drained }) ∧
    helloResponse.Text =
      some (("hello", none), { helloResponse with Body := helloBody.drained }) ∧
    emptyResponse.ReadBody 0 =
      some (.error .emptyBody, { emptyResponse with Body := emptyResponse.Body.drained }) ∧
    emptyResponse.Text =
      some (("", some .emptyBody), { emptyResponse with Body := emptyResponse.Body.drained }) :=
  ⟨by decide,
    (Text_agrees_with_ReadBody helloResponse).1 "hello".data _ (by decide),
    by decide,
    (Text_agrees_with_ReadBody emptyResponse).2.1 .emptyBody _ (by decide)⟩

/-- C15: for a response that carries `Expires: 0` and whose status code is not 304,
`IsModified` returns true for every pair of prior values, also when the literal ETag or
Last-Modified header equals the value the caller supplies. -/
theorem IsModified_of_expires_zero (r : Response) (lastETag lastModified : String)
    (hexp : r.Header.Get "Expires" = "0") (hs : r.StatusCode ≠ 304) :
    r.IsModified lastETag lastModified = true := by
  simp [Response.IsModified, Response.ETag, Response.LastModified, StatusNotModified, hexp, hs]

/-- C15, witness: the headers `ETag: abc` and `Last-Modified: Mon` next to `Expires: 0`,
compared with exactly "abc" and "Mon". -/
theorem IsModified_of_expires_zero_witness :
    expiredResponse.Header.Get "Expires" = "0" ∧ expiredResponse.StatusCode ≠ 304 ∧
    expiredResponse.Header.Get "ETag" = "abc" ∧
    expiredResponse.Header.Get "Last-Modified" = "Mon" ∧
    expiredResponse.IsModified "abc" "Mon" = true :=
  ⟨by decide, by decide, by decide, by decide,
    IsModified_of_expires_zero expiredResponse "abc" "Mon" (by decide) (by decide)⟩

/-- After `Header.Set` the header read by `Header.Get` is the value that was set. -/
theorem Header_Get_Set (h : Header) (key value : String) :
    Header.Get (Header.Set h key value) key = value := by
  simp [Header.Get, Header.Set, List.lookup]

/-- The reader over serialized bytes holds exactly these bytes and ends normally. -/
theorem bytesReader_bytes (data : List Char) :
    (bytesReader data).bytes = data ∧ (bytesReader data).final = .EOF := by
  cases data with
  | nil => exact ⟨rfl, rfl⟩
  | cons c cs => exact ⟨by simp [bytesReader, Body.bytes], rfl⟩

/-- C17: when the payload cannot be serialized, `Request.JSON` returns the serialization
error and leaves the body that was attached before in place, but the Content-Type header
is already set to "application/json; charset=UTF-8" (nothing else of the request has
changed); when the payload can be serialized, it sets that header, makes the body a reader
over exactly the serialized bytes and returns no error. -/
theorem JSON_sets_header_first {α ε : Type} (Marshal : α → Except ε (List Char))
    (r : Request) (payload : α) :
    (∀ err : ε, Marshal payload = .error err →
      (Request.JSON Marshal r payload).1 = some err ∧
      (Request.JSON Marshal r payload).2.Request.Body = r.Request.Body ∧
      (Request.JSON Marshal r payload).2.Request.Header.Get "Content-Type" =
        "application/json; charset=UTF-8" ∧
      (Request.JSON Marshal r payload).2 =
        { r with Request := { r.Request with
            Header := Header.Set r.Request.Header "Content-Type"
              "application/json; charset=UTF-8" } }) ∧
    (∀ body : List Char, Marshal payload = .ok body →
      (Request.JSON Marshal r payload).1 = none ∧
      (Request.JSON Marshal r payload).2.Request.Header.Get "Content-Type" =
        "application/json; charset=UTF-8" ∧
      (Request.JSON Marshal r payload).2.Request.Body = some (bytesReader body) ∧
      (bytesReader body).bytes = body ∧ (bytesReader body).final = .EOF) := by
  constructor
  · intro err h
    simp only [Request.JSON, h, jsonContentType]
    exact ⟨trivial, trivial, Header_Get_Set _ _ _, trivial⟩
  · intro body h
    simp only [Request.JSON, h, jsonContentType]
    exact ⟨trivial, Header_Get_Set _ _ _, trivial, bytesReader_bytes body⟩

/-- C17, witness: on the sample request a channel leaves the body "old" in place with the
header set, a flag replaces the body by "true". -/
theorem JSON_sets_header_first_witness :
    sampleRequest.Request.Header.Get "Content-Type" = "" ∧
    ((Request.JSON sampleMarshal sampleRequest .channel).1 =
        some "json: unsupported type: chan int" ∧
      (Request.JSON sampleMarshal sampleRequest .channel).2.Request.Body =
        some (bytesReader "old".data) ∧
      (Request.JSON sampleMarshal sampleRequest .channel).2.Request.Header.Get "Content-Type" =
        "application/json; charset=UTF-8") ∧
    ((Request.JSON sampleMarshal sampleRequest (.flag true)).1 = none ∧
      (Request.JSON sampleMarshal sampleRequest (.flag true)).2.Request.Body =
        some (bytesReader "true".data)) := by
  have h1 := (JSON_sets_header_first sampleMarshal sampleRequest .channel).1
    "json: unsupported type: chan int" rfl
  have h2 := (JSON_sets_header_first sampleMarshal sampleRequest (.flag true)).2
    "true".data rfl
  exact ⟨by decide, ⟨h1.1, h1.2.1, h1.2.2.1⟩, ⟨h2.1, h2.2.2.1⟩⟩

/-! ## Theorems: the order of the encoded query -/

/-- The byte order is transitive on "not after". -/
theorem strLt_false_trans : ∀ (a b c : List Char),
    strLt b a = false → strLt c b = false → strLt c a = false := by
  intro a
  induction a with
  | nil => intro b c _ _; cases c <;> rfl
  | cons x as ih =>
    intro b c h1 h2
    cases b with
    | nil => simp [strLt] at h1
    | cons y bs =>
      cases c with
      | nil => simp [strLt] at h2
      | cons z cs =>
        simp only [strLt, Bool.or_eq_false_iff, Bool.and_eq_false_iff, decide_eq_false_iff_not,
          Nat.not_lt] at h1 h2 ⊢
        refine ⟨by omega, ?_⟩
        by_cases hzx : z.toNat = x.toNat
        · right
          have hyx : y.toNat = x.toNat := by omega
          have hzy : z.toNat = y.toNat := by omega
          have e1 : strLt bs as = false := by
            rcases h1.2 with h | h
            · exact absurd hyx h
            · exact h
          have e2 : strLt cs bs = false := by
            rcases h2.2 with h | h
            · exact absurd hzy h
            · exact h
          exact ih bs cs e1 e2
        · left; exact hzx

/-- Of two strings one is not after the other. -/
theorem strLt_false_total : ∀ (a b : List Char), strLt b a = false ∨ strLt a b = false := by
  intro a
  induction a with
  | nil => intro b; left; cases b <;> rfl
  | cons x as ih =>
    intro b
    cases b with
    | nil => right; rfl
    | cons y bs =>
      simp only [strLt, Bool.or_eq_false_iff, Bool.and_eq_false_iff, decide_eq_false_iff_not,
        Nat.not_lt]
      rcases Nat.lt_trichotomy x.toNat y.toNat with h | h | h
      · left; exact ⟨by omega, Or.inl (by omega)⟩
      · rcases ih bs with h2 | h2
        · left; exact ⟨by omega, Or.inr h2⟩
        · right; exact ⟨by omega, Or.inr h2⟩
      · right; exact ⟨by omega, Or.inl (by omega)⟩

/-- The order of the keys is transitive. -/
theorem strLe_trans (a b c : String) (h1 : strLe a b) (h2 : strLe b c) : strLe a c :=
  strLt_false_trans a.data b.data c.data h1 h2

/-- The order of the keys is total. -/
theorem strLe_total (a b : String) : strLe a b ∨ strLe b a :=
  strLt_false_total a.data b.data

/-- The keys `Values.Encode` goes through are in ascending order. -/
theorem sortedKeys_sorted (keys : List String) :
    List.Sorted strLe (keys.insertionSort strLe) :=
  @List.sorted_insertionSort String strLe _ ⟨strLe_total⟩ ⟨strLe_trans⟩ keys

/-- A string is not after itself. -/
theorem strLe_refl (a : String) : strLe a a := by
  rcases strLt_false_total a.data a.data with h | h <;> exact h

/-- `Values.Encode` writes its pairs with the keys in ascending order. -/
theorem encodedPairs_sorted (q : Values) :
    List.Pairwise (fun p1 p2 : String × String => strLe p1.1 p2.1) (encodedPairs q) := by
  have hs : List.Sorted strLe ((q.map Prod.fst).insertionSort strLe) :=
    sortedKeys_sorted _
  unfold encodedPairs
  generalize (q.map Prod.fst).insertionSort strLe = keys at hs
  induction keys with
  | nil => simp
  | cons k ks ih =>
    have hk := List.sorted_cons.mp hs
    simp only [List.flatMap_cons]
    rw [List.pairwise_append]
    refine ⟨?_, ih hk.2, ?_⟩
    · rw [List.pairwise_map]
      exact List.pairwise_of_forall (fun _ _ => strLe_refl k)
    · intro p1 hp1 p2 hp2
      simp only [List.mem_map] at hp1
      obtain ⟨x, _, e1⟩ := hp1
      simp only [List.mem_flatMap, List.mem_map] at hp2
      obtain ⟨k2, hk2, y, _, e2⟩ := hp2
      subst e1 e2
      exact hk.1 k2 hk2

/-- `Values.Add` keeps every key once. -/
theorem Values.nodup_Add (q : Values) (k v : String) (hq : (q.map Prod.fst).Nodup) :
    ((Values.Add q k v).map Prod.fst).Nodup := by
  rw [Values.keys_Add]
  split
  · exact hq
  · rename_i h
    exact List.Nodup.append hq (List.nodup_singleton k) (by
      intro x hx hx2
      simp only [List.mem_singleton] at hx2
      subst hx2
      exact h hx)

/-- `ParseQuery` holds every key once. -/
theorem nodup_ParseQuery (s : String) : (((ParseQuery s).1).map Prod.fst).Nodup := by
  unfold ParseQuery
  have step : ∀ (st : Values × Option URLErr) (piece : List Char),
      (st.1.map Prod.fst).Nodup → ((parseQueryStep st piece).1.map Prod.fst).Nodup := by
    intro st piece hst
    unfold parseQueryStep
    split
    · exact hst
    · split
      · exact hst
      · cases unescape .encodeQueryComponent (cut '=' piece).1 with
        | error e => exact hst
        | ok k =>
          cases unescape .encodeQueryComponent (cut '=' piece).2.1 with
          | error e => exact hst
          | ok v => exact Values.nodup_Add _ _ _ hst
  have key : ∀ (pieces : List (List Char)) (st : Values × Option URLErr),
      (st.1.map Prod.fst).Nodup → ((pieces.foldl parseQueryStep st).1.map Prod.fst).Nodup := by
    intro pieces
    induction pieces with
    | nil => intro st h; exact h
    | cons p ps ih => intro st hst; exact ih _ (step st p hst)
  exact key _ _ (by simp)

/-- The merged query holds every key once. -/
theorem nodup_mergedQuery (params : List (List String)) :
    ∀ (base : Values), (base.map Prod.fst).Nodup →
      ((mergedQuery base params).map Prod.fst).Nodup := by
  induction params with
  | nil => intro base h; simpa [mergedQuery] using h
  | cons p ps ih =>
    intro base hbase
    by_cases hb : isBlank (pairValue p) = true
    · rw [mergedQuery_cons_blank _ _ _ hb]; exact ih base hbase
    · have hb2 : isBlank (pairValue p) = false := by simpa using hb
      rw [mergedQuery_cons_add _ _ _ hb2]
      exact ih _ (Values.nodup_Add _ _ _ hbase)

/-- Of the pairs `Values.Encode` writes, those of one key carry the values of that key in
the order the query holds them. -/
theorem encodedPairs_values (q : Values) (hq : (q.map Prod.fst).Nodup) (k : String) :
    ((encodedPairs q).filter fun p => p.1 = k).map Prod.snd = Values.at q k := by
  simp only [encodedPairs]
  rw [filter_flatMap_pairs, filter_eq_of_nodup _ _
    ((List.perm_insertionSort strLe _).nodup_iff.mpr hq)]
  by_cases hk : k ∈ q.map Prod.fst
  · have hk2 : k ∈ (q.map Prod.fst).insertionSort strLe :=
      (List.perm_insertionSort strLe _).mem_iff.mpr hk
    simp [hk2]
  · have hk2 : k ∉ (q.map Prod.fst).insertionSort strLe :=
      fun h => hk ((List.perm_insertionSort strLe _).mem_iff.mp h)
    rw [at_of_not_mem q k hk]
    simp [hk2]

/-- Escaping never shortens a text. -/
theorem length_le_escape (mode : encoding) (s : List Char) :
    s.length ≤ (escape mode s).length := by
  induction s with
  | nil => simp [escape]
  | cons c cs ih =>
    rw [escape]
    split
    · simp only [List.length_cons]; omega
    · split <;> simp only [List.length_cons] <;> omega

/-- A text is its own escaped form exactly when none of its bytes needs an escape. -/
theorem escape_eq_self_iff (s : List Char) :
    escape .encodeQueryComponent s = s ↔
      ∀ c ∈ s, shouldEscape c .encodeQueryComponent = false := by
  induction s with
  | nil => simp [escape]
  | cons c cs ih =>
    have hsp : shouldEscape ' ' .encodeQueryComponent = true := by decide
    rw [escape]
    by_cases h1 : c = ' '
    · subst h1
      simp only [decide_True, Bool.and_self, if_true, List.cons.injEq, List.mem_cons,
        forall_eq_or_imp, hsp]
      constructor
      · intro h; exact absurd h.1 (by decide)
      · intro h; exact absurd h.1 (by decide)
    · by_cases h2 : shouldEscape c .encodeQueryComponent = true
      · simp only [h1, decide_False, Bool.false_and, Bool.false_eq_true, if_false, h2, if_true,
          List.mem_cons, forall_eq_or_imp]
        constructor
        · intro h
          have hl := congrArg List.length h
          have := length_le_escape .encodeQueryComponent cs
          simp only [List.length_cons] at hl
          omega
        · intro h; simp [h2] at h
      · have h3 : shouldEscape c .encodeQueryComponent = false := by simpa using h2
        simp only [h1, decide_False, Bool.false_and, Bool.false_eq_true, if_false, h2,
          List.cons.injEq, true_and, List.mem_cons, forall_eq_or_imp, h3]
        exact ih

/-- A key and a value are written unchanged exactly when none of their bytes needs an
escape. -/
theorem encodePair_literal_iff (p : String × String) :
    encodePair p = p.1.data ++ '=' :: p.2.data ↔
      ∀ c ∈ p.1.data ++ p.2.data, shouldEscape c .encodeQueryComponent = false := by
  have hk := length_le_escape .encodeQueryComponent p.1.data
  have hv := length_le_escape .encodeQueryComponent p.2.data
  constructor
  · intro h
    simp only [encodePair, QueryEscape] at h
    have hl := congrArg List.length h
    simp only [List.length_append, List.length_cons] at hl
    have hlen : (escape .encodeQueryComponent p.1.data).length = p.1.data.length := by omega
    have h2 := List.append_inj h hlen
    have h3 : escape .encodeQueryComponent p.2.data = p.2.data := by
      have := h2.2
      simp only [List.cons.injEq, true_and] at this
      exact this
    intro c hc
    rcases List.mem_append.mp hc with hc | hc
    · exact (escape_eq_self_iff _).mp h2.1 c hc
    · exact (escape_eq_self_iff _).mp h3 c hc
  · intro h
    have h1 := (escape_eq_self_iff p.1.data).mpr (fun c hc => h c (List.mem_append_left _ hc))
    have h2 := (escape_eq_self_iff p.2.data).mpr (fun c hc => h c (List.mem_append_right _ hc))
    simp only [encodePair, QueryEscape, h1, h2]

/-- C16: for a base URL that parses to `u` and params made only of two-element pairs, the
URL text that `NewRequest` builds has as its query the pairs of the merged query joined by
`&`, each written as escaped key, `=`, escaped value; the pairs come with their keys in
ascending byte order, whatever the order of the params and of the base query; the pairs of
one key carry the values of the base URL first and then the non-blank values of the
params in list order; a pair is written literally as `k=v` exactly when no byte of `k`
and `v` needs an escape; `NewRequest` returns a request exactly when the method is valid,
the context is not nil and the built URL text parses; and the URL of every request it
returns has exactly this text of joined pairs as its raw query. -/
theorem NewRequest_query_order (ctx : Option Context) (requestUrl : String) (u : URL)
    (options : RequestOptions) (rest : List (Option RequestOptions))
    (params : List (List String)) (hparse : url.Parse requestUrl = .ok u)
    (hparams : options.Params = some params) (hlen : ∀ p ∈ params, p.length = 2) :
    NewRequest ctx requestUrl (some options :: rest) =
      requestForUrl ctx (withDefaultMethod options)
        (URL.String { u with RawQuery := (mergedQuery u.Query params).Encode }) ∧
    (mergedQuery u.Query params).Encode =
      String.mk (List.intercalate ['&']
        ((encodedPairs (mergedQuery u.Query params)).map encodePair)) ∧
    List.Pairwise (fun p1 p2 : String × String => strLe p1.1 p2.1)
      (encodedPairs (mergedQuery u.Query params)) ∧
    (∀ k : String,
      ((encodedPairs (mergedQuery u.Query params)).filter fun p => p.1 = k).map Prod.snd =
        Values.at u.Query k ++ addedValues params k) ∧
    (∀ p : String × String,
      encodePair p = p.1.data ++ '=' :: p.2.data ↔
        ∀ c ∈ p.1.data ++ p.2.data, shouldEscape c .encodeQueryComponent = false) ∧
    ((∃ req, NewRequest ctx requestUrl (some options :: rest) = .ok req) ↔
      validMethod (withDefaultMethod options).Method = true ∧ ctx.isSome = true ∧
        ∃ u2, url.Parse
          (URL.String { u with RawQuery := (mergedQuery u.Query params).Encode }) = .ok u2) ∧
    (∀ req : Request, NewRequest ctx requestUrl (some options :: rest) = .ok req →
      req.Request.URL.RawQuery =
        String.mk (List.intercalate ['&']
          ((encodedPairs (mergedQuery u.Query params)).map encodePair))) := by
  refine ⟨?_, Encode_eq _, encodedPairs_sorted _, ?_, encodePair_literal_iff,
    NewRequest_returns_iff ctx requestUrl u options rest params hparse hparams hlen, ?_⟩
  · rw [NewRequest_of_params ctx requestUrl options rest params hparams,
      requestUrlWithParams_of_parse requestUrl u params hparse,
      paramsLoop_eq_mergedQuery params u.Query hlen]
  · intro k
    rw [encodedPairs_values _ (nodup_mergedQuery params u.Query (nodup_ParseQuery u.RawQuery)) k]
    exact mergedQuery_at params u.Query k
  · intro req hreq
    rw [NewRequest_ok_RawQuery ctx requestUrl u options rest params hparse hparams hlen req hreq]
    exact Encode_eq _

/-- C16, witness: url "https://example.test/api?z=1&b=0" with params
`[["b","2"],["a b","x&y"],["b","1"]]` yields a request whose URL has the raw query
`a+b=x%26y&b=0&b=2&b=1&z=1`: the keys in ascending order, the values of "b" in order of
arrival, key and value escaped. -/
theorem NewRequest_query_order_witness :
    url.Parse "https://example.test/api?z=1&b=0" = .ok orderURL ∧
    builtURL (NewRequest background "https://example.test/api?z=1&b=0" [some orderOptions]) =
      some "https://example.test/api?a+b=x%26y&b=0&b=2&b=1&z=1" ∧
    encodedPairs (mergedQuery orderURL.Query orderParams) =
      [("a b", "x&y"), ("b", "0"), ("b", "2"), ("b", "1"), ("z", "1")] ∧
    List.Pairwise (fun p1 p2 : String × String => strLe p1.1 p2.1)
      (encodedPairs (mergedQuery orderURL.Query orderParams)) ∧
    ((encodedPairs (mergedQuery orderURL.Query orderParams)).filter fun p => p.1 = "b").map
        Prod.snd = Values.at orderURL.Query "b" ++ addedValues orderParams "b" ∧
    (∃ req, NewRequest background "https://example.test/api?z=1&b=0" [some orderOptions] =
        .ok req ∧
      req.Request.URL.RawQuery = "a+b=x%26y&b=0&b=2&b=1&z=1") := by
  have h := NewRequest_query_order background "https://example.test/api?z=1&b=0" orderURL
    orderOptions [] orderParams (by decide) rfl (by decide)
  refine ⟨by decide, ?_, by decide, h.2.2.1, h.2.2.2.1 "b", ?_⟩
  · rw [h.1]
    decide
  · obtain ⟨req, hreq⟩ := h.2.2.2.2.2.1.mpr
      ⟨by decide, by decide,
        { orderURL with RawQuery := "a+b=x%26y&b=0&b=2&b=1&z=1" }, by decide⟩
    exact ⟨req, hreq, (h.2.2.2.2.2.2 req hreq).trans (by decide)⟩

end fetch

/-! # Theorems: packages `cli` and `e` -/

namespace cli

/-- What the usage shows of a table: the names and the descriptions, not the handlers. -/
theorem usageText_eq_of_names {σ ε : Type} (c c2 : Commands σ ε)
    (h : c2.map (fun entry => (entry.1, entry.2.Description)) =
      c.map (fun entry => (entry.1, entry.2.Description))) :
    usageText c2 = usageText c := by
  have e : ∀ t : Commands σ ε,
      t.map (fun entry => "\t" ++ entry.1 ++ "\t\t\t" ++ entry.2.Description ++ "\n") =
        (t.map (fun entry => (entry.1, entry.2.Description))).map
          (fun nd => "\t" ++ nd.1 ++ "\t\t\t" ++ nd.2 ++ "\n") := by
    intro t; simp [List.map_map, Function.comp_def]
  simp only [usageText, e, h]

/-- A name is no key of a table exactly when it is none of the names the table lists. -/
theorem lookup_none_of_names {σ ε : Type} (c c2 : Commands σ ε) (name : String)
    (h : c2.map (fun entry => (entry.1, entry.2.Description)) =
      c.map (fun entry => (entry.1, entry.2.Description)))
    (hc : c.lookup name = none) : c2.lookup name = none := by
  have hk : c2.map Prod.fst = c.map Prod.fst := by
    have := congrArg (List.map Prod.fst) h
    simpa [List.map_map, Function.comp_def] using this
  rw [List.lookup_eq_none_iff] at hc ⊢
  intro p hp
  have hp1 : p.1 ∈ c2.map Prod.fst := List.mem_map_of_mem Prod.fst hp
  rw [hk, List.mem_map] at hp1
  obtain ⟨p0, hp0, e0⟩ := hp1
  rw [← e0]
  exact hc p0 hp0

/-- C12: when `args` is empty or `args[0]` is no key of the table, `Commands.Parse` returns
nil, prints the usage and invokes no handler: the state of the program is unchanged and the
result is the same for every table with these names and descriptions, whatever its
handlers; otherwise, when the `Handle` registered under `args[0]` is not nil, it invokes
that handler with `args[1:]` and returns its result unchanged, with the state that handler
leaves; and when that `Handle` is nil the call panics, with nothing printed and the state
unchanged. -/
theorem Parse_dispatches {σ ε : Type} (c : Commands σ ε) (args : List String) (w : σ) :
    (args = [] → Commands.Parse c args w = ⟨.returned none, usageText c, w⟩) ∧
    (∀ (name : String) (rest : List String), args = name :: rest → c.lookup name = none →
      Commands.Parse c args w = ⟨.returned none, usageText c, w⟩) ∧
    (∀ c2 : Commands σ ε,
      c2.map (fun entry => (entry.1, entry.2.Description)) =
        c.map (fun entry => (entry.1, entry.2.Description)) →
      (args = [] ∨ ∃ name rest, args = name :: rest ∧ c.lookup name = none) →
      Commands.Parse c2 args w = Commands.Parse c args w) ∧
    (∀ (name : String) (rest : List String) (command : Command σ ε)
        (handle : List String → σ → Option ε × σ),
      args = name :: rest → c.lookup name = some command → command.Handle = some handle →
      Commands.Parse c args w = ⟨.returned (handle rest w).1, [], (handle rest w).2⟩) ∧
    (∀ (name : String) (rest : List String) (command : Command σ ε),
      args = name :: rest → c.lookup name = some command → command.Handle = none →
      Commands.Parse c args w =
        ⟨.panicked "runtime error: invalid memory address or nil pointer dereference", [], w⟩) := by
  refine ⟨?_, ?_, ?_, ?_, ?_⟩
  · intro h; subst h; rfl
  · intro name rest h hl; subst h
    simp only [Commands.Parse, hl, Commands.Usage]
  · intro c2 hn h
    rcases h with h | ⟨name, rest, h, hl⟩
    · subst h
      simp only [Commands.Parse, Commands.Usage, usageText_eq_of_names c c2 hn]
    · subst h
      simp only [Commands.Parse, hl, lookup_none_of_names c c2 name hn hl, Commands.Usage,
        usageText_eq_of_names c c2 hn]
  · intro name rest command handle h hl hh; subst h
    simp only [Commands.Parse, hl, hh]
  · intro name rest command h hl hh; subst h
    simp only [Commands.Parse, hl, hh]

/-- C12, witness: on the sample table "count a b" runs the counting handler on `["a", "b"]`
from state 5, "count" alone returns the error of the handler, and an unknown name and the
empty list print the usage and leave the state at 5; on the table whose "broken" has a nil
`Handle`, "broken" panics. -/
theorem Parse_dispatches_witness :
    Commands.Parse sampleCommands ["count", "a", "b"] 5 = ⟨.returned none, [], 7⟩ ∧
    Commands.Parse sampleCommands ["count"] 5 = ⟨.returned (some "no arguments"), [], 5⟩ ∧
    Commands.Parse sampleCommands ["nope", "a"] 5 =
      ⟨.returned none, usageText sampleCommands, 5⟩ ∧
    Commands.Parse sampleCommands [] 5 = ⟨.returned none, usageText sampleCommands, 5⟩ ∧
    Commands.Parse brokenCommands ["broken"] 5 =
      ⟨.panicked "runtime error: invalid memory address or nil pointer dereference", [], 5⟩ :=
  ⟨(Parse_dispatches sampleCommands ["count", "a", "b"] 5).2.2.2.1 "count" ["a", "b"]
      { Description := "count the arguments", Handle := some countHandler } countHandler
      rfl rfl rfl,
    (Parse_dispatches sampleCommands ["count"] 5).2.2.2.1 "count" []
      { Description := "count the arguments", Handle := some countHandler } countHandler
      rfl rfl rfl,
    (Parse_dispatches sampleCommands ["nope", "a"] 5).2.1 "nope" ["a"] rfl rfl,
    (Parse_dispatches sampleCommands [] 5).1 rfl,
    (Parse_dispatches brokenCommands ["broken"] 5).2.2.2.2 "broken" []
      { Description := "no handler", Handle := none } rfl rfl rfl⟩

/-- C12, counterexample to the claim as stated: "broken" is a key of the table, its
`Handle` is the nil function, and `Parse` neither invokes a handler nor returns a result:
the call `command.Handle(args[1:])` (cli.go, line 22) panics. -/
theorem Parse_nil_handler_panics :
    (brokenCommands.lookup "broken").map (fun command => command.Handle.isSome) = some false ∧
    Commands.Parse brokenCommands ["broken", "a"] 5 =
      ⟨.panicked "runtime error: invalid memory address or nil pointer dereference", [], 5⟩ ∧
    ∀ err : Option String,
      (Commands.Parse brokenCommands ["broken", "a"] 5).outcome ≠ .returned err := by
  refine ⟨rfl, rfl, ?_⟩
  intro err h
  cases h

end cli

namespace e

/-- C13: a private error renders as exactly `Message [Code]`, whatever its File, Line and
Cause are, so that two private errors that differ only in these render alike; a public
error renders as `text [File:Line]` where the text is the message when there is no cause
and what the cause's `Error()` returns when there is one. -/
theorem Error_rendering (code message file : String) (line : Int) (cause : GoError) :
    Error.Error ⟨false, code, message, cause, file, line⟩ = message ++ " [" ++ code ++ "]" ∧
    (∀ (cause2 : GoError) (file2 : String) (line2 : Int),
      Error.Error ⟨false, code, message, cause2, file2, line2⟩ =
        Error.Error ⟨false, code, message, cause, file, line⟩) ∧
    Error.Error ⟨true, code, message, .nil, file, line⟩ =
      message ++ " [" ++ file ++ ":" ++ toString line ++ "]" ∧
    (∀ text : String, Error.Error ⟨true, code, message, .foreign text, file, line⟩ =
      text ++ " [" ++ file ++ ":" ++ toString line ++ "]") ∧
    (∀ c : Error, Error.Error ⟨true, code, message, .ptr c, file, line⟩ =
      Error.Error c ++ " [" ++ file ++ ":" ++ toString line ++ "]") ∧
    samplePrivate.Error = "lookup failed [2F7372CLP74RRI5PJMUWWW-71]" ∧
    samplePrivateElsewhere.Error = samplePrivate.Error ∧
    samplePublic.Error = "dial tcp: timeout [/src/e/error.go:71]" ∧
    samplePublicBare.Error = "lookup failed [/src/e/error.go:71]" := by
  refine ⟨?_, ?_, ?_, ?_, ?_, by decide, by decide, by decide, by decide⟩
  · cases cause <;> rfl
  · intro cause2 file2 line2
    cases cause <;> cases cause2 <;> rfl
  · simp [Error.Error, GoError.Error]
  · intro text
    simp [Error.Error, GoError.Error]
  · intro c
    simp [Error.Error, GoError.Error]

/-- With a cause that is an `*Error`, `newError` hands on its code, cause, file and line,
whatever the call stack is. -/
theorem newError_ptr (stack : List Frame) (message : String) (isPublic : Bool) (c : Error) :
    newError stack message isPublic (.ptr c) =
      { IsPublic := isPublic, Code := c.Code, Message := message, Cause := c.Cause,
        File := c.File, Line := c.Line } := rfl

/-- What holds of the claim on wrapping: an error built by `NewError` or `NewPublicError`
from a cause `c` that is an `*Error` has the code, the file and the line of `c` and the
cause of `c`, with the new message and visibility, and wrapping `c` any number of times
changes neither its code nor its location nor its cause; with a cause that is nil or of
another type, the cause is the one supplied. -/
theorem wrapping_keeps_code_and_location (src message : String) (callers : List Frame)
    (c : Error) :
    NewError src callers message (.ptr c) =
      { IsPublic := false, Code := c.Code, Message := message, Cause := c.Cause,
        File := c.File, Line := c.Line } ∧
    NewPublicError src callers message (.ptr c) =
      { IsPublic := true, Code := c.Code, Message := message, Cause := c.Cause,
        File := c.File, Line := c.Line } ∧
    (∀ wraps : List Wrap,
      (wrapAll src wraps c).Code = c.Code ∧ (wrapAll src wraps c).File = c.File ∧
      (wrapAll src wraps c).Line = c.Line ∧ (wrapAll src wraps c).Cause = c.Cause) ∧
    (NewError src callers message .nil).Cause = .nil ∧
    (NewPublicError src callers message .nil).Cause = .nil ∧
    (∀ text : String, (NewError src callers message (.foreign text)).Cause = .foreign text) ∧
    (∀ text : String,
      (NewPublicError src callers message (.foreign text)).Cause = .foreign text) := by
  refine ⟨rfl, rfl, ?_, rfl, rfl, fun _ => rfl, fun _ => rfl⟩
  intro wraps
  induction wraps using List.reverseRecOn with
  | nil => exact ⟨rfl, rfl, rfl, rfl⟩
  | append_singleton ws w ih =>
    simp only [wrapAll, List.foldl_append, List.foldl_cons, List.foldl_nil] at ih ⊢
    split
    · exact ih
    · exact ih

/-- With a cause that is nil or of another type, the file and the line of the new error
are those of the line inside the constructor that calls `newError`, in error.go, for every
stack the constructor is called from: the call site of the constructor is not looked at. -/
theorem constructor_location (src message : String) (callers : List Frame) :
    (New src callers message).File = src ∧ (New src callers message).Line = 63 ∧
    (New src callers message).Code = codeOf src 63 ∧
    (NewPublic src callers message).File = src ∧ (NewPublic src callers message).Line = 67 ∧
    (NewError src callers message .nil).File = src ∧
    (NewError src callers message .nil).Line = 71 ∧
    (NewPublicError src callers message .nil).File = src ∧
    (NewPublicError src callers message .nil).Line = 75 ∧
    (∀ text : String, (NewError src callers message (.foreign text)).File = src ∧
      (NewError src callers message (.foreign text)).Line = 71 ∧
      (NewError src callers message (.foreign text)).Code = codeOf src 71) ∧
    (∀ text : String, (NewPublicError src callers message (.foreign text)).File = src ∧
      (NewPublicError src callers message (.foreign text)).Line = 75 ∧
      (NewPublicError src callers message (.foreign text)).Code = codeOf src 75) :=
  ⟨rfl, rfl, rfl, rfl, rfl, rfl, rfl, rfl, rfl, fun _ => ⟨rfl, rfl, rfl⟩,
    fun _ => ⟨rfl, rfl, rfl⟩⟩

/-- C18, the code at the failing input: `NewError("outer", errors.New("boom"))` called
from /app/handler.go:120 and called from /app/main.go:7 build the same error, with the
file and line of the call of `newError` inside `NewError` (error.go, line 71) and the code
derived from these, not from the call site; `New` gives line 63 in the same way. -/
theorem NewError_location_is_not_the_call_site :
    (NewError sampleSrc handlerSite "outer" (.foreign "boom")).File = "/src/e/error.go" ∧
    (NewError sampleSrc handlerSite "outer" (.foreign "boom")).Line = 71 ∧
    (NewError sampleSrc handlerSite "outer" (.foreign "boom")).Code =
      "2F7372CLP74RRI5PJMUWWW-71" ∧
    (NewError sampleSrc mainSite "outer" (.foreign "boom")).File = "/src/e/error.go" ∧
    (NewError sampleSrc mainSite "outer" (.foreign "boom")).Line = 71 ∧
    (NewError sampleSrc mainSite "outer" (.foreign "boom")).Code =
      "2F7372CLP74RRI5PJMUWWW-71" ∧
    (New sampleSrc handlerSite "m").File = "/src/e/error.go" ∧
    (New sampleSrc handlerSite "m").Line = 63 ∧
    (New sampleSrc mainSite "m").File = "/src/e/error.go" ∧
    (New sampleSrc mainSite "m").Line = 63 := by
  decide

end e
